import Mathlib

/-!
# cloud-sql-backup: the `check`, `in` and `out` verbs

A shallow embedding of the three Go programs `check/main.go`, `in/main.go` and
`out/main.go`.  What the programs receive from outside (the decoded stdin
payload, the arguments, the answers of the service, the zone database, the
results of the file operations) is an explicit parameter, and what they do (a
call of the service, a sleep, a log line, a file created or written, a payload
printed, the way the process ends) is recorded as an event of a trace.  The
library functions `sort.Slice` and `Time.Format` are modelled from the Go
standard library.
-/

namespace CloudSqlBackup

deriving instance DecidableEq for Except

/-! ## Instants, zones and the RFC 3339 layout (Go package `time`) -/

/-- A `*time.Location`: a zone name, the offset (seconds east of UTC) in force
before the first transition, and the transitions `(instant, offset from then on)`
in ascending order of instant.  Instants are seconds since
0001-01-01T00:00:00Z. -/
structure Location where
  name : String
  offset0 : Int
  tx : List (Int × Int)
deriving DecidableEq, Repr

/-- The location `time.UTC`. -/
def UTC : Location := ⟨"UTC", 0, []⟩

/-- The offset in force at an instant: that of the last transition not after it. -/
def Location.lookup (l : Location) (sec : Int) : Int :=
  l.tx.foldl (fun off p => if p.1 ≤ sec then p.2 else off) l.offset0

/-- A `time.Time`: an instant, in nanoseconds since 0001-01-01T00:00:00Z (the
zero value of the Go type is instant `0`; instants before it are negative), and
the location it is displayed in. -/
structure Time where
  ns : Int
  loc : Location
deriving DecidableEq, Repr

/-- The zero `time.Time`, what a field keeps when the JSON document has no value
for it. -/
def Time.zero : Time := ⟨0, UTC⟩

/-- The Go `t.IsZero()`. -/
def Time.IsZero (t : Time) : Bool := decide (t.ns = 0)

/-- The Go `t.Before(u)`: the instants are compared, the locations are not. -/
def Time.Before (t u : Time) : Bool := decide (t.ns < u.ns)

/-- The Go `t.In(loc)`: the same instant, displayed in `loc`. -/
def Time.In (t : Time) (loc : Location) : Time := { t with loc := loc }

/-- Whole seconds of the instant (rounded down). -/
def Time.sec (t : Time) : Int := t.ns / 1000000000

/-- Days before each month of a common year, as in Go's `daysBefore`. -/
def daysBefore : List Int := [0, 31, 59, 90, 120, 151, 181, 212, 243, 273, 304, 334, 365]

/-- Gregorian leap year. -/
def isLeap (year : Int) : Bool :=
  decide (year % 4 = 0) && (decide (year % 100 ≠ 0) || decide (year % 400 = 0))

/-- Year and day of the year (from 0) of a day number, counted from
0001-01-01 = day 0, by 400-, 100-, 4- and 1-year cycles. -/
def absYear (d : Int) : Int × Int :=
  let n400 := d / 146097
  let d1 := d % 146097
  let c := d1 / 36524
  let n100 := c - c / 4
  let d2 := d1 - 36524 * n100
  let n4 := d2 / 1461
  let d3 := d2 - 1461 * n4
  let y := d3 / 365
  let n := y - y / 4
  (1 + 400 * n400 + 100 * n100 + 4 * n4 + n, d3 - 365 * n)

/-- Month (1..12) and day of the month (1..31) of a day of the year (from 0)
of a leap or a common year. -/
def monthDay (leap : Bool) (yday : Int) : Int × Int :=
  if leap && decide (yday = 59) then (2, 29)
  else
    let day := if leap && decide (yday > 59) then yday - 1 else yday
    let m := day / 31
    let e := daysBefore.getD (m + 1).toNat 0
    if day ≥ e then (m + 2, day - e + 1)
    else (m + 1, day - daysBefore.getD m.toNat 0 + 1)

/-- The fields of a civil date and time of day. -/
structure Civil where
  year : Int
  month : Int
  day : Int
  hour : Int
  minute : Int
  second : Int
deriving DecidableEq, Repr

/-- The civil reading of a clock that shows `abs` seconds since
0001-01-01T00:00:00 on its own dial. -/
def civilOf (abs : Int) : Civil :=
  let yd := absYear (abs / 86400)
  let md := monthDay (isLeap yd.1) yd.2
  let s := abs % 86400
  ⟨yd.1, md.1, md.2, s / 3600, s % 3600 / 60, s % 60⟩

/-- Days from 0001-01-01 to the first day of a year of the proleptic Gregorian
calendar. -/
def daysToYear (year : Int) : Int :=
  365 * (year - 1) + (year - 1) / 4 - (year - 1) / 100 + (year - 1) / 400

/-- Days from the first day of a year to the day with a given month and day of
the month. -/
def dayOfYear (leap : Bool) (month day : Int) : Int :=
  daysBefore.getD (month - 1).toNat 0 + (if leap && decide (month > 2) then 1 else 0) + (day - 1)

/-- The seconds from 0001-01-01T00:00:00 to a civil date and time, both read on
the same clock: the days of the whole years, the days of the year, the time of
day. -/
def Civil.toSeconds (c : Civil) : Int :=
  (daysToYear c.year + dayOfYear (isLeap c.year) c.month c.day) * 86400
    + c.hour * 3600 + c.minute * 60 + c.second

/-- Decimal digits of a natural number, most significant first; `fuel` bounds
the number of digits. -/
def digitsAux : Nat → Nat → List Char → List Char
  | 0, _, acc => acc
  | fuel + 1, n, acc =>
    let acc1 := Char.ofNat (48 + n % 10) :: acc
    if n / 10 = 0 then acc1 else digitsAux fuel (n / 10) acc1

/-- Go's `appendInt`: the decimal rendering of `x`, a minus sign first when it
is negative, zero-padded to `width` digits. -/
def appendInt (x : Int) (width : Nat) : String :=
  let ds := digitsAux 20 x.natAbs []
  String.mk ((if x < 0 then ['-'] else []) ++ List.replicate (width - ds.length) '0' ++ ds)

/-- The layout element `Z07:00`: `Z` for offset zero, otherwise the sign, the
hours and the minutes of the offset. -/
def zoneSuffix (offset : Int) : String :=
  if offset = 0 then "Z"
  else
    let zone := Int.natAbs (Int.tdiv offset 60)
    (if Int.tdiv offset 60 < 0 then "-" else "+") ++ appendInt (zone / 60 : Nat) 2 ++ ":"
      ++ appendInt (zone % 60 : Nat) 2

/-- The layout `2006-01-02T15:04:05` applied to civil fields. -/
def layoutDateTime (c : Civil) : String :=
  appendInt c.year 4 ++ "-" ++ appendInt c.month 2 ++ "-" ++ appendInt c.day 2 ++ "T"
    ++ appendInt c.hour 2 ++ ":" ++ appendInt c.minute 2 ++ ":" ++ appendInt c.second 2

/-- The Go `t.Format(time.RFC3339)`: the offset of the location at the instant is
looked up, the civil fields are read off the instant shifted by that offset,
and the layout `2006-01-02T15:04:05Z07:00` is filled in (no fraction of a
second). -/
def Time.Format (t : Time) : String :=
  let offset := t.loc.lookup t.sec
  layoutDateTime (civilOf (t.sec + offset)) ++ zoneSuffix offset

/-- Seconds from 0001-01-01T00:00:00Z to 1970-01-01T00:00:00Z. -/
def unixToInternal : Int := 62135596800

/-- The instant of a Unix time in seconds, in UTC. -/
def Time.ofUnix (s : Int) : Time := ⟨(s + unixToInternal) * 1000000000, UTC⟩

/-! ### Reading an RFC 3339 text -/

/-- The value of a decimal digit. -/
def digitOf (c : Char) : Option Nat :=
  if 48 ≤ c.toNat ∧ c.toNat ≤ 57 then some (c.toNat - 48) else none

/-- Two decimal digits at the head of a text: their value and the rest. -/
def read2 : List Char → Option (Nat × List Char)
  | a :: b :: rest =>
    match digitOf a, digitOf b with
    | some x, some y => some (10 * x + y, rest)
    | _, _ => none
  | _ => none

/-- Four decimal digits at the head of a text: their value and the rest. -/
def read4 : List Char → Option (Nat × List Char)
  | a :: b :: c :: d :: rest =>
    match digitOf a, digitOf b, digitOf c, digitOf d with
    | some x, some y, some z, some w => some (1000 * x + 100 * y + 10 * z + w, rest)
    | _, _, _, _ => none
  | _ => none

/-- The character `c` at the head of a text: the rest. -/
def expect (c : Char) : List Char → Option (List Char)
  | x :: rest => if x = c then some rest else none
  | [] => none

/-- The `time-offset` of RFC 3339, which ends the text: `Z`, or a sign, two
digits of hours, a colon and two digits of minutes; in seconds east of UTC. -/
def readOffset : List Char → Option Int
  | [] => none
  | sign :: rest =>
    if sign = 'Z' then (if rest = [] then some 0 else none)
    else
      match read2 rest with
      | none => none
      | some (hh, rest) =>
        match expect ':' rest with
        | none => none
        | some rest =>
          match read2 rest with
          | some (mm, []) =>
            if hh < 24 ∧ mm < 60 then
              if sign = '+' then some ((hh : Int) * 3600 + (mm : Int) * 60)
              else if sign = '-' then some (-((hh : Int) * 3600 + (mm : Int) * 60))
              else none
            else none
          | _ => none

/-- Days of a month of a leap or a common year. -/
def daysIn (leap : Bool) (month : Int) : Int :=
  if month = 2 then (if leap then 29 else 28)
  else if month = 4 ∨ month = 6 ∨ month = 9 ∨ month = 11 then 30
  else 31

/-- The fields are those of a date of the calendar and of a time of day. -/
def Civil.valid (c : Civil) : Bool :=
  decide (1 ≤ c.month ∧ c.month ≤ 12 ∧ 1 ≤ c.day ∧ c.day ≤ daysIn (isLeap c.year) c.month ∧
    0 ≤ c.hour ∧ c.hour < 24 ∧ 0 ≤ c.minute ∧ c.minute < 60 ∧ 0 ≤ c.second ∧ c.second < 60)

/-- The reading of an RFC 3339 `date-time` without fraction of a second,
`yyyy-mm-ddThh:mm:ss` followed by `Z` or `±hh:mm`: the date and time of day the
text shows, which must exist, and the offset from UTC of the clock that shows
them, in seconds.  The instant the text denotes is the one at which the UTC
clock shows that date and time less the offset. -/
def parseRFC3339 (s : String) : Option (Civil × Int) :=
  match read4 s.data with
  | none => none
  | some (year, r) =>
    match expect '-' r with
    | none => none
    | some r =>
      match read2 r with
      | none => none
      | some (month, r) =>
        match expect '-' r with
        | none => none
        | some r =>
          match read2 r with
          | none => none
          | some (day, r) =>
            match expect 'T' r with
            | none => none
            | some r =>
              match read2 r with
              | none => none
              | some (hour, r) =>
                match expect ':' r with
                | none => none
                | some r =>
                  match read2 r with
                  | none => none
                  | some (minute, r) =>
                    match expect ':' r with
                    | none => none
                    | some r =>
                      match read2 r with
                      | none => none
                      | some (second, r) =>
                        match readOffset r with
                        | none => none
                        | some offset =>
                          let c : Civil := ⟨year, month, day, hour, minute, second⟩
                          if c.valid then some (c, offset) else none

/-! ## The data model shared by `check` and `in` -/

/-- The `source` object of the stdin payload. -/
structure SourceConfig where
  Project : String
  Instance : String
  PrivateKey : String
deriving DecidableEq, Repr

/-- The `version` object of the stdin payload; an absent version decodes to the
empty `backup_id`. -/
structure VersionConfig where
  BackupID : String
deriving DecidableEq, Repr

/-- The Go `JSONSource` of `check/main.go` and `in/main.go`. -/
structure JSONSource where
  Source : SourceConfig
  Version : VersionConfig
deriving DecidableEq, Repr

/-- The Go `BackupItem` of `check/main.go` and `in/main.go` (the two declarations are
identical): one backup run as decoded from the service's JSON. -/
structure BackupItem where
  Kind : String
  Status : String
  EnqueuedTime : Time
  BackupID : String
  StartTime : Time
  EndTime : Time
  Type_ : String
  WindowStartTime : Time
  Instance : String
  SelfLink : String
  Location : String
  BackupKind : String
deriving DecidableEq, Repr

/-- The assignment `backupRun.EndTime = t`. -/
def BackupItem.setEndTime (backupRun : BackupItem) (t : Time) : BackupItem :=
  { backupRun with EndTime := t }

/-- The Go `Metadata`: one name/value pair of an emitted payload. -/
structure Metadata where
  Name : String
  Value : String
deriving DecidableEq, Repr

/-- The value of the first entry of a metadata list that has a given name. -/
def valueOf (name : String) (ms : List Metadata) : Option String :=
  (ms.find? (fun m => m.Name = name)).map (fun m => m.Value)

/-- The functions of the three programs that perform an HTTP call. -/
inductive Rpc where
  | ListBackupRuns
  | GetBackupItem
  | GetBackupState
  | InsertBackupRuns
deriving DecidableEq, Repr

/-- What a program does that the outside can observe, in order; `π` is the
type of the payload it prints on stdout. -/
inductive Event (π : Type) where
  /-- Success of `os.Create(path)`: the file exists and is empty. -/
  | create (path : String)
  /-- Bytes written to the file created at `path`. -/
  | write (path : String) (content : String)
  /-- The Go `os.Setenv`. -/
  | setenv (key : String) (value : String)
  /-- One call of a function that performs an HTTP request to `url`. -/
  | call (f : Rpc) (url : String)
  /-- The Go `log.Println`. -/
  | log (msg : String)
  /-- The Go `time.Sleep` of so many seconds. -/
  | sleep (seconds : Nat)
  /-- The Go `fmt.Println` of the JSON encoding of a payload. -/
  | print (payload : π)
deriving DecidableEq, Repr

/-- How a run ends. `blocked` is the state of a run that has used up the
scripted responses of the service and waits for the next one. -/
inductive Exit where
  /-- Return of `main`: exit status 0. -/
  | ok
  /-- The Go `log.Fatal`: the error is logged and the process exits with status 1. -/
  | fatal (err : String)
  /-- The Go `log.Panicln` or a run-time panic: exit status 2. -/
  | panic (msg : String)
  | blocked
deriving DecidableEq, Repr

/-- A run: its events in order and how it ended. -/
structure Outcome (π : Type) where
  trace : List (Event π)
  exit : Exit

/-- The payloads a run printed, in order. -/
def Outcome.printed {π : Type} (o : Outcome π) : List π :=
  o.trace.filterMap (fun e => match e with | .print p => some p | _ => none)

/-- The calls a run made, in order. -/
def Outcome.calls {π : Type} (o : Outcome π) : List (Rpc × String) :=
  o.trace.filterMap (fun e => match e with | .call f u => some (f, u) | _ => none)

/-- The sleeps of a run, in order, in seconds. -/
def Outcome.sleeps {π : Type} (o : Outcome π) : List Nat :=
  o.trace.filterMap (fun e => match e with | .sleep s => some s | _ => none)

/-- The files a run created or wrote to, in order. -/
def Outcome.files {π : Type} (o : Outcome π) : List String :=
  o.trace.filterMap (fun e => match e with
    | .create p => some p
    | .write p _ => some p
    | _ => none)

/-- A run that does `pre` and then goes on as `o`. -/
def Outcome.after {π : Type} (pre : List (Event π)) (o : Outcome π) : Outcome π :=
  ⟨pre ++ o.trace, o.exit⟩

/-- What the programs use of the machine they run on.  An operation that can
fail returns `some err` (or `.error err`) when it does. -/
structure Env where
  /-- The Go `os.Create(path)`. -/
  Create : String → Option String
  /-- The Go `file.WriteString` and `file.Write` on the file created at `path`. -/
  Write : String → String → Option String
  /-- The Go `time.LoadLocation(name)`, answered from the zone database of the machine. -/
  LoadLocation : String → Except String Location
  /-- The Go `json.MarshalIndent` of a backup run (it fails when a time field cannot
  be rendered). -/
  MarshalIndent : BackupItem → Except String String

/-- The Go `WriteCredentialToFile` (the same in the three programs): the key is
written to `/service-account.json` and the variable
`GOOGLE_APPLICATION_CREDENTIALS` is pointed at it. -/
def WriteCredentialToFile {π : Type} (env : Env) (key : String) :
    List (Event π) × Option String :=
  match env.Create "/service-account.json" with
  | some err => ([], some err)
  | none =>
    match env.Write "/service-account.json" key with
    | some err => ([.create "/service-account.json"], some err)
    | none =>
      ([.create "/service-account.json", .write "/service-account.json" key,
        .setenv "GOOGLE_APPLICATION_CREDENTIALS" "/service-account.json"], none)

/-- The URL of the collection of backup runs of an instance. -/
def backupRunsURL (s : SourceConfig) : String :=
  "https://sqladmin.googleapis.com/v1/projects/" ++ s.Project ++ "/instances/" ++ s.Instance
    ++ "/backupRuns"

/-- The URL of one backup run. -/
def backupRunURL (input : JSONSource) : String :=
  backupRunsURL input.Source ++ "/" ++ input.Version.BackupID

/-! ## The sort of the Go standard library (package `sort`)

The slice is a list; an index outside it makes `Less` false and `Swap` do
nothing (the Go code never uses one). -/

namespace GoSort

/-- The call `data.Less(i, j)` of the slice held in `data`. -/
def lessAt {α : Type} (less : α → α → Bool) (data : List α) (i j : Nat) : Bool :=
  match data[i]?, data[j]? with
  | some x, some y => less x y
  | _, _ => false

/-- The call `data.Swap(i, j)`. -/
def swapAt {α : Type} (data : List α) (i j : Nat) : List α :=
  match data[i]?, data[j]? with
  | some x, some y => (data.set i y).set j x
  | _, _ => data

/-- The inner loop of `insertionSort_func`:
`for j := i; j > a && data.Less(j, j-1); j-- { data.Swap(j, j-1) }`; it runs at
most `j - a` times, which the first argument bounds. -/
def insertionSort_inner {α : Type} (less : α → α → Bool) :
    Nat → List α → Nat → Nat → List α
  | 0, data, _, _ => data
  | fuel + 1, data, a, j =>
    if a < j ∧ lessAt less data j (j - 1) = true then
      insertionSort_inner less fuel (swapAt data j (j - 1)) a (j - 1)
    else data

/-- The outer loop of `insertionSort_func`: `for i := a + 1; i < b; i++`. -/
def insertionSort_outer {α : Type} (less : α → α → Bool) :
    Nat → List α → Nat → Nat → Nat → List α
  | 0, data, _, _, _ => data
  | fuel + 1, data, a, b, i =>
    if i < b then insertionSort_outer less fuel (insertionSort_inner less i data a i) a b (i + 1)
    else data

/-- Go's `insertionSort_func`: sorts `data[a:b]` by insertion. -/
def insertionSort_func {α : Type} (less : α → α → Bool) (data : List α) (a b : Nat) : List α :=
  insertionSort_outer less (b - a) data a b (a + 1)

/-- Go's `siftDown_func(data, lo, hi, first)`, with `root` starting at `lo`; the
first argument bounds the number of rounds (`root` grows and stays below `hi`). -/
def siftDown_func {α : Type} (less : α → α → Bool) :
    Nat → List α → Nat → Nat → Nat → List α
  | 0, data, _, _, _ => data
  | fuel + 1, data, root, hi, first =>
    let child := 2 * root + 1
    if child ≥ hi then data
    else
      let child :=
        if child + 1 < hi ∧ lessAt less data (first + child) (first + child + 1) = true
        then child + 1 else child
      if lessAt less data (first + root) (first + child) = false then data
      else siftDown_func less fuel (swapAt data (first + root) (first + child)) child hi first

/-- First loop of `heapSort_func`:
`for i := (hi - 1) / 2; i >= 0; i-- { siftDown_func(data, i, hi, first) }`; the
counter is `i + 1`. -/
def heapSort_build {α : Type} (less : α → α → Bool) (hi first : Nat) : Nat → List α → List α
  | 0, data => data
  | i + 1, data => heapSort_build less hi first i (siftDown_func less hi data i hi first)

/-- Second loop of `heapSort_func`: `for i := hi - 1; i >= 0; i--`, which swaps
the first element with element `i` and sifts down; the counter is `i + 1`. -/
def heapSort_pop {α : Type} (less : α → α → Bool) (first : Nat) : Nat → List α → List α
  | 0, data => data
  | i + 1, data =>
    heapSort_pop less first i (siftDown_func less i (swapAt data first (first + i)) 0 i first)

/-- Go's `heapSort_func`. -/
def heapSort_func {α : Type} (less : α → α → Bool) (data : List α) (a b : Nat) : List α :=
  let first := a
  let hi := b - a
  heapSort_pop less first hi (heapSort_build less hi first ((hi - 1) / 2 + 1) data)

/-- The loop `for i <= j && data.Less(i, a) { i++ }`. -/
def scanUp {α : Type} (less : α → α → Bool) (data : List α) (a j : Nat) : Nat → Nat → Nat
  | 0, i => i
  | fuel + 1, i => if i ≤ j ∧ lessAt less data i a = true then scanUp less data a j fuel (i + 1) else i

/-- The loop `for i <= j && !data.Less(j, a) { j-- }`. -/
def scanDown {α : Type} (less : α → α → Bool) (data : List α) (a i : Nat) : Nat → Nat → Nat
  | 0, j => j
  | fuel + 1, j =>
    if i ≤ j ∧ lessAt less data j a = false then scanDown less data a i fuel (j - 1) else j

/-- The `for` loop of `partition_func` after the first swap; it returns the data
and `j`. -/
def partition_loop {α : Type} (less : α → α → Bool) (a : Nat) :
    Nat → List α → Nat → Nat → List α × Nat
  | 0, data, _, j => (data, j)
  | fuel + 1, data, i, j =>
    let i := scanUp less data a j data.length i
    let j := scanDown less data a i data.length j
    if i > j then (data, j)
    else partition_loop less a fuel (swapAt data i j) (i + 1) (j - 1)

/-- Go's `partition_func`: one quicksort partition of `data[a:b]` around
`data[pivot]`; it returns the data, the new index of the pivot and whether the
range was already partitioned. -/
def partition_func {α : Type} (less : α → α → Bool) (data : List α) (a b pivot : Nat) :
    List α × Nat × Bool :=
  let data := swapAt data a pivot
  let i := a + 1
  let j := b - 1
  let i := scanUp less data a j data.length i
  let j := scanDown less data a i data.length j
  if i > j then (swapAt data j a, j, true)
  else
    let data := swapAt data i j
    let r := partition_loop less a data.length data (i + 1) (j - 1)
    (swapAt r.1 r.2 a, r.2, false)

/-- The loop `for i <= j && !data.Less(a, i) { i++ }`. -/
def scanUpEqual {α : Type} (less : α → α → Bool) (data : List α) (a j : Nat) : Nat → Nat → Nat
  | 0, i => i
  | fuel + 1, i =>
    if i ≤ j ∧ lessAt less data a i = false then scanUpEqual less data a j fuel (i + 1) else i

/-- The loop `for i <= j && data.Less(a, j) { j-- }`. -/
def scanDownEqual {α : Type} (less : α → α → Bool) (data : List α) (a i : Nat) : Nat → Nat → Nat
  | 0, j => j
  | fuel + 1, j =>
    if i ≤ j ∧ lessAt less data a j = true then scanDownEqual less data a i fuel (j - 1) else j

/-- The `for` loop of `partitionEqual_func`; it returns the data and `i`. -/
def partitionEqual_loop {α : Type} (less : α → α → Bool) (a : Nat) :
    Nat → List α → Nat → Nat → List α × Nat
  | 0, data, i, _ => (data, i)
  | fuel + 1, data, i, j =>
    let i := scanUpEqual less data a j data.length i
    let j := scanDownEqual less data a i data.length j
    if i > j then (data, i)
    else partitionEqual_loop less a fuel (swapAt data i j) (i + 1) (j - 1)

/-- Go's `partitionEqual_func`: the elements equal to the pivot first, then the
greater ones. -/
def partitionEqual_func {α : Type} (less : α → α → Bool) (data : List α) (a b pivot : Nat) :
    List α × Nat :=
  let data := swapAt data a pivot
  partitionEqual_loop less a (data.length + 1) data (a + 1) (b - 1)

/-- The loop `for i < b && !data.Less(i, i-1) { i++ }`. -/
def skipOrdered {α : Type} (less : α → α → Bool) (data : List α) (b : Nat) : Nat → Nat → Nat
  | 0, i => i
  | fuel + 1, i =>
    if i < b ∧ lessAt less data i (i - 1) = false then skipOrdered less data b fuel (i + 1) else i

/-- The loop that shifts the smaller element to the left:
`for j := i - 1; j >= 1; j--`, left when `!data.Less(j, j-1)`. -/
def shiftLeft {α : Type} (less : α → α → Bool) : Nat → List α → Nat → List α
  | 0, data, _ => data
  | fuel + 1, data, j =>
    if j ≥ 1 then
      if lessAt less data j (j - 1) = false then data
      else shiftLeft less fuel (swapAt data j (j - 1)) (j - 1)
    else data

/-- The loop that shifts the greater element to the right:
`for j := i + 1; j < b; j++`, left when `!data.Less(j, j-1)`. -/
def shiftRight {α : Type} (less : α → α → Bool) (b : Nat) : Nat → List α → Nat → List α
  | 0, data, _ => data
  | fuel + 1, data, j =>
    if j < b then
      if lessAt less data j (j - 1) = false then data
      else shiftRight less b fuel (swapAt data j (j - 1)) (j + 1)
    else data

/-- One round of shifting in `partialInsertionSort_func`: the pair out of order
at `i` is swapped, the smaller element is shifted to the left and the greater
one to the right. -/
def partialInsertionSort_shift {α : Type} (less : α → α → Bool) (data : List α)
    (a b i : Nat) : List α :=
  let data := swapAt data i (i - 1)
  let data := if i - a ≥ 2 then shiftLeft less data.length data (i - 1) else data
  if b - i ≥ 2 then shiftRight less b data.length data (i + 1) else data

/-- The loop of `partialInsertionSort_func` over at most `maxSteps` rounds. -/
def partialInsertionSort_loop {α : Type} (less : α → α → Bool) (a b : Nat) :
    Nat → List α → Nat → List α × Bool
  | 0, data, _ => (data, false)
  | steps + 1, data, i =>
    let i := skipOrdered less data b data.length i
    if i = b then (data, true)
    else if b - a < 50 then (data, false)
    else partialInsertionSort_loop less a b steps (partialInsertionSort_shift less data a b i) i

/-- Go's `partialInsertionSort_func`, with `maxSteps = 5` and
`shortestShifting = 50`; it returns the data and whether the range is sorted. -/
def partialInsertionSort_func {α : Type} (less : α → α → Bool) (data : List α) (a b : Nat) :
    List α × Bool :=
  partialInsertionSort_loop less a b 5 data (a + 1)

/-- Number of binary digits of `n`, counted with a bound on the digits. -/
def bitsLen_aux : Nat → Nat → Nat
  | 0, _ => 0
  | fuel + 1, n => if n = 0 then 0 else 1 + bitsLen_aux fuel (n / 2)

/-- Go's `bits.Len`. -/
def bitsLen (n : Nat) : Nat := bitsLen_aux 64 n

/-- The method `Next` of `xorshift`, on 64 bits, with the shifts 13, 17 and 5 of
Go 1.19 to 1.23. -/
def xorshift_Next (r : Nat) : Nat :=
  let r := (r ^^^ (r <<< 13)) % 2 ^ 64
  let r := r ^^^ (r >>> 17)
  (r ^^^ (r <<< 5)) % 2 ^ 64

/-- Go's `nextPowerOfTwo`. -/
def nextPowerOfTwo (length : Nat) : Nat := 2 ^ bitsLen length

/-- The three swaps of `breakPatterns_func`. -/
def breakPatterns_loop {α : Type} (a length modulus idx : Nat) :
    Nat → Nat → Nat → List α → List α
  | 0, _, _, data => data
  | n + 1, i, random, data =>
    let random := xorshift_Next random
    let other := random % modulus
    let other := if other ≥ length then other - length else other
    breakPatterns_loop a length modulus idx n (i + 1) random (swapAt data (idx - 1 + i) (a + other))

/-- Go's `breakPatterns_func` as in Go 1.19 to 1.23: three elements around the
middle are swapped with elements picked by the generator seeded with the
length. -/
def breakPatterns_func {α : Type} (data : List α) (a b : Nat) : List α :=
  let length := b - a
  if length ≥ 8 then
    breakPatterns_loop a length (nextPowerOfTwo length) (a + (length / 4) * 2 - 1) 3 0 length data
  else data

/-- Go's `sortedHint`. -/
inductive sortedHint where
  | unknownHint
  | increasingHint
  | decreasingHint
deriving DecidableEq, Repr

/-- Go's `order2_func`: the two indices in order of their elements, and the
count of swaps so far. -/
def order2_func {α : Type} (less : α → α → Bool) (data : List α) (a b swaps : Nat) :
    Nat × Nat × Nat :=
  if lessAt less data b a = true then (b, a, swaps + 1) else (a, b, swaps)

/-- Go's `median_func`: the index of the median of three elements, and the count
of swaps. -/
def median_func {α : Type} (less : α → α → Bool) (data : List α) (a b c swaps : Nat) :
    Nat × Nat :=
  let r1 := order2_func less data a b swaps
  let r2 := order2_func less data r1.2.1 c r1.2.2
  let r3 := order2_func less data r1.1 r2.1 r2.2.2
  (r3.2.1, r3.2.2)

/-- Go's `medianAdjacent_func`. -/
def medianAdjacent_func {α : Type} (less : α → α → Bool) (data : List α) (a swaps : Nat) :
    Nat × Nat :=
  median_func less data (a - 1) a (a + 1) swaps

/-- Go's `choosePivot_func`, with `shortestNinther = 50` and `maxSwaps = 12`. -/
def choosePivot_func {α : Type} (less : α → α → Bool) (data : List α) (a b : Nat) :
    Nat × sortedHint :=
  let l := b - a
  let i := a + l / 4 * 1
  let j := a + l / 4 * 2
  let k := a + l / 4 * 3
  let r :=
    if l ≥ 8 then
      if l ≥ 50 then
        let ri := medianAdjacent_func less data i 0
        let rj := medianAdjacent_func less data j ri.2
        let rk := medianAdjacent_func less data k rj.2
        median_func less data ri.1 rj.1 rk.1 rk.2
      else median_func less data i j k 0
    else (j, 0)
  if r.2 = 0 then (r.1, .increasingHint)
  else if r.2 = 12 then (r.1, .decreasingHint)
  else (r.1, .unknownHint)

/-- The loop of `reverseRange_func`. -/
def reverseRange_loop {α : Type} : Nat → List α → Nat → Nat → List α
  | 0, data, _, _ => data
  | fuel + 1, data, i, j =>
    if i < j then reverseRange_loop fuel (swapAt data i j) (i + 1) (j - 1) else data

/-- Go's `reverseRange_func`. -/
def reverseRange_func {α : Type} (data : List α) (a b : Nat) : List α :=
  reverseRange_loop (b - a) data a (b - 1)

/-- The start of a round of `pdqsort_func`, up to the choice of the pivot: after
an unbalanced partition the patterns are broken and `limit` is decreased; the
pivot is chosen; a range that looks decreasing is reversed, and the pivot index
and the hint are adjusted.  It returns the data, `limit`, the pivot index and
the hint. -/
def pdqsort_pivot {α : Type} (less : α → α → Bool) (data : List α) (a b limit : Nat)
    (wasBalanced : Bool) : List α × Nat × Nat × sortedHint :=
  let data := if wasBalanced then data else breakPatterns_func data a b
  let limit := if wasBalanced then limit else limit - 1
  let ph := choosePivot_func less data a b
  if ph.2 = .decreasingHint then
    (reverseRange_func data a b, limit, (b - 1) - (ph.1 - a), .increasingHint)
  else (data, limit, ph.1, ph.2)

/-- Go's `pdqsort_func(data, a, b, limit)`, with `maxInsertion = 12`; the two
flags are its local variables `wasBalanced` and `wasPartitioned`.  One unit of
the first argument is used by each round of its `for` loop and by each
recursive call; every round and every call works on a strictly shorter range,
so `b - a + 1` units are enough. -/
def pdqsort_func {α : Type} (less : α → α → Bool) :
    Nat → List α → Nat → Nat → Nat → Bool → Bool → List α
  | 0, data, _, _, _, _, _ => data
  | fuel + 1, data, a, b, limit, wasBalanced, wasPartitioned =>
    if b - a ≤ 12 then insertionSort_func less data a b
    else if limit = 0 then heapSort_func less data a b
    else
      let p := pdqsort_pivot less data a b limit wasBalanced
      let pis :=
        if wasBalanced ∧ wasPartitioned ∧ p.2.2.2 = .increasingHint then
          partialInsertionSort_func less p.1 a b
        else (p.1, false)
      if pis.2 then pis.1
      else if a > 0 ∧ lessAt less pis.1 (a - 1) p.2.2.1 = false then
        let r := partitionEqual_func less pis.1 a b p.2.2.1
        pdqsort_func less fuel r.1 r.2 b p.2.1 wasBalanced wasPartitioned
      else
        let r := partition_func less pis.1 a b p.2.2.1
        if r.2.1 - a < b - r.2.1 then
          pdqsort_func less fuel (pdqsort_func less fuel r.1 a r.2.1 p.2.1 true true)
            (r.2.1 + 1) b p.2.1 (decide (r.2.1 - a ≥ (b - a) / 8)) r.2.2
        else
          pdqsort_func less fuel (pdqsort_func less fuel r.1 (r.2.1 + 1) b p.2.1 true true)
            a r.2.1 p.2.1 (decide (b - r.2.1 ≥ (b - a) / 8)) r.2.2

/-- Modelled from the Go standard library (package `sort`, Go 1.19 to 1.23; later
releases differ in `breakPatterns_func` and its generator), which is not part of
the repository: `sort.Slice(x, less)`, pattern-defeating
quicksort with insertion sort for ranges of at most 12 elements; `less` is given
on elements instead of indices. -/
def Slice {α : Type} (less : α → α → Bool) (x : List α) : List α :=
  pdqsort_func less (x.length + 1) x 0 x.length (bitsLen x.length) true true

/-! ### Predicates for the proof that the sort sorts -/

/-- A comparison `sort.Slice` can sort by: irreflexive, transitive, and with a
transitive "neither is less" relation. -/
def StrictWeakOrder {α : Type} (less : α → α → Bool) : Prop :=
  (∀ a, less a a = false) ∧
  (∀ a b c, less a b = true → less b c = true → less a c = true) ∧
  (∀ a b c, less a b = false → less b a = false → less b c = false → less c b = false →
    less a c = false ∧ less c a = false)

/-- The two slices differ only by a rearrangement of the range `[a, b)`: what
holds of every element of the range of the first holds of every element of
the range of the second. -/
def Within {α : Type} (d d' : List α) (a b : Nat) : Prop :=
  d'.length = d.length ∧ (∀ k, (k < a ∨ b ≤ k) → d'[k]? = d[k]?) ∧
    ∀ P : α → Prop, (∀ k x, a ≤ k → k < b → d[k]? = some x → P x) →
      ∀ k x, a ≤ k → k < b → d'[k]? = some x → P x

/-- The range `[a, b)` of the slice is in order: no position of it holds an
element less than that of an earlier position. -/
def SortedOn {α : Type} (less : α → α → Bool) (d : List α) (a b : Nat) : Prop :=
  ∀ i j, a ≤ i → i < j → j < b → lessAt less d j i = false

/-- The range `[a, b)` lies in the slice, and the element before it, when there
is one, is not above any element of the range. -/
def Bounded {α : Type} (less : α → α → Bool) (d : List α) (a b : Nat) : Prop :=
  a ≤ b ∧ b ≤ d.length ∧ (0 < a → ∀ k, a ≤ k → k < b → lessAt less d k (a - 1) = false)

/-- In the heap of `hi` elements that starts at `first`, the element of node
`r` is not below those of its children. -/
def HeapAt {α : Type} (less : α → α → Bool) (d : List α) (first hi r : Nat) : Prop :=
  ∀ c, (c = 2 * r + 1 ∨ c = 2 * r + 2) → c < hi → lessAt less d (first + r) (first + c) = false

end GoSort

/-! ## `check` -/

namespace Check

/-- The Go `BackupID` of `check/main.go`: one emitted version. -/
structure BackupID where
  BackupID : String
deriving DecidableEq, Repr

/-- What `sort.Slice` is to its caller: a function from the comparison and the
slice to the reordered slice. -/
abbrev SliceSorter := (BackupItem → BackupItem → Bool) → List BackupItem → List BackupItem

/-- The result of the sort has the elements of the slice, each as often as the
slice: `sort.Slice` moves elements only by swapping two of them. -/
def KeepsElements (sortSlice : SliceSorter) : Prop :=
  ∀ less xs, (sortSlice less xs).Perm xs

/-- The documented contract of `sort.Slice`: the result has the elements of the
slice, and for a proper comparison no element of the result is less than one
before it.  Nothing is promised about the order of elements neither of which
is less than the other ("The sort is not guaranteed to be stable"). -/
def SortSliceContract (sortSlice : SliceSorter) : Prop :=
  KeepsElements sortSlice ∧
    ∀ less xs, GoSort.StrictWeakOrder less →
      (sortSlice less xs).Pairwise (fun a b => less b a = false)

/-- The sort of the Go standard library as a `SliceSorter`. -/
def goSortSlice : SliceSorter := fun less xs => GoSort.Slice less xs

/-- A sort that meets the contract and reverses the order of elements neither
of which is less than the other. -/
def reversingSorter : SliceSorter :=
  fun less xs => xs.reverse.insertionSort (fun a b => less b a = false)

/-- The comparison `ListBackupRuns` hands to `sort.Slice`. -/
def lessEndTime (a b : BackupItem) : Bool := a.EndTime.Before b.EndTime

/-- The service as `check` sees it: the decoded answer to the listing of an
instance's runs and to the request for one run.  An answer is `.error` when the
request cannot be built or sent, no token is obtained, or the body does not
decode. -/
structure Backend where
  backupRuns : SourceConfig → Except String (List BackupItem)
  backupRun : JSONSource → Except String BackupItem

/-- The Go `ListBackupRuns`: the runs of the instance, reordered by
`sort.Slice` with `EndTime.Before` as the comparison. -/
def ListBackupRuns (sortSlice : SliceSorter) (backend : Backend) (input : JSONSource) :
    Except String (List BackupItem) :=
  match backend.backupRuns input.Source with
  | .error err => .error err
  | .ok items => .ok (sortSlice lessEndTime items)

/-- The Go `GetBackupItem`: the run named by the version, as a one-element slice. -/
def GetBackupItem (backend : Backend) (input : JSONSource) : Except String (List BackupItem) :=
  match backend.backupRun input with
  | .error err => .error err
  | .ok backupItem => .ok ([] ++ [backupItem])

/-- The last part of `main`: the ids of the runs are printed. -/
def emit (pre : List (Event (List BackupID))) (backupIDs : List BackupItem) :
    Outcome (List BackupID) :=
  ⟨pre ++ [.print (backupIDs.map (fun backupID => ⟨backupID.BackupID⟩))], .ok⟩

/-- The Go `main` of `check/main.go`; `stdin` is the result of decoding the payload.
Encoding the id list cannot fail (it holds strings only), so that error
branch of the source is not reachable. -/
def main (sortSlice : SliceSorter) (env : Env) (backend : Backend)
    (stdin : Except String JSONSource) : Outcome (List BackupID) :=
  match stdin with
  | .error err => ⟨[], .fatal err⟩
  | .ok input =>
    match WriteCredentialToFile env input.Source.PrivateKey with
    | (evs, some err) => ⟨evs, .fatal err⟩
    | (evs, none) =>
      if input.Version.BackupID = "" then
        match ListBackupRuns sortSlice backend input with
        | .error err => ⟨evs ++ [.call .ListBackupRuns (backupRunsURL input.Source)], .fatal err⟩
        | .ok backupIDs =>
          emit (evs ++ [.call .ListBackupRuns (backupRunsURL input.Source)]) backupIDs
      else
        match GetBackupItem backend input with
        | .error err => ⟨evs ++ [.call .GetBackupItem (backupRunURL input)], .fatal err⟩
        | .ok _ =>
          match ListBackupRuns sortSlice backend input with
          | .error err =>
            ⟨evs ++ [.call .GetBackupItem (backupRunURL input),
              .call .ListBackupRuns (backupRunsURL input.Source)], .fatal err⟩
          | .ok backupIDs =>
            emit (evs ++ [.call .GetBackupItem (backupRunURL input),
              .call .ListBackupRuns (backupRunsURL input.Source)]) backupIDs

end Check

/-! ## `in` -/

namespace In

/-- The Go `Version` of `in/main.go` (JSON name `backup_id`). -/
structure Version where
  ID : String
deriving DecidableEq, Repr

/-- The Go `Output` of `in/main.go`. -/
structure Output where
  Version : Version
  Metadata : List Metadata
deriving DecidableEq, Repr

/-- The Go `writeOutputToFile`: the file is created, the run is encoded, the bytes
are written. -/
def writeOutputToFile (env : Env) (output : BackupItem) (path : String) :
    List (Event Output) × Option String :=
  match env.Create path with
  | some err => ([], some err)
  | none =>
    match env.MarshalIndent output with
    | .error err => ([.create path], some err)
    | .ok encodedOutput =>
      match env.Write path encodedOutput with
      | some err => ([.create path], some err)
      | none => ([.create path, .write path encodedOutput], none)

/-- The branch of the loop for a run whose status is `SUCCESSFUL`. -/
def onSuccessful (env : Env) (outputPath : String) (backupRun : BackupItem) : Outcome Output :=
  match env.LoadLocation "Asia/Taipei" with
  | .error err => ⟨[.log "Backup successful!"], .fatal err⟩
  | .ok taiwanTimeZone =>
    let backupRun : BackupItem := backupRun.setEndTime (backupRun.EndTime.In taiwanTimeZone)
    let output : Output :=
      { Version := { ID := backupRun.BackupID }
        Metadata := [
          { Name := "kind", Value := backupRun.BackupKind },
          { Name := "status", Value := backupRun.Status },
          { Name := "end-time", Value := backupRun.EndTime.Format },
          { Name := "instance", Value := backupRun.Instance }] }
    match writeOutputToFile env backupRun outputPath with
    | (evs, some err) => ⟨[.log "Backup successful!"] ++ evs, .fatal err⟩
    | (evs, none) => ⟨[.log "Backup successful!"] ++ evs ++ [.print output], .ok⟩

/-- The `for` loop of `main`.  The list holds the answers of the service to
the successive calls of `GetBackupState(input)`, in order; each iteration
takes the next one.  An answer is `.error` when the request cannot be built or
sent, no token is obtained, or the body does not decode. -/
def mainLoop (env : Env) (input : JSONSource) (outputPath : String) :
    List (Except String BackupItem) → Outcome Output
  | [] => ⟨[], .blocked⟩
  | .error err :: _ => ⟨[.call .GetBackupState (backupRunURL input)], .fatal err⟩
  | .ok backupRun :: rest =>
    if backupRun.Status = "SUCCESSFUL" then
      (onSuccessful env outputPath backupRun).after [.call .GetBackupState (backupRunURL input)]
    else if backupRun.Status = "ENQUEUED" ∨ backupRun.Status = "RUNNING"
        ∨ backupRun.Status = "PENDING" then
      (mainLoop env input outputPath rest).after
        [.call .GetBackupState (backupRunURL input),
         .log ("Backup state: " ++ backupRun.Status), .sleep 30]
    else
      ⟨[.call .GetBackupState (backupRunURL input)], .panic ("Backup state: " ++ backupRun.Status)⟩

/-- The Go `main` of `in/main.go`; `stdin` is the result of decoding the payload and
`args` is `os.Args`.  Encoding the printed payload cannot fail (it holds
strings only), so that error branch of the source is not reachable. -/
def main (env : Env) (stdin : Except String JSONSource) (args : List String)
    (responses : List (Except String BackupItem)) : Outcome Output :=
  match stdin with
  | .error err => ⟨[], .fatal err⟩
  | .ok input =>
    match WriteCredentialToFile env input.Source.PrivateKey with
    | (evs, some err) => ⟨evs, .fatal err⟩
    | (evs, none) =>
      match args[1]? with
      | none => ⟨evs, .panic "index out of range [1]"⟩
      | some dir => (mainLoop env input (dir ++ "/output.json") responses).after evs

/-- The events of the iterations that observe the runs `pre`, all of them in
a transient status: a call, a log line and a sleep of 30 seconds each. -/
def waits (input : JSONSource) (pre : List BackupItem) : List (Event Output) :=
  pre.flatMap (fun backupRun =>
    [.call .GetBackupState (backupRunURL input),
     .log ("Backup state: " ++ backupRun.Status), .sleep 30])

/-- The run fetched by the last call a run of `in` made, when that call was
answered with a run. -/
def lastFetched (o : Outcome Output) (responses : List (Except String BackupItem)) :
    Option BackupItem :=
  match responses[o.calls.length - 1]? with
  | some (.ok backupRun) => if o.calls.length = 0 then none else some backupRun
  | _ => none

end In

/-! ## `out` -/

namespace Out

/-- The Go `JSONSource` of `out/main.go`: `params` has no field. -/
structure JSONSource where
  Source : SourceConfig
  Parameters : Unit
deriving DecidableEq, Repr

/-- The `backupContext` object of a creation response. -/
structure BackupContext where
  BackupID : String
  Kind : String
deriving DecidableEq, Repr

/-- The Go `InsertResult` of `out/main.go`: the operation the service answers a
creation request with. -/
structure InsertResult where
  Kind : String
  TargetLink : String
  Status : String
  User : String
  InsertTime : Time
  OperationType : String
  OperationID : String
  TargetID : String
  SelfLink : String
  TargetProject : String
  BackupContext : BackupContext
deriving DecidableEq, Repr

/-- The assignment `backupAction.InsertTime = t`. -/
def InsertResult.setInsertTime (backupAction : InsertResult) (t : Time) : InsertResult :=
  { backupAction with InsertTime := t }

/-- The Go `Version` of `out/main.go`. -/
structure Version where
  BackupID : String
deriving DecidableEq, Repr

/-- The Go `Output` of `out/main.go`. -/
structure Output where
  Version : Version
  Metadata : List Metadata
deriving DecidableEq, Repr

/-- The Go `main` of `out/main.go`; `stdin` is the result of decoding the payload and
`response` the answer of the service to the one call of `InsertBackupRuns`.
Encoding the printed payload cannot fail (it holds strings only), so that
error branch of the source is not reachable. -/
def main (env : Env) (stdin : Except String JSONSource)
    (response : Except String InsertResult) : Outcome Output :=
  match stdin with
  | .error err => ⟨[], .fatal err⟩
  | .ok input =>
    match WriteCredentialToFile env input.Source.PrivateKey with
    | (evs, some err) => ⟨evs, .fatal err⟩
    | (evs, none) =>
      match response with
      | .error err => ⟨evs ++ [.call .InsertBackupRuns (backupRunsURL input.Source)], .fatal err⟩
      | .ok backupAction =>
        match env.LoadLocation "Asia/Taipei" with
        | .error err =>
          ⟨evs ++ [.call .InsertBackupRuns (backupRunsURL input.Source)], .fatal err⟩
        | .ok taiwanTimeZone =>
          let backupAction : InsertResult :=
            backupAction.setInsertTime (backupAction.InsertTime.In taiwanTimeZone)
          let output : Output :=
            { Version := { BackupID := backupAction.BackupContext.BackupID }
              Metadata := [
                { Name := "status", Value := backupAction.Status },
                { Name := "insert-time", Value := backupAction.InsertTime.Format },
                { Name := "operation-id", Value := backupAction.OperationID },
                { Name := "operation-type", Value := backupAction.OperationType },
                { Name := "target-instance", Value := backupAction.TargetID }] }
          ⟨evs ++ [.call .InsertBackupRuns (backupRunsURL input.Source), .print output], .ok⟩

end Out

/-! ## Concrete machines, inputs and runs -/

/-- A zone named `Asia/Taipei` that is 8 hours east of UTC at every instant. -/
def taipei : Location := ⟨"Asia/Taipei", 28800, []⟩

/-- A machine on which every operation succeeds: files can be created and
written, the zone database knows `Asia/Taipei`, and a run is encoded as a text
that names its id and status (a stand-in for the JSON text). -/
def envOK : Env where
  Create := fun _ => none
  Write := fun _ _ => none
  LoadLocation := fun name =>
    if name = "Asia/Taipei" then .ok taipei else .error ("unknown time zone " ++ name)
  MarshalIndent := fun backupRun =>
    .ok ("id=" ++ backupRun.BackupID ++ " status=" ++ backupRun.Status)

/-- A machine without a zone database. -/
def envNoZone : Env :=
  { envOK with LoadLocation := fun name => .error ("unknown time zone " ++ name) }

/-- The stdin payload `source: (project p, instance i, private_key k)`,
`version: (backup_id B1)`. -/
def inputB1 : JSONSource := ⟨⟨"p", "i", "k"⟩, ⟨"B1"⟩⟩

/-- The run `B1` of instance `i` in a given status, ended at
2024-01-01T04:00:00Z. -/
def runB1 (status : String) : BackupItem where
  Kind := "sql#backupRun"
  Status := status
  EnqueuedTime := Time.ofUnix 1704081000
  BackupID := "B1"
  StartTime := Time.ofUnix 1704081001
  EndTime := Time.ofUnix 1704081600
  Type_ := "ON_DEMAND"
  WindowStartTime := Time.ofUnix 1704081000
  Instance := "i"
  SelfLink := "https://sqladmin.googleapis.com/v1/projects/p/instances/i/backupRuns/B1"
  Location := "asia"
  BackupKind := "SNAPSHOT"

/-- The stdin payload whose version is `123?alt=json`: the URL built from it
asks for the run `123` with the query `alt=json`. -/
def input123 : JSONSource := ⟨⟨"p", "i", "k"⟩, ⟨"123?alt=json"⟩⟩

/-- The run `123` of instance `i`, `SUCCESSFUL`, ended at 2024-01-01T04:00:00Z. -/
def run123 : BackupItem := { runB1 "SUCCESSFUL" with BackupID := "123" }

/-- The stdin payload of `out` for instance `i` of project `p`. -/
def outInput : Out.JSONSource := ⟨⟨"p", "i", "k"⟩, ()⟩

/-- A creation response with `backupContext.backupId = B1` and `status =
RUNNING`, inserted at 2024-01-01T04:00:00Z. -/
def opB1 : Out.InsertResult where
  Kind := "sql#operation"
  TargetLink := "https://sqladmin.googleapis.com/v1/projects/p/instances/i"
  Status := "RUNNING"
  User := "u"
  InsertTime := Time.ofUnix 1704081600
  OperationType := "BACKUP_VOLUME"
  OperationID := "op-1"
  TargetID := "i"
  SelfLink := "https://sqladmin.googleapis.com/v1/projects/p/operations/op-1"
  TargetProject := "p"
  BackupContext := ⟨"B1", "sql#backupContext"⟩

/-- The zone `Asia/Taipei` of the tz database, which is not part of the
repository, abridged to the summer time of 1975: 8 hours east of UTC, and 9
hours from 1975-04-01T00:00:00+08:00 to 1975-10-01T00:00:00+09:00. -/
def taipeiTZ : Location :=
  ⟨"Asia/Taipei", 28800,
    [(165513600 + unixToInternal, 32400), (181321200 + unixToInternal, 28800)]⟩

/-- A machine on which every operation succeeds and whose zone database holds
`taipeiTZ`. -/
def envTZ : Env :=
  { envOK with
    LoadLocation := fun name =>
      if name = "Asia/Taipei" then .ok taipeiTZ else .error ("unknown time zone " ++ name) }

/-- The run `B1`, `SUCCESSFUL`, ended at 1975-07-01T00:00:00Z. -/
def run1975 : BackupItem :=
  { runB1 "SUCCESSFUL" with EndTime := Time.ofUnix 173404800 }

/-- A creation response inserted at 1975-07-01T00:00:00Z. -/
def op1975 : Out.InsertResult :=
  { opB1 with InsertTime := Time.ofUnix 173404800 }

/-- A creation response inserted at 9999-12-31T20:00:00Z, which is in the year
10000 on a clock 8 hours east of UTC. -/
def op9999 : Out.InsertResult :=
  { opB1 with InsertTime := Time.ofUnix 253402286400 }

/-- A run of instance `i` with a given id, status and end time. -/
def mkRun (id status : String) (endTime : Time) : BackupItem where
  Kind := "sql#backupRun"
  Status := status
  EnqueuedTime := Time.zero
  BackupID := id
  StartTime := Time.zero
  EndTime := endTime
  Type_ := "AUTOMATED"
  WindowStartTime := Time.zero
  Instance := "i"
  SelfLink := ""
  Location := ""
  BackupKind := "SNAPSHOT"

/-- The decoded value of a body with none of the fields of a run (such as the
error document the service sends for an id it does not know). -/
def noRun : BackupItem := mkRun "" "" Time.zero

/-- A service that holds the runs `items`, listed in this order.  A request for
one run is answered with the run of that id or, when there is none, with a
document without the fields of a run; for the id `%zz` no request can be built
(the URL has an invalid escape). -/
def backendOf (items : List BackupItem) : Check.Backend where
  backupRuns := fun _ => .ok items
  backupRun := fun input =>
    if input.Version.BackupID = "%zz" then .error "invalid URL escape"
    else
      match items.find? (fun r => r.BackupID = input.Version.BackupID) with
      | some r => .ok r
      | none => .ok noRun

/-- The stdin payload of `check` with no version. -/
def inputNoVersion : JSONSource := ⟨⟨"p", "i", "k"⟩, ⟨""⟩⟩

/-- The stdin payload of `check` with the version `%zz`. -/
def inputBadEscape : JSONSource := ⟨⟨"p", "i", "k"⟩, ⟨"%zz"⟩⟩

/-- The instant 2024-01-01T04:00:00Z moved back by a number of days. -/
def daysBack (n : Int) : Time := Time.ofUnix (1704081600 - 86400 * n)

/-- Three runs: one ended 2024-01-01, one without end time, one ended
2023-12-31. -/
def threeRuns : List BackupItem :=
  [mkRun "b" "SUCCESSFUL" (daysBack 0), mkRun "u" "RUNNING" Time.zero,
   mkRun "a" "SUCCESSFUL" (daysBack 1)]

/-- The end time `0001-01-01T00:00:00+08:00`: eight hours before the zero
instant. -/
def beforeZero : Time := ⟨-28800 * 1000000000, ⟨"", 28800, []⟩⟩

/-- Two runs: one without end time, then one whose end time is
`0001-01-01T00:00:00+08:00`. -/
def earlyRuns : List BackupItem :=
  [mkRun "unfinished" "RUNNING" Time.zero, mkRun "early" "SUCCESSFUL" beforeZero]

/-- Two runs that ended at the same instant. -/
def tiedRuns : List BackupItem :=
  [mkRun "first" "SUCCESSFUL" (daysBack 0), mkRun "second" "SUCCESSFUL" (daysBack 0)]

/-- Thirteen runs as the service lists them, newest first: two that have no
end time yet, then eleven that ended on the eleven days before. -/
def thirteenRuns : List BackupItem :=
  [mkRun "n13" "RUNNING" Time.zero, mkRun "n12" "ENQUEUED" Time.zero,
   mkRun "d11" "SUCCESSFUL" (daysBack 0), mkRun "d10" "SUCCESSFUL" (daysBack 1),
   mkRun "d09" "SUCCESSFUL" (daysBack 2), mkRun "d08" "SUCCESSFUL" (daysBack 3),
   mkRun "d07" "SUCCESSFUL" (daysBack 4), mkRun "d06" "SUCCESSFUL" (daysBack 5),
   mkRun "d05" "SUCCESSFUL" (daysBack 6), mkRun "d04" "SUCCESSFUL" (daysBack 7),
   mkRun "d03" "SUCCESSFUL" (daysBack 8), mkRun "d02" "SUCCESSFUL" (daysBack 9),
   mkRun "d01" "SUCCESSFUL" (daysBack 10)]

/-! ## Theorems: traces -/

theorem calls_after {π : Type} (pre : List (Event π)) (o : Outcome π) :
    (o.after pre).calls = (⟨pre, Exit.ok⟩ : Outcome π).calls ++ o.calls := by
  simp [Outcome.after, Outcome.calls, List.filterMap_append]

theorem sleeps_after {π : Type} (pre : List (Event π)) (o : Outcome π) :
    (o.after pre).sleeps = (⟨pre, Exit.ok⟩ : Outcome π).sleeps ++ o.sleeps := by
  simp [Outcome.after, Outcome.sleeps, List.filterMap_append]

theorem printed_after {π : Type} (pre : List (Event π)) (o : Outcome π) :
    (o.after pre).printed = (⟨pre, Exit.ok⟩ : Outcome π).printed ++ o.printed := by
  simp [Outcome.after, Outcome.printed, List.filterMap_append]

theorem files_after {π : Type} (pre : List (Event π)) (o : Outcome π) :
    (o.after pre).files = (⟨pre, Exit.ok⟩ : Outcome π).files ++ o.files := by
  simp [Outcome.after, Outcome.files, List.filterMap_append]

theorem after_after {π : Type} (a b : List (Event π)) (o : Outcome π) :
    (o.after b).after a = o.after (a ++ b) := by
  simp [Outcome.after]

theorem exit_after {π : Type} (pre : List (Event π)) (o : Outcome π) :
    (o.after pre).exit = o.exit := rfl

namespace In

/-! ## Theorems: the polling loop of `in` -/

theorem waits_cons (input : JSONSource) (r : BackupItem) (pre : List BackupItem) :
    waits input (r :: pre) =
      [.call .GetBackupState (backupRunURL input), .log ("Backup state: " ++ r.Status),
        .sleep 30] ++ waits input pre := by
  simp [waits]

theorem calls_waits (input : JSONSource) (pre : List BackupItem) :
    (⟨waits input pre, Exit.ok⟩ : Outcome Output).calls =
      List.replicate pre.length (Rpc.GetBackupState, backupRunURL input) := by
  induction pre with
  | nil => simp [waits, Outcome.calls]
  | cons r pre ih =>
    simp only [Outcome.calls] at ih
    simp [waits_cons, Outcome.calls, List.filterMap_append, ih, List.replicate_succ]

theorem sleeps_waits (input : JSONSource) (pre : List BackupItem) :
    (⟨waits input pre, Exit.ok⟩ : Outcome Output).sleeps = List.replicate pre.length 30 := by
  induction pre with
  | nil => simp [waits, Outcome.sleeps]
  | cons r pre ih =>
    simp only [Outcome.sleeps] at ih
    simp [waits_cons, Outcome.sleeps, List.filterMap_append, ih, List.replicate_succ]

theorem printed_waits (input : JSONSource) (pre : List BackupItem) :
    (⟨waits input pre, Exit.ok⟩ : Outcome Output).printed = [] := by
  induction pre with
  | nil => simp [waits, Outcome.printed]
  | cons r pre ih =>
    simp only [Outcome.printed] at ih
    simp [waits_cons, Outcome.printed, List.filterMap_append, ih]

theorem files_waits (input : JSONSource) (pre : List BackupItem) :
    (⟨waits input pre, Exit.ok⟩ : Outcome Output).files = [] := by
  induction pre with
  | nil => simp [waits, Outcome.files]
  | cons r pre ih =>
    simp only [Outcome.files] at ih
    simp [waits_cons, Outcome.files, List.filterMap_append, ih]

/-- A transient status is not `SUCCESSFUL`. -/
theorem not_successful_of_transient {s : String}
    (h : s = "ENQUEUED" ∨ s = "RUNNING" ∨ s = "PENDING") : s ≠ "SUCCESSFUL" := by
  rcases h with h | h | h <;> subst h <;> decide

/-- Iterations that observe transient runs: the loop waits once for each and
goes on with the remaining answers. -/
theorem mainLoop_waits (env : Env) (input : JSONSource) (outputPath : String)
    (pre : List BackupItem) (rs : List (Except String BackupItem))
    (hpre : ∀ r ∈ pre, r.Status = "ENQUEUED" ∨ r.Status = "RUNNING" ∨ r.Status = "PENDING") :
    mainLoop env input outputPath (pre.map .ok ++ rs) =
      (mainLoop env input outputPath rs).after (waits input pre) := by
  induction pre with
  | nil => simp [waits, Outcome.after]
  | cons r pre ih =>
    have hr := hpre r (List.mem_cons_self _ _)
    have ih1 := ih (fun x hx => hpre x (List.mem_cons_of_mem _ hx))
    rw [List.map_cons, List.cons_append, mainLoop,
      if_neg (not_successful_of_transient hr), if_pos hr, ih1, after_after, waits_cons]

/-- The loop at an answer with a `SUCCESSFUL` run. -/
theorem mainLoop_successful (env : Env) (input : JSONSource) (outputPath : String)
    (last : BackupItem) (rest : List (Except String BackupItem))
    (hlast : last.Status = "SUCCESSFUL") :
    mainLoop env input outputPath (.ok last :: rest) =
      (onSuccessful env outputPath last).after [.call .GetBackupState (backupRunURL input)] := by
  rw [mainLoop, if_pos hlast]

/-- The three ways `writeOutputToFile` ends. -/
theorem writeOutputToFile_cases (env : Env) (output : BackupItem) (path : String) :
    (∃ err, writeOutputToFile env output path = ([], some err)) ∨
      (∃ err, writeOutputToFile env output path = ([.create path], some err)) ∨
      (∃ encoded, env.Create path = none ∧ env.MarshalIndent output = .ok encoded ∧
        env.Write path encoded = none ∧
        writeOutputToFile env output path = ([.create path, .write path encoded], none)) := by
  unfold writeOutputToFile
  cases h1 : env.Create path with
  | some e => simp
  | none =>
    cases h2 : env.MarshalIndent output with
    | error e => simp
    | ok encoded =>
      cases h3 : env.Write path encoded with
      | some e => simp [h3]
      | none => simp [h3]

/-- The outcome of `writeOutputToFile` when each step succeeds. -/
theorem writeOutputToFile_ok (env : Env) (output : BackupItem) (path encoded : String)
    (hc : env.Create path = none) (hm : env.MarshalIndent output = .ok encoded)
    (hw : env.Write path encoded = none) :
    writeOutputToFile env output path = ([.create path, .write path encoded], none) := by
  simp [writeOutputToFile, hc, hm, hw]

/-- The branch for a `SUCCESSFUL` run makes no call and does not sleep. -/
theorem onSuccessful_quiet (env : Env) (outputPath : String) (last : BackupItem) :
    (onSuccessful env outputPath last).calls = [] ∧
      (onSuccessful env outputPath last).sleeps = [] := by
  unfold onSuccessful
  cases env.LoadLocation "Asia/Taipei" with
  | error e => simp [Outcome.calls, Outcome.sleeps]
  | ok tz =>
    rcases writeOutputToFile_cases env (last.setEndTime (last.EndTime.In tz)) outputPath with
      ⟨e, h⟩ | ⟨e, h⟩ | ⟨enc, -, -, -, h⟩ <;> simp [h, Outcome.calls, Outcome.sleeps]

/-- The branch for a `SUCCESSFUL` run on a machine where the zone loads and the
file is written. -/
theorem onSuccessful_ok (env : Env) (outputPath : String) (last : BackupItem)
    (tz : Location) (encoded : String)
    (htz : env.LoadLocation "Asia/Taipei" = .ok tz) (hc : env.Create outputPath = none)
    (hm : env.MarshalIndent (last.setEndTime (last.EndTime.In tz)) = .ok encoded)
    (hw : env.Write outputPath encoded = none) :
    onSuccessful env outputPath last =
      ⟨[.log "Backup successful!", .create outputPath, .write outputPath encoded,
        .print ⟨⟨last.BackupID⟩,
          [⟨"kind", last.BackupKind⟩, ⟨"status", last.Status⟩,
           ⟨"end-time", (last.EndTime.In tz).Format⟩, ⟨"instance", last.Instance⟩]⟩], Exit.ok⟩ := by
  unfold onSuccessful
  rw [htz]
  simp only []
  rw [writeOutputToFile_ok env _ outputPath encoded hc hm hw]
  simp [BackupItem.setEndTime]

/-- The polls and sleeps of a run of the loop that is answered with the
transient runs `pre` and then the `SUCCESSFUL` run `last`. -/
theorem mainLoop_success_counts (env : Env) (input : JSONSource) (outputPath : String)
    (pre : List BackupItem) (last : BackupItem) (rest : List (Except String BackupItem))
    (hpre : ∀ r ∈ pre, r.Status = "ENQUEUED" ∨ r.Status = "RUNNING" ∨ r.Status = "PENDING")
    (hlast : last.Status = "SUCCESSFUL") :
    (mainLoop env input outputPath (pre.map .ok ++ .ok last :: rest)).calls =
        List.replicate (pre.length + 1) (Rpc.GetBackupState, backupRunURL input) ∧
      (mainLoop env input outputPath (pre.map .ok ++ .ok last :: rest)).sleeps =
        List.replicate pre.length 30 := by
  rw [mainLoop_waits env input outputPath pre _ hpre, mainLoop_successful _ _ _ _ _ hlast,
    after_after]
  have hc := calls_waits input pre
  have hs := sleeps_waits input pre
  simp only [Outcome.calls, Outcome.sleeps] at hc hs
  constructor
  · rw [calls_after, (onSuccessful_quiet env outputPath last).1]
    simp [Outcome.calls, List.filterMap_append, List.replicate_succ', hc]
  · rw [sleeps_after, (onSuccessful_quiet env outputPath last).2]
    simp [Outcome.sleeps, List.filterMap_append, hs]

/-- The whole run of the loop that is answered with the transient runs `pre`
and then the `SUCCESSFUL` run `last`, on a machine where the zone loads and the
output file is created, encoded and written. -/
theorem mainLoop_success_run (env : Env) (input : JSONSource) (outputPath : String)
    (pre : List BackupItem) (last : BackupItem) (rest : List (Except String BackupItem))
    (hpre : ∀ r ∈ pre, r.Status = "ENQUEUED" ∨ r.Status = "RUNNING" ∨ r.Status = "PENDING")
    (hlast : last.Status = "SUCCESSFUL") (tz : Location) (encoded : String)
    (htz : env.LoadLocation "Asia/Taipei" = .ok tz) (hc : env.Create outputPath = none)
    (hm : env.MarshalIndent (last.setEndTime (last.EndTime.In tz)) = .ok encoded)
    (hw : env.Write outputPath encoded = none) :
    mainLoop env input outputPath (pre.map .ok ++ .ok last :: rest) =
      ⟨waits input pre ++
        [.call .GetBackupState (backupRunURL input), .log "Backup successful!",
         .create outputPath, .write outputPath encoded,
         .print ⟨⟨last.BackupID⟩,
           [⟨"kind", last.BackupKind⟩, ⟨"status", "SUCCESSFUL"⟩,
            ⟨"end-time", (last.EndTime.In tz).Format⟩, ⟨"instance", last.Instance⟩]⟩],
       Exit.ok⟩ := by
  rw [mainLoop_waits env input outputPath pre _ hpre, mainLoop_successful _ _ _ _ _ hlast,
    after_after, onSuccessful_ok env outputPath last tz encoded htz hc hm hw, hlast]
  simp [Outcome.after]

/-- C2: when the answers to the polls are `n` runs in a transient status
followed by a run whose status is none of `SUCCESSFUL`, `ENQUEUED`, `RUNNING`,
`PENDING`, the loop of `in` panics on the poll that observes it: the run
consists of the `n` waits and that poll, nothing follows it (no further poll,
no sleep), no file is created or written and no payload is printed, on every
machine and whatever answers would follow. -/
theorem in_fatal_on_unlisted_status (env : Env) (input : JSONSource) (outputPath : String)
    (pre : List BackupItem) (bad : BackupItem) (rest : List (Except String BackupItem))
    (hpre : ∀ r ∈ pre, r.Status = "ENQUEUED" ∨ r.Status = "RUNNING" ∨ r.Status = "PENDING")
    (hbad : bad.Status ≠ "SUCCESSFUL" ∧ bad.Status ≠ "ENQUEUED" ∧ bad.Status ≠ "RUNNING"
      ∧ bad.Status ≠ "PENDING") :
    mainLoop env input outputPath (pre.map .ok ++ .ok bad :: rest) =
        ⟨waits input pre ++ [.call .GetBackupState (backupRunURL input)],
          Exit.panic ("Backup state: " ++ bad.Status)⟩ ∧
      (mainLoop env input outputPath (pre.map .ok ++ .ok bad :: rest)).calls =
        List.replicate (pre.length + 1) (Rpc.GetBackupState, backupRunURL input) ∧
      (mainLoop env input outputPath (pre.map .ok ++ .ok bad :: rest)).sleeps =
        List.replicate pre.length 30 ∧
      (mainLoop env input outputPath (pre.map .ok ++ .ok bad :: rest)).files = [] ∧
      (mainLoop env input outputPath (pre.map .ok ++ .ok bad :: rest)).printed = [] := by
  have hrun : mainLoop env input outputPath (pre.map .ok ++ .ok bad :: rest) =
      ⟨waits input pre ++ [.call .GetBackupState (backupRunURL input)],
        Exit.panic ("Backup state: " ++ bad.Status)⟩ := by
    rw [mainLoop_waits env input outputPath pre _ hpre, mainLoop, if_neg hbad.1,
      if_neg (by
        rintro (h | h | h)
        · exact hbad.2.1 h
        · exact hbad.2.2.1 h
        · exact hbad.2.2.2 h)]
    simp [Outcome.after]
  have hc := calls_waits input pre
  have hs := sleeps_waits input pre
  have hf := files_waits input pre
  have hp := printed_waits input pre
  simp only [Outcome.calls, Outcome.sleeps, Outcome.files, Outcome.printed] at hc hs hf hp
  rw [hrun]
  refine ⟨rfl, ?_, ?_, ?_, ?_⟩
  · simp [Outcome.calls, List.filterMap_append, hc, List.replicate_succ']
  · simp [Outcome.sleeps, List.filterMap_append, hs]
  · simp [Outcome.files, List.filterMap_append, hf]
  · simp [Outcome.printed, List.filterMap_append, hp]

/-- C2, an instance: `CANCELLED` observed on the first poll, and the empty
status observed after one wait. -/
theorem in_fatal_on_unlisted_status_witness :
    mainLoop envOK inputB1 "out/output.json" [.ok (runB1 "CANCELLED"), .ok (runB1 "SUCCESSFUL")] =
        ⟨[.call .GetBackupState (backupRunURL inputB1)], Exit.panic "Backup state: CANCELLED"⟩
      ∧ (mainLoop envOK inputB1 "out/output.json"
          [.ok (runB1 "RUNNING"), .ok (runB1 ""), .ok (runB1 "SUCCESSFUL")]).calls.length = 2 := by
  have h1 := in_fatal_on_unlisted_status envOK inputB1 "out/output.json" [] (runB1 "CANCELLED")
    [.ok (runB1 "SUCCESSFUL")] (by decide) (by decide)
  have h2 := in_fatal_on_unlisted_status envOK inputB1 "out/output.json" [runB1 "RUNNING"]
    (runB1 "") [.ok (runB1 "SUCCESSFUL")] (by decide) (by decide)
  refine ⟨?_, ?_⟩
  · simpa [waits] using h1.1
  · have := congrArg List.length h2.2.1
    simpa using this

/-- The branch for a `SUCCESSFUL` run ends with status 0 only where the zone
loads and the file is created, encoded and written. -/
theorem onSuccessful_ok_inv (env : Env) (outputPath : String) (last : BackupItem)
    (h : (onSuccessful env outputPath last).exit = Exit.ok) :
    ∃ tz encoded, env.LoadLocation "Asia/Taipei" = .ok tz ∧ env.Create outputPath = none ∧
      env.MarshalIndent (last.setEndTime (last.EndTime.In tz)) = .ok encoded ∧
      env.Write outputPath encoded = none := by
  unfold onSuccessful at h
  cases htz : env.LoadLocation "Asia/Taipei" with
  | error e => simp [htz] at h
  | ok tz =>
    rw [htz] at h
    simp only [] at h
    rcases writeOutputToFile_cases env (last.setEndTime (last.EndTime.In tz)) outputPath with
      ⟨e, hw⟩ | ⟨e, hw⟩ | ⟨enc, h1, h2, h3, -⟩
    · simp [hw] at h
    · simp [hw] at h
    · exact ⟨tz, enc, rfl, h1, h2, h3⟩

/-- A run of the loop that ends with status 0 saw transient runs and then a
`SUCCESSFUL` one. -/
theorem mainLoop_ok_inv (env : Env) (input : JSONSource) (outputPath : String) :
    ∀ rs : List (Except String BackupItem), (mainLoop env input outputPath rs).exit = Exit.ok →
      ∃ (pre : List BackupItem) (last : BackupItem) (rest : List (Except String BackupItem)),
        rs = pre.map .ok ++ .ok last :: rest ∧
        (∀ r ∈ pre, r.Status = "ENQUEUED" ∨ r.Status = "RUNNING" ∨ r.Status = "PENDING") ∧
        last.Status = "SUCCESSFUL" ∧ (onSuccessful env outputPath last).exit = Exit.ok
  | [], h => by simp [mainLoop] at h
  | .error e :: _, h => by simp [mainLoop] at h
  | .ok r :: rest, h => by
    by_cases hs : r.Status = "SUCCESSFUL"
    · rw [mainLoop_successful _ _ _ _ _ hs, exit_after] at h
      exact ⟨[], r, rest, by simp, by simp, hs, h⟩
    · by_cases ht : r.Status = "ENQUEUED" ∨ r.Status = "RUNNING" ∨ r.Status = "PENDING"
      · rw [mainLoop, if_neg hs, if_pos ht, exit_after] at h
        obtain ⟨pre, last, rest1, hrs, hpre, hlast, hok⟩ := mainLoop_ok_inv env input outputPath rest h
        refine ⟨r :: pre, last, rest1, by simp [hrs], ?_, hlast, hok⟩
        intro x hx
        rcases List.mem_cons.1 hx with hx | hx
        · exact hx ▸ ht
        · exact hpre x hx
      · rw [mainLoop, if_neg hs, if_neg ht] at h
        simp at h

/-- The credentials step prints nothing and makes no call. -/
theorem credentials_quiet {π : Type} (env : Env) (key : String) :
    (⟨(WriteCredentialToFile (π := π) env key).1, Exit.ok⟩ : Outcome π).calls = [] ∧
      (⟨(WriteCredentialToFile (π := π) env key).1, Exit.ok⟩ : Outcome π).printed = [] ∧
      (⟨(WriteCredentialToFile (π := π) env key).1, Exit.ok⟩ : Outcome π).sleeps = [] := by
  unfold WriteCredentialToFile
  cases env.Create "/service-account.json" with
  | some e => simp [Outcome.calls, Outcome.printed, Outcome.sleeps]
  | none =>
    cases env.Write "/service-account.json" key with
    | some e => simp [Outcome.calls, Outcome.printed, Outcome.sleeps]
    | none => simp [Outcome.calls, Outcome.printed, Outcome.sleeps]

/-- What a run of `in` that ends with status 0 looks like: the payload was
decoded, the output directory was given, the polls were answered with transient
runs and then a `SUCCESSFUL` one, which is the last run fetched, the zone was
loaded, and one payload was printed, built from that run. -/
theorem inMain_ok_inv (env : Env) (stdin : Except String JSONSource) (args : List String)
    (responses : List (Except String BackupItem))
    (h : (main env stdin args responses).exit = Exit.ok) :
    ∃ (input : JSONSource) (pre : List BackupItem) (last : BackupItem)
      (rest : List (Except String BackupItem)) (tz : Location), stdin = .ok input ∧
      responses = pre.map .ok ++ .ok last :: rest ∧
      (∀ r ∈ pre, r.Status = "ENQUEUED" ∨ r.Status = "RUNNING" ∨ r.Status = "PENDING") ∧
      last.Status = "SUCCESSFUL" ∧ env.LoadLocation "Asia/Taipei" = .ok tz ∧
      (main env stdin args responses).calls =
        List.replicate (pre.length + 1) (Rpc.GetBackupState, backupRunURL input) ∧
      lastFetched (main env stdin args responses) responses = some last ∧
      (main env stdin args responses).printed =
        [⟨⟨last.BackupID⟩,
          [⟨"kind", last.BackupKind⟩, ⟨"status", "SUCCESSFUL"⟩,
           ⟨"end-time", (last.EndTime.In tz).Format⟩, ⟨"instance", last.Instance⟩]⟩] := by
  cases stdin with
  | error e => simp [main] at h
  | ok input =>
    have hq := credentials_quiet (π := Output) env input.Source.PrivateKey
    rcases hw : WriteCredentialToFile (π := Output) env input.Source.PrivateKey with ⟨evs, r⟩
    rw [hw] at hq
    simp only [] at hq
    cases r with
    | some e => simp [main, hw] at h
    | none =>
      cases ha : args[1]? with
      | none => simp [main, hw, ha] at h
      | some dir =>
        have hm : main env (.ok input) args responses =
            (mainLoop env input (dir ++ "/output.json") responses).after evs := by
          simp [main, hw, ha]
        rw [hm, exit_after] at h
        obtain ⟨pre, last, rest, hrs, hpre, hlast, hok⟩ := mainLoop_ok_inv env input _ responses h
        obtain ⟨tz, enc, htz, hc, hme, hwr⟩ := onSuccessful_ok_inv env _ last hok
        have hrun := mainLoop_success_run env input (dir ++ "/output.json") pre last rest
          hpre hlast tz enc htz hc hme hwr
        have hcalls := (mainLoop_success_counts env input (dir ++ "/output.json") pre last rest
          hpre hlast).1
        rw [← hrs] at hrun hcalls
        have hc1 : (main env (.ok input) args responses).calls =
            List.replicate (pre.length + 1) (Rpc.GetBackupState, backupRunURL input) := by
          rw [hm, calls_after, hq.1, hcalls]
          rfl
        refine ⟨input, pre, last, rest, tz, rfl, hrs, hpre, hlast, htz, hc1, ?_, ?_⟩
        · have hget : (pre.map Except.ok ++ Except.ok last :: rest)[pre.length]? =
              some (Except.ok last) := by
            rw [List.getElem?_append_right (by simp)]
            simp
          unfold lastFetched
          rw [hc1]
          simp only [List.length_replicate, Nat.add_sub_cancel]
          rw [hrs, hget]
          simp
        · rw [hm, printed_after, hq.2.1, hrun]
          have hp := printed_waits input pre
          simp only [Outcome.printed] at hp
          simp [Outcome.printed, List.filterMap_append, hp]

/-- C6, as amended: on every run of `in` that ends with status 0, the one
payload printed carries as version id the `id` field of the last run fetched
(the one observed `SUCCESSFUL`).  Every poll asked for the URL built from the
version id of the input, and the emitted id is the id of the input exactly
when the service answered that poll with a run of that id. -/
theorem in_emits_fetched_id (env : Env) (stdin : Except String JSONSource) (args : List String)
    (responses : List (Except String BackupItem))
    (h : (main env stdin args responses).exit = Exit.ok) :
    ∃ (input : JSONSource) (run : BackupItem) (out : Output), stdin = .ok input ∧
      lastFetched (main env stdin args responses) responses = some run ∧
      (main env stdin args responses).printed = [out] ∧
      out.Version.ID = run.BackupID ∧
      (∀ c ∈ (main env stdin args responses).calls,
        c = (Rpc.GetBackupState, backupRunURL input)) ∧
      (out.Version.ID = input.Version.BackupID ↔ run.BackupID = input.Version.BackupID) := by
  obtain ⟨input, pre, last, rest, tz, hin, -, -, -, -, hcalls, hlf, hpr⟩ :=
    inMain_ok_inv env stdin args responses h
  refine ⟨input, last, _, hin, hlf, hpr, rfl, ?_, Iff.rfl⟩
  intro c hc
  rw [hcalls] at hc
  exact List.eq_of_mem_replicate hc

/-- C6, an instance: the run `B1` is asked for and is answered `SUCCESSFUL`;
the emitted id is `B1`. -/
theorem in_emits_fetched_id_witness :
    (main envOK (.ok inputB1) ["in", "out"] [.ok (runB1 "SUCCESSFUL")]).exit = Exit.ok ∧
      ∃ (input : JSONSource) (run : BackupItem) (out : Output),
        (Except.ok inputB1 : Except String JSONSource) = .ok input ∧
        lastFetched (main envOK (.ok inputB1) ["in", "out"] [.ok (runB1 "SUCCESSFUL")])
          [.ok (runB1 "SUCCESSFUL")] = some run ∧
        (main envOK (.ok inputB1) ["in", "out"] [.ok (runB1 "SUCCESSFUL")]).printed = [out] ∧
        out.Version.ID = run.BackupID ∧
        (∀ c ∈ (main envOK (.ok inputB1) ["in", "out"] [.ok (runB1 "SUCCESSFUL")]).calls,
          c = (Rpc.GetBackupState, backupRunURL input)) ∧
        (out.Version.ID = input.Version.BackupID ↔ run.BackupID = input.Version.BackupID) :=
  ⟨by decide, in_emits_fetched_id envOK (.ok inputB1) ["in", "out"] [.ok (runB1 "SUCCESSFUL")]
    (by decide)⟩

/-- C6 as stated fails: the input names the version `123?alt=json`, the poll
asks for `.../backupRuns/123?alt=json`, the service answers with the run whose
id is `123`, `SUCCESSFUL`; `in` ends with status 0 and emits the id `123`,
which is not the id of the input. -/
theorem in_emits_other_id :
    (main envOK (.ok input123) ["in", "out"] [.ok run123]).exit = Exit.ok ∧
      (main envOK (.ok input123) ["in", "out"] [.ok run123]).calls =
        [(Rpc.GetBackupState,
          "https://sqladmin.googleapis.com/v1/projects/p/instances/i/backupRuns/123?alt=json")] ∧
      (main envOK (.ok input123) ["in", "out"] [.ok run123]).printed.map (fun o => o.Version.ID)
        = ["123"] ∧
      input123.Version.BackupID = "123?alt=json" ∧
      ¬ ∀ out ∈ (main envOK (.ok input123) ["in", "out"] [.ok run123]).printed,
        out.Version.ID = input123.Version.BackupID := by
  refine ⟨?_, ?_, ?_, ?_, ?_⟩ <;> decide

/-- C9: on every run of `in` that ends with status 0, one payload is printed
and its metadata is the list of exactly four entries `kind`, `status`,
`end-time`, `instance`, in this order; `kind` is the `backupKind` of the last
run fetched, `instance` its `instance`, `end-time` its end time formatted in
the loaded zone, and the value of `status` is the string `SUCCESSFUL`. -/
theorem in_success_metadata (env : Env) (stdin : Except String JSONSource) (args : List String)
    (responses : List (Except String BackupItem))
    (h : (main env stdin args responses).exit = Exit.ok) :
    ∃ (run : BackupItem) (tz : Location) (out : Output),
      lastFetched (main env stdin args responses) responses = some run ∧
      env.LoadLocation "Asia/Taipei" = .ok tz ∧
      (main env stdin args responses).printed = [out] ∧
      out.Metadata =
        [⟨"kind", run.BackupKind⟩, ⟨"status", "SUCCESSFUL"⟩,
         ⟨"end-time", (run.EndTime.In tz).Format⟩, ⟨"instance", run.Instance⟩] ∧
      out.Metadata.length = 4 ∧
      out.Metadata.map (fun m => m.Name) = ["kind", "status", "end-time", "instance"] ∧
      valueOf "status" out.Metadata = some "SUCCESSFUL" ∧ run.Status = "SUCCESSFUL" := by
  obtain ⟨input, pre, last, rest, tz, -, -, -, hlast, htz, -, hlf, hpr⟩ :=
    inMain_ok_inv env stdin args responses h
  exact ⟨last, tz, _, hlf, htz, hpr, rfl, rfl, rfl, by simp [valueOf], hlast⟩

/-- C9, an instance: the answers `PENDING`, `SUCCESSFUL` for the run `B1`. -/
theorem in_success_metadata_witness :
    (main envOK (.ok inputB1) ["in", "out"]
        [.ok (runB1 "PENDING"), .ok (runB1 "SUCCESSFUL")]).printed.map (fun o => o.Metadata) =
      [[⟨"kind", "SNAPSHOT"⟩, ⟨"status", "SUCCESSFUL"⟩,
        ⟨"end-time", "2024-01-01T12:00:00+08:00"⟩, ⟨"instance", "i"⟩]] := by
  obtain ⟨run, tz, out, hlf, htz, hpr, hmeta, -⟩ :=
    in_success_metadata envOK (.ok inputB1) ["in", "out"]
      [.ok (runB1 "PENDING"), .ok (runB1 "SUCCESSFUL")] (by decide)
  have hrun : run = runB1 "SUCCESSFUL" := by
    have : lastFetched (main envOK (.ok inputB1) ["in", "out"]
        [.ok (runB1 "PENDING"), .ok (runB1 "SUCCESSFUL")])
        [.ok (runB1 "PENDING"), .ok (runB1 "SUCCESSFUL")] = some (runB1 "SUCCESSFUL") := by
      decide
    rw [this] at hlf
    exact (Option.some.inj hlf).symm
  have htz1 : tz = taipei := by
    have : envOK.LoadLocation "Asia/Taipei" = .ok taipei := rfl
    rw [this] at htz
    exact (Except.ok.inj htz).symm
  rw [hpr, List.map_cons, List.map_nil, hmeta, hrun, htz1]
  decide

end In

namespace Out

/-! ## Theorems: `out` -/

/-- The credentials step when the file is created and written. -/
theorem credentials_ok {π : Type} (env : Env) (key : String)
    (hc : env.Create "/service-account.json" = none)
    (hw : env.Write "/service-account.json" key = none) :
    WriteCredentialToFile (π := π) env key =
      ([.create "/service-account.json", .write "/service-account.json" key,
        .setenv "GOOGLE_APPLICATION_CREDENTIALS" "/service-account.json"], none) := by
  simp [WriteCredentialToFile, hc, hw]

/-- C8, as amended: when the credentials file is written and the service
answers the creation request with `r`, `out` makes exactly one call, the
creation request, and neither polls nor sleeps.  If `Asia/Taipei` loads, it
prints one payload, with version id `r.backupContext.backupId` and the five
metadata entries `status` (= `r.status`), `insert-time`, `operation-id`
(= `r.name`), `operation-type` (= `r.operationType`), `target-instance`
(= `r.targetId`) in this order, and ends with status 0.  If the zone does not
load, it prints nothing and ends fatally. -/
theorem out_emits_creation_result (env : Env) (input : JSONSource) (r : InsertResult)
    (hc : env.Create "/service-account.json" = none)
    (hw : env.Write "/service-account.json" input.Source.PrivateKey = none) :
    (main env (.ok input) (.ok r)).calls =
        [(Rpc.InsertBackupRuns, backupRunsURL input.Source)] ∧
      (main env (.ok input) (.ok r)).sleeps = [] ∧
      (∀ tz, env.LoadLocation "Asia/Taipei" = .ok tz →
        (main env (.ok input) (.ok r)).exit = Exit.ok ∧
        (main env (.ok input) (.ok r)).printed =
          [⟨⟨r.BackupContext.BackupID⟩,
            [⟨"status", r.Status⟩, ⟨"insert-time", (r.InsertTime.In tz).Format⟩,
             ⟨"operation-id", r.OperationID⟩, ⟨"operation-type", r.OperationType⟩,
             ⟨"target-instance", r.TargetID⟩]⟩]) ∧
      (∀ err, env.LoadLocation "Asia/Taipei" = .error err →
        (main env (.ok input) (.ok r)).exit = Exit.fatal err ∧
        (main env (.ok input) (.ok r)).printed = []) := by
  have hcred := credentials_ok (π := Output) env input.Source.PrivateKey hc hw
  unfold main
  simp only [hcred]
  cases htz : env.LoadLocation "Asia/Taipei" with
  | error e => simp [Outcome.calls, Outcome.sleeps, Outcome.printed]
  | ok tz => simp [Outcome.calls, Outcome.sleeps, Outcome.printed, InsertResult.setInsertTime]

/-- C8, an instance: the creation response with `backupContext.backupId = B1`
and `status = RUNNING`. -/
theorem out_emits_creation_result_witness :
    (main envOK (.ok outInput) (.ok opB1)).calls.length = 1 ∧
      (main envOK (.ok outInput) (.ok opB1)).printed.map (fun o => o.Version.BackupID) = ["B1"] ∧
      (main envOK (.ok outInput) (.ok opB1)).printed.map (fun o => valueOf "status" o.Metadata)
        = [some "RUNNING"] := by
  obtain ⟨h1, -, h3, -⟩ := out_emits_creation_result envOK outInput opB1 rfl rfl
  obtain ⟨-, h5⟩ := h3 taipei rfl
  rw [h1, h5]
  decide

/-- C8 as stated fails: on a machine without a zone database the service
answers the creation request with the response `B1`, `RUNNING`, and `out`
prints nothing and ends fatally. -/
theorem out_without_zone :
    (main envNoZone (.ok outInput) (.ok opB1)).calls.length = 1 ∧
      (main envNoZone (.ok outInput) (.ok opB1)).printed = [] ∧
      (main envNoZone (.ok outInput) (.ok opB1)).exit
        = Exit.fatal "unknown time zone Asia/Taipei" := by
  refine ⟨?_, ?_, ?_⟩ <;> decide

end Out

/-! ## Theorems: the reported time zone -/

theorem daysToYear_decomp (n400 n100 n4 n : Int) (h100 : 0 ≤ n100 ∧ n100 ≤ 3)
    (h4 : 0 ≤ n4 ∧ n4 ≤ 24) (hn : 0 ≤ n ∧ n ≤ 3) :
    daysToYear (1 + 400 * n400 + 100 * n100 + 4 * n4 + n) =
      146097 * n400 + 36524 * n100 + 1461 * n4 + 365 * n := by
  unfold daysToYear
  omega

theorem isLeap_decomp (n400 n100 n4 n : Int) (h100 : 0 ≤ n100 ∧ n100 ≤ 3)
    (h4 : 0 ≤ n4 ∧ n4 ≤ 24) (hn : 0 ≤ n ∧ n ≤ 3) :
    isLeap (1 + 400 * n400 + 100 * n100 + 4 * n4 + n) = true ↔
      (n = 3 ∧ (n4 ≠ 24 ∨ n100 = 3)) := by
  simp only [isLeap, Bool.and_eq_true, Bool.or_eq_true, decide_eq_true_eq]
  omega

theorem absYear_decomp (d : Int) :
    ∃ n400 n100 n4 n yd : Int,
      absYear d = (1 + 400 * n400 + 100 * n100 + 4 * n4 + n, yd) ∧
      (0 ≤ n100 ∧ n100 ≤ 3) ∧ (0 ≤ n4 ∧ n4 ≤ 24) ∧ (0 ≤ n ∧ n ≤ 3) ∧ 0 ≤ yd ∧
      d = 146097 * n400 + 36524 * n100 + 1461 * n4 + 365 * n + yd ∧
      (yd < 365 ∨ (yd = 365 ∧ n = 3 ∧ (n4 ≠ 24 ∨ n100 = 3))) := by
  refine ⟨d / 146097, _, _, _, _, rfl, ?_⟩
  omega

/-- The year and the day of the year found by `absYear` are those of the day
number. -/
theorem absYear_spec (d : Int) :
    daysToYear (absYear d).1 + (absYear d).2 = d ∧ 0 ≤ (absYear d).2 ∧
      (absYear d).2 < (if isLeap (absYear d).1 then 366 else 365) := by
  obtain ⟨n400, n100, n4, n, yd, h, h100, h4, hn, hyd, hd, hl⟩ := absYear_decomp d
  rw [h]
  simp only []
  rw [daysToYear_decomp n400 n100 n4 n h100 h4 hn]
  refine ⟨by omega, hyd, ?_⟩
  by_cases hleap : isLeap (1 + 400 * n400 + 100 * n100 + 4 * n4 + n) = true
  · rw [if_pos hleap]
    omega
  · rw [if_neg hleap]
    rw [isLeap_decomp n400 n100 n4 n h100 h4 hn] at hleap
    omega

set_option maxRecDepth 100000 in
theorem monthDay_spec_nat : ∀ leap : Bool, ∀ k : Nat, k < 366 →
    ((k : Int) < (if leap then 366 else 365) →
      dayOfYear leap (monthDay leap k).1 (monthDay leap k).2 = k ∧
      1 ≤ (monthDay leap k).1 ∧ (monthDay leap k).1 ≤ 12 ∧
      1 ≤ (monthDay leap k).2 ∧ (monthDay leap k).2 ≤ 31) := by
  decide

/-- The month and the day found by `monthDay` are those of the day of the
year. -/
theorem monthDay_spec (leap : Bool) (yd : Int) (h0 : 0 ≤ yd)
    (h1 : yd < (if leap then 366 else 365)) :
    dayOfYear leap (monthDay leap yd).1 (monthDay leap yd).2 = yd ∧
      1 ≤ (monthDay leap yd).1 ∧ (monthDay leap yd).1 ≤ 12 ∧
      1 ≤ (monthDay leap yd).2 ∧ (monthDay leap yd).2 ≤ 31 := by
  obtain ⟨k, rfl⟩ := Int.eq_ofNat_of_zero_le h0
  have hk : k < 366 := by
    split at h1 <;> omega
  exact monthDay_spec_nat leap k hk h1

/-- The civil reading of a clock denotes the seconds the clock shows: the
conversion to year, month, day, hour, minute and second loses nothing. -/
theorem civilOf_toSeconds (s : Int) : (civilOf s).toSeconds = s := by
  obtain ⟨h1, h2, h3⟩ := absYear_spec (s / 86400)
  obtain ⟨h4, -⟩ := monthDay_spec (isLeap (absYear (s / 86400)).1) (absYear (s / 86400)).2 h2
    (by
      revert h3
      cases isLeap (absYear (s / 86400)).1 <;> simp)
  simp only [civilOf, Civil.toSeconds]
  rw [h4]
  omega

theorem digitOf_ofNat : ∀ k : Nat, k < 10 → digitOf (Char.ofNat (48 + k)) = some k := by
  decide

set_option maxRecDepth 100000 in
theorem appendInt_two : ∀ k : Nat, k < 100 →
    (appendInt (k : Int) 2).data = [Char.ofNat (48 + k / 10), Char.ofNat (48 + k % 10)] := by
  decide

theorem read2_appendInt (k : Nat) (hk : k < 100) (rest : List Char) :
    read2 ((appendInt (k : Int) 2).data ++ rest) = some (k, rest) := by
  rw [appendInt_two k hk]
  simp only [List.cons_append, List.nil_append, read2]
  rw [digitOf_ofNat (k / 10) (by omega), digitOf_ofNat (k % 10) (by omega)]
  simp only []
  congr 2
  omega

theorem digitsAux_four (k : Nat) (hk : k < 10000) :
    List.replicate (4 - (digitsAux 20 k []).length) '0' ++ digitsAux 20 k [] =
      [Char.ofNat (48 + k / 10 / 10 / 10), Char.ofNat (48 + k / 10 / 10 % 10),
        Char.ofNat (48 + k / 10 % 10), Char.ofNat (48 + k % 10)] := by
  have e0 : Char.ofNat (48 + 0) = '0' := rfl
  rw [show (20 : Nat) = 16 + 1 + 1 + 1 + 1 from rfl]
  by_cases h1 : k / 10 = 0
  · have h2 : k / 10 / 10 = 0 := by omega
    have h3 : k / 10 / 10 / 10 = 0 := by omega
    have h4 : k / 10 % 10 = 0 := by omega
    have h5 : k / 10 / 10 % 10 = 0 := by omega
    rw [h3, h5, h4, e0]
    simp [digitsAux, h1, List.replicate]
  · by_cases h2 : k / 10 / 10 = 0
    · have h3 : k / 10 / 10 / 10 = 0 := by omega
      have h5 : k / 10 / 10 % 10 = 0 := by omega
      rw [h3, h5, e0]
      simp [digitsAux, h1, h2, List.replicate]
    · by_cases h3 : k / 10 / 10 / 10 = 0
      · rw [h3, e0]
        simp [digitsAux, h1, h2, h3, List.replicate]
      · have h4 : k / 10 / 10 / 10 / 10 = 0 := by omega
        have h6 : k / 10 / 10 / 10 % 10 = k / 10 / 10 / 10 := by omega
        simp [digitsAux, h1, h2, h3, h4, h6, List.replicate]

theorem appendInt_four (k : Nat) (hk : k < 10000) :
    (appendInt (k : Int) 4).data =
      [Char.ofNat (48 + k / 10 / 10 / 10), Char.ofNat (48 + k / 10 / 10 % 10),
        Char.ofNat (48 + k / 10 % 10), Char.ofNat (48 + k % 10)] := by
  unfold appendInt
  simp only [Int.natAbs_ofNat]
  rw [if_neg (by omega : ¬ (k : Int) < 0)]
  simp only [List.nil_append]
  exact digitsAux_four k hk

theorem read4_appendInt (k : Nat) (hk : k < 10000) (rest : List Char) :
    read4 ((appendInt (k : Int) 4).data ++ rest) = some (k, rest) := by
  rw [appendInt_four k hk]
  simp only [List.cons_append, List.nil_append, read4]
  rw [digitOf_ofNat (k / 10 / 10 / 10) (by omega), digitOf_ofNat (k / 10 / 10 % 10) (by omega),
    digitOf_ofNat (k / 10 % 10) (by omega), digitOf_ofNat (k % 10) (by omega)]
  simp only []
  congr 2
  omega

theorem layoutDateTime_data (c : Civil) (z : String) :
    (layoutDateTime c ++ z).data =
      (appendInt c.year 4).data ++ ('-' :: ((appendInt c.month 2).data ++
        ('-' :: ((appendInt c.day 2).data ++ ('T' :: ((appendInt c.hour 2).data ++
          (':' :: ((appendInt c.minute 2).data ++ (':' :: ((appendInt c.second 2).data ++
            z.data)))))))))) := by
  simp [layoutDateTime, String.data_append, List.append_assoc]

theorem expect_cons (c : Char) (rest : List Char) : expect c (c :: rest) = some rest := by
  simp [expect]

/-- The reading of the layout filled with fields of the right widths gives the
fields back. -/
theorem parseRFC3339_layout (y mo d h mi s : Nat) (hy : y < 10000) (hmo : mo < 100)
    (hd : d < 100) (hh : h < 100) (hmi : mi < 100) (hs : s < 100) (z : String) (off : Int)
    (hz : readOffset z.data = some off)
    (hv : (⟨(y : Int), (mo : Int), (d : Int), (h : Int), (mi : Int), (s : Int)⟩ : Civil).valid
      = true) :
    parseRFC3339 (layoutDateTime ⟨(y : Int), (mo : Int), (d : Int), (h : Int), (mi : Int),
        (s : Int)⟩ ++ z) =
      some (⟨(y : Int), (mo : Int), (d : Int), (h : Int), (mi : Int), (s : Int)⟩, off) := by
  unfold parseRFC3339
  rw [layoutDateTime_data]
  simp only [read4_appendInt y hy, expect_cons, read2_appendInt mo hmo, read2_appendInt d hd,
    read2_appendInt h hh, read2_appendInt mi hmi, read2_appendInt s hs, hz, hv, if_true]

/-- The suffix written for an offset of whole minutes, less than a day, reads
as that offset. -/
theorem readOffset_zoneSuffix (off : Int) (hm : off % 60 = 0) (hlo : -86400 < off)
    (hhi : off < 86400) : readOffset (zoneSuffix off).data = some off := by
  unfold zoneSuffix
  by_cases h0 : off = 0
  · rw [if_pos h0, h0]
    rfl
  · rw [if_neg h0]
    obtain ⟨q, rfl⟩ : ∃ q : Int, off = q * 60 := ⟨off / 60, by omega⟩
    have htd : Int.tdiv (q * 60) 60 = q := Int.mul_tdiv_cancel q (by norm_num)
    simp only [htd]
    by_cases hq : q < 0
    · obtain ⟨n, rfl⟩ : ∃ n : Nat, q = -(n : Int) := ⟨q.toNat + (-q).toNat, by omega⟩
      rw [if_pos hq]
      simp only [Int.natAbs_neg, Int.natAbs_ofNat, String.data_append]
      simp only [List.append_assoc, List.cons_append, List.nil_append, readOffset]
      rw [if_neg (by decide)]
      simp only [read2_appendInt (n / 60) (by omega), expect_cons]
      have := read2_appendInt (n % 60) (by omega) []
      rw [List.append_nil] at this
      simp only [this]
      rw [if_pos (by omega), if_pos trivial]
      have e : -(((n / 60 : Nat) : Int) * 3600 + ((n % 60 : Nat) : Int) * 60) = -(n : Int) * 60 := by
        omega
      rw [e, if_neg (by decide)]
    · obtain ⟨n, rfl⟩ : ∃ n : Nat, q = (n : Int) := ⟨q.toNat, by omega⟩
      rw [if_neg hq]
      simp only [Int.natAbs_ofNat, String.data_append]
      simp only [List.append_assoc, List.cons_append, List.nil_append, readOffset]
      rw [if_neg (by decide)]
      simp only [read2_appendInt (n / 60) (by omega), expect_cons]
      have := read2_appendInt (n % 60) (by omega) []
      rw [List.append_nil] at this
      simp only [this]
      rw [if_pos (by omega), if_pos trivial]
      have e : ((n / 60 : Nat) : Int) * 3600 + ((n % 60 : Nat) : Int) * 60 = (n : Int) * 60 := by
        omega
      rw [e]

set_option maxRecDepth 100000 in
theorem monthDay_daysIn_nat : ∀ leap : Bool, ∀ k : Nat, k < 366 →
    ((k : Int) < (if leap then 366 else 365) →
      (monthDay leap k).2 ≤ daysIn leap (monthDay leap k).1) := by
  decide

/-- The civil reading of a clock that shows a time of the years 0 to 9999 has a
year of four digits and is a date of the calendar and a time of day. -/
theorem civilOf_valid (s : Int) (h0 : -31622400 ≤ s) (h1 : s < 315537897600) :
    0 ≤ (civilOf s).year ∧ (civilOf s).year ≤ 9999 ∧ (civilOf s).valid = true ∧
      0 ≤ (civilOf s).month ∧ (civilOf s).month < 100 ∧ 0 ≤ (civilOf s).day ∧
      (civilOf s).day < 100 ∧ 0 ≤ (civilOf s).hour ∧ (civilOf s).hour < 100 ∧
      0 ≤ (civilOf s).minute ∧ (civilOf s).minute < 100 ∧ 0 ≤ (civilOf s).second ∧
      (civilOf s).second < 100 := by
  obtain ⟨a1, a2, a3⟩ := absYear_spec (s / 86400)
  have hleap : (absYear (s / 86400)).2 <
      (if isLeap (absYear (s / 86400)).1 = true then 366 else 365) := a3
  obtain ⟨-, m1, m2, m3, m4⟩ := monthDay_spec (isLeap (absYear (s / 86400)).1)
    (absYear (s / 86400)).2 a2 hleap
  have m5 : (monthDay (isLeap (absYear (s / 86400)).1) (absYear (s / 86400)).2).2 ≤
      daysIn (isLeap (absYear (s / 86400)).1)
        (monthDay (isLeap (absYear (s / 86400)).1) (absYear (s / 86400)).2).1 := by
    obtain ⟨k, hk⟩ := Int.eq_ofNat_of_zero_le a2
    rw [hk] at hleap ⊢
    have hk366 : k < 366 := by
      split at hleap <;> omega
    exact monthDay_daysIn_nat _ k hk366 hleap
  have hy : 0 ≤ (absYear (s / 86400)).1 ∧ (absYear (s / 86400)).1 ≤ 9999 := by
    have hd0 : -366 ≤ s / 86400 := by omega
    have hd1 : s / 86400 < 3652059 := by omega
    obtain ⟨n400, n100, n4, n, yd, e, b100, b4, bn, byd, ed, el⟩ := absYear_decomp (s / 86400)
    rw [e]
    simp only []
    have hl : -1 ≤ n400 := by omega
    by_cases hneg : n400 = -1
    · have g3 : n100 = 3 := by omega
      have i24 : n4 = 24 := by omega
      have j3 : n = 3 := by omega
      omega
    · omega
  simp only [civilOf, Civil.valid, decide_eq_true_eq]
  refine ⟨hy.1, hy.2, ⟨m1, m2, m3, m5, ?_⟩, ?_⟩
  · omega
  · omega

/-- The text `Format` writes for an instant in a zone reads, as RFC 3339, as
the civil time of the clock of the zone at the instant and the offset of the
zone at the instant, when the offset is of whole minutes and less than a day
and the civil time is of the years 0 to 9999. -/
theorem parseRFC3339_format (t : Time) (tz : Location)
    (hm : tz.lookup t.sec % 60 = 0) (hlo : -86400 < tz.lookup t.sec)
    (hhi : tz.lookup t.sec < 86400) (h0 : -31622400 ≤ t.sec + tz.lookup t.sec)
    (h1 : t.sec + tz.lookup t.sec < 315537897600) :
    parseRFC3339 (t.In tz).Format =
      some (civilOf (t.sec + tz.lookup t.sec), tz.lookup t.sec) := by
  have hs : (t.In tz).sec = t.sec := rfl
  have hl : (t.In tz).loc = tz := rfl
  unfold Time.Format
  simp only [hs, hl]
  obtain ⟨y1, y2, hv, c1, c2, c3, c4, c5, c6, c7, c8, c9, c10⟩ :=
    civilOf_valid (t.sec + tz.lookup t.sec) h0 h1
  generalize civilOf (t.sec + tz.lookup t.sec) = c at *
  obtain ⟨year, month, day, hour, minute, second⟩ := c
  simp only [] at y1 y2 c1 c2 c3 c4 c5 c6 c7 c8 c9 c10
  obtain ⟨y, rfl⟩ := Int.eq_ofNat_of_zero_le (by omega : 0 ≤ year)
  obtain ⟨mo, rfl⟩ := Int.eq_ofNat_of_zero_le c1
  obtain ⟨d, rfl⟩ := Int.eq_ofNat_of_zero_le c3
  obtain ⟨h, rfl⟩ := Int.eq_ofNat_of_zero_le c5
  obtain ⟨mi, rfl⟩ := Int.eq_ofNat_of_zero_le c7
  obtain ⟨s, rfl⟩ := Int.eq_ofNat_of_zero_le c9
  exact parseRFC3339_layout y mo d h mi s (by omega) (by omega) (by omega) (by omega) (by omega)
    (by omega) _ _ (readOffset_zoneSuffix _ hm hlo hhi) hv

/-- What a run of `out` that ends with status 0 looks like. -/
theorem outMain_ok_inv (env : Env) (stdin : Except String Out.JSONSource)
    (response : Except String Out.InsertResult)
    (h : (Out.main env stdin response).exit = Exit.ok) :
    ∃ (r : Out.InsertResult) (tz : Location), response = .ok r ∧
      env.LoadLocation "Asia/Taipei" = .ok tz ∧
      (Out.main env stdin response).printed =
        [⟨⟨r.BackupContext.BackupID⟩,
          [⟨"status", r.Status⟩, ⟨"insert-time", (r.InsertTime.In tz).Format⟩,
           ⟨"operation-id", r.OperationID⟩, ⟨"operation-type", r.OperationType⟩,
           ⟨"target-instance", r.TargetID⟩]⟩] := by
  cases stdin with
  | error e => simp [Out.main] at h
  | ok input =>
    have hq := In.credentials_quiet (π := Out.Output) env input.Source.PrivateKey
    rcases hw : WriteCredentialToFile (π := Out.Output) env input.Source.PrivateKey with ⟨evs, c⟩
    rw [hw] at hq
    simp only [] at hq
    have hp := hq.2.1
    simp only [Outcome.printed] at hp
    cases c with
    | some e => simp [Out.main, hw] at h
    | none =>
      cases response with
      | error e => simp [Out.main, hw] at h
      | ok r =>
        cases htz : env.LoadLocation "Asia/Taipei" with
        | error e => simp [Out.main, hw, htz] at h
        | ok tz =>
          refine ⟨r, tz, rfl, rfl, ?_⟩
          simp [Out.main, hw, htz, Outcome.printed, List.filterMap_append, hp,
            Out.InsertResult.setInsertTime]

/-- C7, as amended: the times are reported in the zone the machine loads as
`Asia/Taipei`.  On every run of `in` that ends with status 0 the `end-time`
value reads, as RFC 3339, as a date and time of day `c` and an offset that is
the offset of the loaded zone at the end time of the last run fetched, and `c`
is what the UTC clock shows at that instant plus the offset: the text denotes
the instant itself, to the whole second.  This holds when the offset is of
whole minutes and less than a day and the date is of the years 0000 to 9999,
which is what RFC 3339 can write.  Where the zone is 8 hours east of UTC at
the instant the offset read is `+08:00` and `c` is the UTC clock plus 8 hours.
The same holds for the `insert-time` of every run of `out` that ends with
status 0. -/
theorem times_reported_in_taipei :
    (∀ (env : Env) (stdin : Except String JSONSource) (args : List String)
        (responses : List (Except String BackupItem)) (tz : Location),
        (In.main env stdin args responses).exit = Exit.ok →
        env.LoadLocation "Asia/Taipei" = .ok tz →
        ∃ (run : BackupItem) (out : In.Output) (v : String),
          In.lastFetched (In.main env stdin args responses) responses = some run ∧
          (In.main env stdin args responses).printed = [out] ∧
          valueOf "end-time" out.Metadata = some v ∧
          (∀ off : Int, tz.lookup run.EndTime.sec = off → off % 60 = 0 → -86400 < off →
            off < 86400 → -31622400 ≤ run.EndTime.sec + off →
            run.EndTime.sec + off < 315537897600 →
            ∃ c : Civil, parseRFC3339 v = some (c, off) ∧
              c.toSeconds = run.EndTime.sec + off) ∧
          (tz.lookup run.EndTime.sec = 28800 → -31622400 ≤ run.EndTime.sec + 8 * 3600 →
            run.EndTime.sec + 8 * 3600 < 315537897600 →
            ∃ c : Civil, parseRFC3339 v = some (c, 8 * 3600) ∧
              c.toSeconds = run.EndTime.sec + 8 * 3600)) ∧
      (∀ (env : Env) (stdin : Except String Out.JSONSource) (r : Out.InsertResult)
        (tz : Location),
        (Out.main env stdin (.ok r)).exit = Exit.ok →
        env.LoadLocation "Asia/Taipei" = .ok tz →
        ∃ (out : Out.Output) (v : String),
          (Out.main env stdin (.ok r)).printed = [out] ∧
          valueOf "insert-time" out.Metadata = some v ∧
          (∀ off : Int, tz.lookup r.InsertTime.sec = off → off % 60 = 0 → -86400 < off →
            off < 86400 → -31622400 ≤ r.InsertTime.sec + off →
            r.InsertTime.sec + off < 315537897600 →
            ∃ c : Civil, parseRFC3339 v = some (c, off) ∧
              c.toSeconds = r.InsertTime.sec + off) ∧
          (tz.lookup r.InsertTime.sec = 28800 → -31622400 ≤ r.InsertTime.sec + 8 * 3600 →
            r.InsertTime.sec + 8 * 3600 < 315537897600 →
            ∃ c : Civil, parseRFC3339 v = some (c, 8 * 3600) ∧
              c.toSeconds = r.InsertTime.sec + 8 * 3600)) := by
  have key : ∀ (t : Time) (tz : Location) (off : Int), tz.lookup t.sec = off → off % 60 = 0 →
      -86400 < off → off < 86400 → -31622400 ≤ t.sec + off → t.sec + off < 315537897600 →
      ∃ c : Civil, parseRFC3339 (t.In tz).Format = some (c, off) ∧ c.toSeconds = t.sec + off := by
    intro t tz off hoff hm hlo hhi h0 h1
    subst hoff
    exact ⟨_, parseRFC3339_format t tz hm hlo hhi h0 h1, civilOf_toSeconds _⟩
  constructor
  · intro env stdin args responses tz h htz
    obtain ⟨input, pre, last, rest, tz1, -, -, -, -, htz1, -, hlf, hpr⟩ :=
      In.inMain_ok_inv env stdin args responses h
    have : tz1 = tz := by
      rw [htz1] at htz
      exact Except.ok.inj htz
    subst this
    refine ⟨last, _, (last.EndTime.In tz1).Format, hlf, hpr, by simp [valueOf], key _ _, ?_⟩
    intro h8 h0 h1
    exact key last.EndTime tz1 (8 * 3600) h8 (by norm_num) (by norm_num) (by norm_num) h0 h1
  · intro env stdin r tz h htz
    obtain ⟨r1, tz1, hr, htz1, hpr⟩ := outMain_ok_inv env stdin (.ok r) h
    have : tz1 = tz := by
      rw [htz1] at htz
      exact Except.ok.inj htz
    subst this
    have : r1 = r := (Except.ok.inj hr).symm
    subst this
    refine ⟨_, (r1.InsertTime.In tz1).Format, hpr, by simp [valueOf], key _ _, ?_⟩
    intro h8 h0 h1
    exact key r1.InsertTime tz1 (8 * 3600) h8 (by norm_num) (by norm_num) (by norm_num) h0 h1

/-- C7, an instance: with the abridged zone of the tz database, the end time and
the insert time 2024-01-01T04:00:00Z are reported as
`2024-01-01T12:00:00+08:00`, which reads as 12 hours of that day, 8 hours east
of UTC. -/
theorem times_reported_in_taipei_witness :
    (In.main envTZ (.ok inputB1) ["in", "out"] [.ok (runB1 "SUCCESSFUL")]).printed.map
        (fun o => valueOf "end-time" o.Metadata) = [some "2024-01-01T12:00:00+08:00"] ∧
      (Out.main envTZ (.ok outInput) (.ok opB1)).printed.map
        (fun o => valueOf "insert-time" o.Metadata) = [some "2024-01-01T12:00:00+08:00"] ∧
      parseRFC3339 "2024-01-01T12:00:00+08:00" = some (⟨2024, 1, 1, 12, 0, 0⟩, 8 * 3600) ∧
      (∃ (v : String) (c : Civil),
        (In.main envTZ (.ok inputB1) ["in", "out"] [.ok (runB1 "SUCCESSFUL")]).printed.map
          (fun o => valueOf "end-time" o.Metadata) = [some v] ∧
        parseRFC3339 v = some (c, 8 * 3600) ∧
        c.toSeconds = (runB1 "SUCCESSFUL").EndTime.sec + 8 * 3600) ∧
      (∃ (v : String) (c : Civil),
        (Out.main envTZ (.ok outInput) (.ok opB1)).printed.map
          (fun o => valueOf "insert-time" o.Metadata) = [some v] ∧
        parseRFC3339 v = some (c, 8 * 3600) ∧
        c.toSeconds = opB1.InsertTime.sec + 8 * 3600) := by
  refine ⟨by decide, by decide, by decide, ?_, ?_⟩
  · obtain ⟨run, out, v, hlf, hpr, hv, -, h8⟩ :=
      times_reported_in_taipei.1 envTZ (.ok inputB1) ["in", "out"] [.ok (runB1 "SUCCESSFUL")]
        taipeiTZ (by decide) rfl
    have hrun : run = runB1 "SUCCESSFUL" := by
      have : In.lastFetched (In.main envTZ (.ok inputB1) ["in", "out"]
          [.ok (runB1 "SUCCESSFUL")]) [.ok (runB1 "SUCCESSFUL")]
          = some (runB1 "SUCCESSFUL") := by decide
      rw [this] at hlf
      exact (Option.some.inj hlf).symm
    subst hrun
    obtain ⟨c, hc1, hc2⟩ := h8 (by decide) (by decide) (by decide)
    exact ⟨v, c, by rw [hpr, List.map_cons, List.map_nil, hv], hc1, hc2⟩
  · obtain ⟨out, v, hpr, hv, -, h8⟩ :=
      times_reported_in_taipei.2 envTZ (.ok outInput) opB1 taipeiTZ (by decide) rfl
    obtain ⟨c, hc1, hc2⟩ := h8 (by decide) (by decide) (by decide)
    exact ⟨v, c, by rw [hpr, List.map_cons, List.map_nil, hv], hc1, hc2⟩

/-- C7 as stated fails.  The zone the tz database holds as `Asia/Taipei` had
summer time in 1975, 9 hours east of UTC.  The service answers with a run that
ended at 1975-07-01T00:00:00Z; `in` ends with status 0 and reports the end time
as `1975-07-01T09:00:00+09:00`: the offset is `+09:00` and the clock is the UTC
clock plus 9 hours, where the claim has `1975-07-01T08:00:00+08:00`.  The same
for the insert time reported by `out`. -/
theorem times_not_fixed_plus8 :
    envTZ.LoadLocation "Asia/Taipei" = .ok taipeiTZ ∧
      run1975.EndTime = Time.ofUnix 173404800 ∧
      (Time.ofUnix 173404800).Format = "1975-07-01T00:00:00Z" ∧
      taipeiTZ.lookup run1975.EndTime.sec = 9 * 3600 ∧
      (In.main envTZ (.ok inputB1) ["in", "out"] [.ok run1975]).exit = Exit.ok ∧
      (In.main envTZ (.ok inputB1) ["in", "out"] [.ok run1975]).printed.map
        (fun o => valueOf "end-time" o.Metadata) = [some "1975-07-01T09:00:00+09:00"] ∧
      parseRFC3339 "1975-07-01T09:00:00+09:00" = some (⟨1975, 7, 1, 9, 0, 0⟩, 9 * 3600) ∧
      (run1975.EndTime.In taipei).Format = "1975-07-01T08:00:00+08:00" ∧
      (Out.main envTZ (.ok outInput) (.ok op1975)).exit = Exit.ok ∧
      (Out.main envTZ (.ok outInput) (.ok op1975)).printed.map
        (fun o => valueOf "insert-time" o.Metadata) = [some "1975-07-01T09:00:00+09:00"] := by
  refine ⟨?_, ?_, ?_, ?_, ?_, ?_, ?_, ?_, ?_, ?_⟩ <;> decide

/-- The years after 9999 are left out of C7 because no RFC 3339 text has them:
the insert time 9999-12-31T20:00:00Z is in the year 10000 on the clock of the
zone, `out` reports it with a year of five digits, and that text is not a
`date-time` of RFC 3339. -/
theorem out_year_10000 :
    (Out.main envTZ (.ok outInput) (.ok op9999)).printed.map
        (fun o => valueOf "insert-time" o.Metadata) = [some "10000-01-01T04:00:00+08:00"] ∧
      parseRFC3339 "10000-01-01T04:00:00+08:00" = none := by
  constructor <;> decide

namespace GoSort

/-! ## Theorems: the library sort keeps the elements -/

theorem swapAt_perm {α : Type} (data : List α) (i j : Nat) : (swapAt data i j).Perm data := by
  classical
  unfold swapAt
  cases hi : data[i]? with
  | none => simp
  | some x =>
    cases hj : data[j]? with
    | none => simp
    | some y =>
      simp only []
      obtain ⟨hil, hxi⟩ := List.getElem?_eq_some_iff.1 hi
      obtain ⟨hjl, hyj⟩ := List.getElem?_eq_some_iff.1 hj
      rw [List.perm_iff_count]
      intro b
      have hjl' : j < (data.set i y).length := by simpa using hjl
      rw [List.count_set _ _ _ _ hjl', List.count_set _ _ _ _ hil, List.getElem_set]
      have hx : (if x == b then 1 else 0) ≤ data.count b := by
        split
        · rename_i h
          have : x = b := by simpa using h
          subst this
          exact List.count_pos_iff.2 (hxi ▸ List.getElem_mem _)
        · exact Nat.zero_le _
      have hy : (if y == b then 1 else 0) ≤ data.count b := by
        split
        · rename_i h
          have : y = b := by simpa using h
          subst this
          exact List.count_pos_iff.2 (hyj ▸ List.getElem_mem _)
        · exact Nat.zero_le _
      rw [hxi]
      by_cases hij : i = j
      · subst hij
        rw [if_pos rfl]
        have : x = y := by rw [← hxi, ← hyj]
        subst this
        omega
      · rw [if_neg hij, hyj]
        omega


theorem insertionSort_inner_perm {α : Type} (less : α → α → Bool) :
    ∀ (fuel : Nat) (data : List α) (a j : Nat),
      (insertionSort_inner less fuel data a j).Perm data
  | 0, _, _, _ => List.Perm.refl _
  | fuel + 1, data, a, j => by
    rw [insertionSort_inner]
    split
    · exact (insertionSort_inner_perm less fuel _ a (j - 1)).trans (swapAt_perm _ _ _)
    · exact List.Perm.refl _

theorem insertionSort_outer_perm {α : Type} (less : α → α → Bool) :
    ∀ (fuel : Nat) (data : List α) (a b i : Nat),
      (insertionSort_outer less fuel data a b i).Perm data
  | 0, _, _, _, _ => List.Perm.refl _
  | fuel + 1, data, a, b, i => by
    rw [insertionSort_outer]
    split
    · exact (insertionSort_outer_perm less fuel _ a b (i + 1)).trans
        (insertionSort_inner_perm less _ _ _ _)
    · exact List.Perm.refl _

theorem insertionSort_func_perm {α : Type} (less : α → α → Bool) (data : List α) (a b : Nat) :
    (insertionSort_func less data a b).Perm data :=
  insertionSort_outer_perm less _ _ _ _ _

theorem perm_ite {α : Type} {c : Prop} [Decidable c] {x y d : List α} (hx : x.Perm d)
    (hy : y.Perm d) : (if c then x else y).Perm d := by
  split <;> assumption

theorem siftDown_func_perm {α : Type} (less : α → α → Bool) :
    ∀ (fuel : Nat) (data : List α) (root hi first : Nat),
      (siftDown_func less fuel data root hi first).Perm data
  | 0, _, _, _, _ => List.Perm.refl _
  | fuel + 1, data, root, hi, first => by
    rw [siftDown_func]
    exact perm_ite (List.Perm.refl _) (perm_ite (List.Perm.refl _)
      ((siftDown_func_perm less fuel _ _ hi first).trans (swapAt_perm _ _ _)))

theorem heapSort_build_perm {α : Type} (less : α → α → Bool) (hi first : Nat) :
    ∀ (i : Nat) (data : List α), (heapSort_build less hi first i data).Perm data
  | 0, _ => List.Perm.refl _
  | i + 1, data => by
    rw [heapSort_build]
    exact (heapSort_build_perm less hi first i _).trans (siftDown_func_perm less _ _ _ _ _)

theorem heapSort_pop_perm {α : Type} (less : α → α → Bool) (first : Nat) :
    ∀ (i : Nat) (data : List α), (heapSort_pop less first i data).Perm data
  | 0, _ => List.Perm.refl _
  | i + 1, data => by
    rw [heapSort_pop]
    exact (heapSort_pop_perm less first i _).trans
      ((siftDown_func_perm less _ _ _ _ _).trans (swapAt_perm _ _ _))

theorem heapSort_func_perm {α : Type} (less : α → α → Bool) (data : List α) (a b : Nat) :
    (heapSort_func less data a b).Perm data :=
  (heapSort_pop_perm less _ _ _).trans (heapSort_build_perm less _ _ _ _)

theorem partition_loop_perm {α : Type} (less : α → α → Bool) (a : Nat) :
    ∀ (fuel : Nat) (data : List α) (i j : Nat), (partition_loop less a fuel data i j).1.Perm data
  | 0, _, _, _ => List.Perm.refl _
  | fuel + 1, data, i, j => by
    rw [partition_loop]
    split
    · exact List.Perm.refl _
    · exact (partition_loop_perm less a fuel _ _ _).trans (swapAt_perm _ _ _)

theorem partition_func_perm {α : Type} (less : α → α → Bool) (data : List α) (a b pivot : Nat) :
    (partition_func less data a b pivot).1.Perm data := by
  unfold partition_func
  simp only []
  split
  · exact (swapAt_perm _ _ _).trans (swapAt_perm _ _ _)
  · exact (swapAt_perm _ _ _).trans ((partition_loop_perm less a _ _ _ _).trans
      ((swapAt_perm _ _ _).trans (swapAt_perm _ _ _)))

theorem partitionEqual_loop_perm {α : Type} (less : α → α → Bool) (a : Nat) :
    ∀ (fuel : Nat) (data : List α) (i j : Nat),
      (partitionEqual_loop less a fuel data i j).1.Perm data
  | 0, _, _, _ => List.Perm.refl _
  | fuel + 1, data, i, j => by
    rw [partitionEqual_loop]
    split
    · exact List.Perm.refl _
    · exact (partitionEqual_loop_perm less a fuel _ _ _).trans (swapAt_perm _ _ _)

theorem partitionEqual_func_perm {α : Type} (less : α → α → Bool) (data : List α)
    (a b pivot : Nat) : (partitionEqual_func less data a b pivot).1.Perm data :=
  (partitionEqual_loop_perm less a _ _ _ _).trans (swapAt_perm _ _ _)

theorem shiftLeft_perm {α : Type} (less : α → α → Bool) :
    ∀ (fuel : Nat) (data : List α) (j : Nat), (shiftLeft less fuel data j).Perm data
  | 0, _, _ => List.Perm.refl _
  | fuel + 1, data, j => by
    rw [shiftLeft]
    split
    · split
      · exact List.Perm.refl _
      · exact (shiftLeft_perm less fuel _ _).trans (swapAt_perm _ _ _)
    · exact List.Perm.refl _

theorem shiftRight_perm {α : Type} (less : α → α → Bool) (b : Nat) :
    ∀ (fuel : Nat) (data : List α) (j : Nat), (shiftRight less b fuel data j).Perm data
  | 0, _, _ => List.Perm.refl _
  | fuel + 1, data, j => by
    rw [shiftRight]
    split
    · split
      · exact List.Perm.refl _
      · exact (shiftRight_perm less b fuel _ _).trans (swapAt_perm _ _ _)
    · exact List.Perm.refl _

theorem partialInsertionSort_shift_perm {α : Type} (less : α → α → Bool) (data : List α)
    (a b i : Nat) : (partialInsertionSort_shift less data a b i).Perm data := by
  unfold partialInsertionSort_shift
  have h1 := swapAt_perm data i (i - 1)
  have h2 : (if i - a ≥ 2 then
      shiftLeft less (swapAt data i (i - 1)).length (swapAt data i (i - 1)) (i - 1)
      else swapAt data i (i - 1)).Perm data :=
    perm_ite ((shiftLeft_perm less _ _ _).trans h1) h1
  exact perm_ite ((shiftRight_perm less b _ _ _).trans h2) h2

theorem partialInsertionSort_loop_perm {α : Type} (less : α → α → Bool) (a b : Nat) :
    ∀ (steps : Nat) (data : List α) (i : Nat),
      (partialInsertionSort_loop less a b steps data i).1.Perm data
  | 0, _, _ => List.Perm.refl _
  | steps + 1, data, i => by
    rw [partialInsertionSort_loop]
    split
    · exact List.Perm.refl _
    · split
      · exact List.Perm.refl _
      · exact (partialInsertionSort_loop_perm less a b steps _ _).trans
          (partialInsertionSort_shift_perm _ _ _ _ _)

theorem partialInsertionSort_func_perm {α : Type} (less : α → α → Bool) (data : List α)
    (a b : Nat) : (partialInsertionSort_func less data a b).1.Perm data :=
  partialInsertionSort_loop_perm less a b _ _ _

theorem breakPatterns_loop_perm {α : Type} (a length modulus idx : Nat) :
    ∀ (n i random : Nat) (data : List α),
      (breakPatterns_loop a length modulus idx n i random data).Perm data
  | 0, _, _, _ => List.Perm.refl _
  | n + 1, i, random, data => by
    rw [breakPatterns_loop]
    exact (breakPatterns_loop_perm a length modulus idx n _ _ _).trans (swapAt_perm _ _ _)

theorem breakPatterns_func_perm {α : Type} (data : List α) (a b : Nat) :
    (breakPatterns_func data a b).Perm data := by
  unfold breakPatterns_func
  simp only []
  split
  · exact breakPatterns_loop_perm _ _ _ _ _ _ _ _
  · exact List.Perm.refl _

theorem reverseRange_loop_perm {α : Type} :
    ∀ (fuel : Nat) (data : List α) (i j : Nat), (reverseRange_loop fuel data i j).Perm data
  | 0, _, _, _ => List.Perm.refl _
  | fuel + 1, data, i, j => by
    rw [reverseRange_loop]
    split
    · exact (reverseRange_loop_perm fuel _ _ _).trans (swapAt_perm _ _ _)
    · exact List.Perm.refl _

theorem reverseRange_func_perm {α : Type} (data : List α) (a b : Nat) :
    (reverseRange_func data a b).Perm data :=
  reverseRange_loop_perm _ _ _ _

theorem pdqsort_pivot_perm {α : Type} (less : α → α → Bool) (data : List α) (a b limit : Nat)
    (wasBalanced : Bool) : (pdqsort_pivot less data a b limit wasBalanced).1.Perm data := by
  have h : (if wasBalanced = true then data else breakPatterns_func data a b).Perm data :=
    perm_ite (List.Perm.refl _) (breakPatterns_func_perm _ _ _)
  unfold pdqsort_pivot
  generalize (if wasBalanced = true then data else breakPatterns_func data a b) = d1 at h ⊢
  simp only []
  split
  · exact (reverseRange_func_perm _ _ _).trans h
  · exact h

theorem pdqsort_func_perm {α : Type} (less : α → α → Bool) :
    ∀ (fuel : Nat) (data : List α) (a b limit : Nat) (wasBalanced wasPartitioned : Bool),
      (pdqsort_func less fuel data a b limit wasBalanced wasPartitioned).Perm data
  | 0, _, _, _, _, _, _ => List.Perm.refl _
  | fuel + 1, data, a, b, limit, wasBalanced, wasPartitioned => by
    rw [pdqsort_func]
    have hp := pdqsort_pivot_perm less data a b limit wasBalanced
    generalize pdqsort_pivot less data a b limit wasBalanced = p at hp ⊢
    have hpis : (if wasBalanced = true ∧ wasPartitioned = true ∧
          p.2.2.2 = sortedHint.increasingHint
        then partialInsertionSort_func less p.1 a b else (p.1, false)).1.Perm data := by
      split
      · exact (partialInsertionSort_func_perm _ _ _ _).trans hp
      · exact hp
    simp only []
    refine perm_ite (insertionSort_func_perm _ _ _ _) (perm_ite (heapSort_func_perm _ _ _ _) ?_)
    refine perm_ite hpis (perm_ite ?_ (perm_ite ?_ ?_))
    · exact (pdqsort_func_perm less fuel _ _ _ _ _ _).trans
        ((partitionEqual_func_perm _ _ _ _ _).trans hpis)
    · exact (pdqsort_func_perm less fuel _ _ _ _ _ _).trans
        ((pdqsort_func_perm less fuel _ _ _ _ _ _).trans
          ((partition_func_perm _ _ _ _ _).trans hpis))
    · exact (pdqsort_func_perm less fuel _ _ _ _ _ _).trans
        ((pdqsort_func_perm less fuel _ _ _ _ _ _).trans
          ((partition_func_perm _ _ _ _ _).trans hpis))

theorem Slice_perm {α : Type} (less : α → α → Bool) (x : List α) : (Slice less x).Perm x :=
  pdqsort_func_perm less _ _ _ _ _ _ _

/-! ## Theorems: the library sort sorts -/

theorem StrictWeakOrder.asymm {α : Type} {less : α → α → Bool} (h : StrictWeakOrder less)
    {a b : α} (hab : less a b = true) : less b a = false := by
  cases hba : less b a with
  | false => rfl
  | true =>
    have := h.2.1 a b a hab hba
    rw [h.1 a] at this
    exact absurd this (by simp)

/-- "Not less" is transitive: from `a ≤ b` and `b ≤ c`, `a ≤ c`. -/
theorem StrictWeakOrder.le_trans {α : Type} {less : α → α → Bool} (h : StrictWeakOrder less)
    {a b c : α} (hab : less b a = false) (hbc : less c b = false) : less c a = false := by
  cases hca : less c a with
  | false => rfl
  | true =>
    exfalso
    have hbc' : less b c = false := by
      cases h1 : less b c with
      | false => rfl
      | true =>
        have := h.2.1 b c a h1 hca
        rw [hab] at this
        exact absurd this (by simp)
    have hab' : less a b = false := by
      cases h1 : less a b with
      | false => rfl
      | true =>
        have := h.2.1 c a b hca h1
        rw [hbc] at this
        exact absurd this (by simp)
    have := (h.2.2 a b c hab' hab hbc' hbc).2
    rw [hca] at this
    exact absurd this (by simp)

/-- From `a < b` and `b ≤ c`, `a < c`. -/
theorem StrictWeakOrder.lt_of_lt_of_le {α : Type} {less : α → α → Bool}
    (h : StrictWeakOrder less) {a b c : α} (hab : less a b = true) (hbc : less c b = false) :
    less a c = true := by
  cases hac : less a c with
  | true => rfl
  | false =>
    exfalso
    have := h.le_trans hbc hac
    rw [hab] at this
    exact absurd this (by simp)

/-- From `a ≤ b` and `b < c`, `a < c`. -/
theorem StrictWeakOrder.lt_of_le_of_lt {α : Type} {less : α → α → Bool}
    (h : StrictWeakOrder less) {a b c : α} (hab : less b a = false) (hbc : less b c = true) :
    less a c = true := by
  cases hac : less a c with
  | true => rfl
  | false =>
    exfalso
    have := h.le_trans hac hab
    rw [hbc] at this
    exact absurd this (by simp)

theorem swapAt_length {α : Type} (data : List α) (i j : Nat) :
    (swapAt data i j).length = data.length := by
  unfold swapAt
  split <;> simp

/-- The elements of a slice after a swap of two of its positions. -/
theorem swapAt_getElem? {α : Type} (data : List α) (i j k : Nat) (hi : i < data.length)
    (hj : j < data.length) :
    (swapAt data i j)[k]? = if k = j then data[i]? else if k = i then data[j]? else data[k]? := by
  unfold swapAt
  rw [List.getElem?_eq_getElem hi, List.getElem?_eq_getElem hj]
  simp only []
  rw [List.getElem?_set, List.getElem?_set]
  by_cases hkj : k = j
  · subst hkj
    simp [hi, hj]
  · by_cases hki : k = i
    · subst hki
      simp [hi, hj, Ne.symm hkj, hkj]
    · simp [hkj, hki, Ne.symm hkj, Ne.symm hki]

/-- A swap at a position outside the slice does nothing. -/
theorem swapAt_of_not_lt {α : Type} (data : List α) (i j : Nat)
    (h : ¬ (i < data.length ∧ j < data.length)) : swapAt data i j = data := by
  unfold swapAt
  by_cases hi : i < data.length
  · have hj : ¬ j < data.length := fun hj => h ⟨hi, hj⟩
    rw [List.getElem?_eq_none (by omega : data.length ≤ j)]
    split <;> simp_all
  · rw [List.getElem?_eq_none (by omega : data.length ≤ i)]

theorem lessAt_eq {α : Type} (less : α → α → Bool) (data : List α) (i j : Nat)
    (hi : i < data.length) (hj : j < data.length) :
    lessAt less data i j = less data[i] data[j] := by
  unfold lessAt
  rw [List.getElem?_eq_getElem hi, List.getElem?_eq_getElem hj]

/-- The element at a position after a swap is the element of the position it
came from. -/
theorem swapAt_getElem?_perm {α : Type} (data : List α) (i j k : Nat) (hi : i < data.length)
    (hj : j < data.length) :
    (swapAt data i j)[k]? = data[if k = j then i else if k = i then j else k]? := by
  rw [swapAt_getElem? data i j k hi hj]
  by_cases hkj : k = j
  · simp [hkj]
  · by_cases hki : k = i
    · subst hki
      rw [if_neg hkj, if_pos rfl, if_neg hkj, if_pos rfl]
    · simp [hkj, hki]

/-- The comparison of two positions after a swap is the comparison of the
positions they came from. -/
theorem lessAt_swapAt {α : Type} (less : α → α → Bool) (data : List α) (i j p q : Nat)
    (hi : i < data.length) (hj : j < data.length) :
    lessAt less (swapAt data i j) p q =
      lessAt less data (if p = j then i else if p = i then j else p)
        (if q = j then i else if q = i then j else q) := by
  unfold lessAt
  rw [swapAt_getElem?_perm data i j p hi hj, swapAt_getElem?_perm data i j q hi hj]

theorem Within.refl {α : Type} (d : List α) (a b : Nat) : Within d d a b :=
  ⟨rfl, fun _ _ => rfl, fun _ h => h⟩

theorem Within.trans {α : Type} {d1 d2 d3 : List α} {a b : Nat} (h12 : Within d1 d2 a b)
    (h23 : Within d2 d3 a b) : Within d1 d3 a b :=
  ⟨h23.1.trans h12.1, fun k hk => (h23.2.1 k hk).trans (h12.2.1 k hk),
    fun P hP => h23.2.2 P (h12.2.2 P hP)⟩

theorem Within.mono {α : Type} {d d' : List α} {a b a' b' : Nat} (h : Within d d' a' b')
    (ha : a ≤ a') (hb : b' ≤ b) : Within d d' a b := by
  refine ⟨h.1, fun k hk => h.2.1 k (by omega), ?_⟩
  intro P hP k x hak hkb hx
  by_cases hin : a' ≤ k ∧ k < b'
  · exact h.2.2 P (fun k x h1 h2 hx => hP k x (by omega) (by omega) hx) k x hin.1 hin.2 hx
  · rw [h.2.1 k (by omega)] at hx
    exact hP k x hak hkb hx

theorem swapAt_within {α : Type} (d : List α) (i j a b : Nat) (hai : a ≤ i) (hib : i < b)
    (haj : a ≤ j) (hjb : j < b) : Within d (swapAt d i j) a b := by
  by_cases hlen : i < d.length ∧ j < d.length
  · obtain ⟨hi, hj⟩ := hlen
    refine ⟨swapAt_length d i j, ?_, ?_⟩
    · intro k hk
      rw [swapAt_getElem? d i j k hi hj, if_neg (by omega), if_neg (by omega)]
    · intro P hP k x hak hkb hx
      rw [swapAt_getElem? d i j k hi hj] at hx
      split at hx
      · exact hP i x hai hib hx
      · split at hx
        · exact hP j x haj hjb hx
        · exact hP k x hak hkb hx
  · rw [swapAt_of_not_lt d i j hlen]
    exact Within.refl d a b

/-- A comparison with a position outside the range is kept for every position
of the range. -/
theorem Within.lessAt_left {α : Type} {less : α → α → Bool} {d d' : List α} {a b : Nat}
    (h : Within d d' a b) (m : Nat) (hm : m < a ∨ b ≤ m) (v : Bool)
    (hall : ∀ k, a ≤ k → k < b → k < d.length → lessAt less d k m = v) :
    ∀ k, a ≤ k → k < b → k < d.length → lessAt less d' k m = v := by
  intro k hak hkb hkl
  have hkl' : k < d'.length := by rw [h.1]; exact hkl
  by_cases hml : m < d.length
  · have hmeq := h.2.1 m hm
    have key := h.2.2 (fun x => less x d[m] = v) (by
      intro k x hak hkb hx
      obtain ⟨hk, rfl⟩ := List.getElem?_eq_some_iff.1 hx
      rw [← lessAt_eq less d k m hk hml]
      exact hall k hak hkb hk) k d'[k] hak hkb (List.getElem?_eq_getElem hkl')
    unfold lessAt
    rw [List.getElem?_eq_getElem hkl', hmeq, List.getElem?_eq_getElem hml]
    exact key
  · have h0 := hall k hak hkb hkl
    unfold lessAt at h0 ⊢
    rw [h.2.1 m hm]
    rw [List.getElem?_eq_none (by omega : d.length ≤ m)] at h0 ⊢
    cases hd : d'[k]? <;> cases hd0 : d[k]? <;> simp_all

/-- A comparison of a position outside the range with the positions of the
range is kept. -/
theorem Within.lessAt_right {α : Type} {less : α → α → Bool} {d d' : List α} {a b : Nat}
    (h : Within d d' a b) (m : Nat) (hm : m < a ∨ b ≤ m) (v : Bool)
    (hall : ∀ k, a ≤ k → k < b → k < d.length → lessAt less d m k = v) :
    ∀ k, a ≤ k → k < b → k < d.length → lessAt less d' m k = v := by
  intro k hak hkb hkl
  have hkl' : k < d'.length := by rw [h.1]; exact hkl
  by_cases hml : m < d.length
  · have hmeq := h.2.1 m hm
    have key := h.2.2 (fun x => less d[m] x = v) (by
      intro k x hak hkb hx
      obtain ⟨hk, rfl⟩ := List.getElem?_eq_some_iff.1 hx
      rw [← lessAt_eq less d m k hml hk]
      exact hall k hak hkb hk) k d'[k] hak hkb (List.getElem?_eq_getElem hkl')
    unfold lessAt
    rw [List.getElem?_eq_getElem hkl', hmeq, List.getElem?_eq_getElem hml]
    exact key
  · have h0 := hall k hak hkb hkl
    unfold lessAt at h0 ⊢
    rw [h.2.1 m hm]
    rw [List.getElem?_eq_none (by omega : d.length ≤ m)] at h0 ⊢
    cases hd : d'[k]? <;> cases hd0 : d[k]? <;> simp_all

/-- Comparisons between positions outside the range are kept. -/
theorem Within.lessAt_outside {α : Type} {less : α → α → Bool} {d d' : List α} {a b : Nat}
    (h : Within d d' a b) (p q : Nat) (hp : p < a ∨ b ≤ p) (hq : q < a ∨ b ≤ q) :
    lessAt less d' p q = lessAt less d p q := by
  unfold lessAt
  rw [h.2.1 p hp, h.2.1 q hq]

theorem lessAt_le_trans {α : Type} {less : α → α → Bool} (h : StrictWeakOrder less)
    (d : List α) (i j k : Nat) (hj : j < d.length) (hij : lessAt less d j i = false)
    (hjk : lessAt less d k j = false) : lessAt less d k i = false := by
  by_cases hi : i < d.length
  · by_cases hk : k < d.length
    · rw [lessAt_eq less d _ _ hj hi] at hij
      rw [lessAt_eq less d _ _ hk hj] at hjk
      rw [lessAt_eq less d _ _ hk hi]
      exact h.le_trans hij hjk
    · unfold lessAt
      rw [List.getElem?_eq_none (by omega : d.length ≤ k)]
  · unfold lessAt
    rw [List.getElem?_eq_none (by omega : d.length ≤ i)]
    split <;> simp_all

/-- The inner loop of insertion sort moves the element at `j` to its place:
when `[a, j)` and `[j, i]` are in order and nothing of `[a, j)` is above
anything of `(j, i]`, the range `[a, i]` ends in order. -/
theorem insertionSort_inner_spec {α : Type} {less : α → α → Bool} (h : StrictWeakOrder less)
    (a i : Nat) :
    ∀ (fuel : Nat) (d : List α) (j : Nat), j - a ≤ fuel → a ≤ j → j ≤ i → i < d.length →
      SortedOn less d a j → SortedOn less d j (i + 1) →
      (∀ p q, a ≤ p → p < j → j < q → q ≤ i → lessAt less d q p = false) →
      Within d (insertionSort_inner less fuel d a j) a (i + 1) ∧
        SortedOn less (insertionSort_inner less fuel d a j) a (i + 1)
  | 0, d, j, hf, haj, hji, hil, h1, h2, h3 => by
    have : j = a := by omega
    subst this
    exact ⟨Within.refl _ _ _, h2⟩
  | fuel + 1, d, j, hf, haj, hji, hil, h1, h2, h3 => by
    rw [insertionSort_inner]
    by_cases hc : a < j ∧ lessAt less d j (j - 1) = true
    · rw [if_pos hc]
      obtain ⟨hlt, hless⟩ := hc
      have hjl : j < d.length := by omega
      have hj1l : j - 1 < d.length := by omega
      have hle : lessAt less d (j - 1) j = false := by
        rw [lessAt_eq less d _ _ hj1l hjl]
        rw [lessAt_eq less d _ _ hjl hj1l] at hless
        exact h.asymm hless
      have ih := insertionSort_inner_spec h a i fuel (swapAt d j (j - 1)) (j - 1) (by omega)
        (by omega) (by omega) (by rw [swapAt_length]; exact hil)
        (by
          intro p q hap hpq hq
          rw [lessAt_swapAt less d j (j - 1) q p hjl hj1l]
          rw [if_neg (by omega), if_neg (by omega), if_neg (by omega), if_neg (by omega)]
          exact h1 p q hap hpq (by omega))
        (by
          intro p q hap hpq hq
          rw [lessAt_swapAt less d j (j - 1) q p hjl hj1l]
          by_cases hpj1 : p = j - 1
          · rw [if_neg (by omega : ¬ q = j - 1), if_pos hpj1]
            by_cases hqj : q = j
            · rw [if_pos hqj]
              exact hle
            · rw [if_neg hqj]
              exact h2 j q (le_refl _) (by omega) hq
          · rw [if_neg (by omega : ¬ q = j - 1), if_neg hpj1, if_neg (by omega : ¬ q = j)]
            by_cases hpj : p = j
            · rw [if_pos hpj]
              exact h3 (j - 1) q (by omega) (by omega) (by omega) (by omega)
            · rw [if_neg hpj]
              exact h2 p q (by omega) hpq hq)
        (by
          intro p q hap hpj hjq hqi
          rw [lessAt_swapAt less d j (j - 1) q p hjl hj1l]
          rw [if_neg (by omega : ¬ q = j - 1), if_neg (by omega : ¬ p = j - 1),
            if_neg (by omega : ¬ p = j)]
          by_cases hqj : q = j
          · rw [if_pos hqj]
            exact h1 p (j - 1) hap (by omega) (by omega)
          · rw [if_neg hqj]
            exact h3 p q hap (by omega) (by omega) hqi)
      exact ⟨(swapAt_within d j (j - 1) a (i + 1) (by omega) (by omega) (by omega)
        (by omega)).trans ih.1, ih.2⟩
    · rw [if_neg hc]
      refine ⟨Within.refl _ _ _, ?_⟩
      intro p q hap hpq hq
      by_cases hqj : q < j
      · exact h1 p q hap hpq hqj
      · by_cases hpj : j ≤ p
        · exact h2 p q hpj hpq hq
        · by_cases hjq : q = j
          · subst hjq
            have hlt : a < q := by omega
            have hnl : lessAt less d q (q - 1) = false := by
              cases hv : lessAt less d q (q - 1) with
              | false => rfl
              | true => exact absurd ⟨hlt, hv⟩ hc
            by_cases hpq1 : p = q - 1
            · subst hpq1
              exact hnl
            · exact lessAt_le_trans h d p (q - 1) q (by omega)
                (h1 p (q - 1) hap (by omega) (by omega)) hnl
          · exact h3 p q hap (by omega) (by omega) (by omega)

/-- The outer loop of insertion sort: when `[a, i)` is in order, `[a, b)` ends
in order. -/
theorem insertionSort_outer_spec {α : Type} {less : α → α → Bool} (h : StrictWeakOrder less)
    (a b : Nat) :
    ∀ (fuel : Nat) (d : List α) (i : Nat), b - i ≤ fuel → a ≤ i → i ≤ b → b ≤ d.length →
      SortedOn less d a i →
      Within d (insertionSort_outer less fuel d a b i) a b ∧
        SortedOn less (insertionSort_outer less fuel d a b i) a b
  | 0, d, i, hf, hai, hib, hbl, h1 => by
    have : i = b := by omega
    subst this
    exact ⟨Within.refl _ _ _, h1⟩
  | fuel + 1, d, i, hf, hai, hib, hbl, h1 => by
    rw [insertionSort_outer]
    by_cases hc : i < b
    · rw [if_pos hc]
      have hin := insertionSort_inner_spec h a i i d i (by omega) hai (le_refl _) (by omega) h1
        (by
          intro p q hp hpq hq
          omega)
        (by
          intro p q hap hpi hiq hqi
          omega)
      have ih := insertionSort_outer_spec h a b fuel (insertionSort_inner less i d a i) (i + 1)
        (by omega) (by omega) (by omega) (by rw [hin.1.1]; exact hbl) hin.2
      exact ⟨(hin.1.mono (le_refl _) (by omega)).trans ih.1, ih.2⟩
    · rw [if_neg hc]
      have : i = b := by omega
      subst this
      exact ⟨Within.refl _ _ _, h1⟩

/-- Insertion sort puts the range `[a, b)` in order and rearranges nothing
else. -/
theorem insertionSort_func_spec {α : Type} {less : α → α → Bool} (h : StrictWeakOrder less)
    (d : List α) (a b : Nat) (hab : a ≤ b) (hbl : b ≤ d.length) :
    Within d (insertionSort_func less d a b) a b ∧
      SortedOn less (insertionSort_func less d a b) a b := by
  unfold insertionSort_func
  by_cases hlt : a < b
  · exact insertionSort_outer_spec h a b (b - a) d (a + 1) (by omega) (by omega) (by omega) hbl
      (by
        intro p q hp hpq hq
        omega)
  · have : b - a = 0 := by omega
    rw [this, insertionSort_outer]
    refine ⟨Within.refl _ _ _, ?_⟩
    intro p q hp hpq hq
    omega

/-- The upward scan stops at the first position from `i` that is beyond `j` or
does not hold an element less than the pivot at `a`. -/
theorem scanUp_spec {α : Type} (less : α → α → Bool) (d : List α) (a j : Nat) :
    ∀ (fuel i : Nat), j + 1 - i ≤ fuel → i ≤ j + 1 →
      i ≤ scanUp less d a j fuel i ∧ scanUp less d a j fuel i ≤ j + 1 ∧
        (∀ k, i ≤ k → k < scanUp less d a j fuel i → lessAt less d k a = true) ∧
        (scanUp less d a j fuel i ≤ j → lessAt less d (scanUp less d a j fuel i) a = false)
  | 0, i, hf, hij => by
    rw [scanUp]
    exact ⟨le_refl _, hij, fun k h1 h2 => by omega, fun h => by omega⟩
  | fuel + 1, i, hf, hij => by
    rw [scanUp]
    by_cases hc : i ≤ j ∧ lessAt less d i a = true
    · rw [if_pos hc]
      obtain ⟨h1, h2, h3, h4⟩ := scanUp_spec less d a j fuel (i + 1) (by omega) (by omega)
      refine ⟨by omega, h2, ?_, h4⟩
      intro k hik hk
      by_cases hki : k = i
      · subst hki
        exact hc.2
      · exact h3 k (by omega) hk
    · rw [if_neg hc]
      refine ⟨le_refl _, hij, fun k h1 h2 => by omega, ?_⟩
      intro hle
      cases hv : lessAt less d i a with
      | false => rfl
      | true => exact absurd ⟨hle, hv⟩ hc

/-- The downward scan stops at the first position from `j` down that is below
`i` or holds an element less than the pivot at `a`. -/
theorem scanDown_spec {α : Type} (less : α → α → Bool) (d : List α) (a i : Nat) (hi : 1 ≤ i) :
    ∀ (fuel j : Nat), j + 1 - i ≤ fuel → i ≤ j + 1 →
      scanDown less d a i fuel j ≤ j ∧ i ≤ scanDown less d a i fuel j + 1 ∧
        (∀ k, scanDown less d a i fuel j < k → k ≤ j → lessAt less d k a = false) ∧
        (i ≤ scanDown less d a i fuel j → lessAt less d (scanDown less d a i fuel j) a = true)
  | 0, j, hf, hij => by
    rw [scanDown]
    exact ⟨le_refl _, hij, fun k h1 h2 => by omega, fun h => by omega⟩
  | fuel + 1, j, hf, hij => by
    rw [scanDown]
    by_cases hc : i ≤ j ∧ lessAt less d j a = false
    · rw [if_pos hc]
      obtain ⟨h1, h2, h3, h4⟩ := scanDown_spec less d a i hi fuel (j - 1) (by omega) (by omega)
      refine ⟨by omega, h2, ?_, h4⟩
      intro k hk hkj
      by_cases hkj' : k = j
      · subst hkj'
        exact hc.2
      · exact h3 k hk (by omega)
    · rw [if_neg hc]
      refine ⟨le_refl _, hij, fun k h1 h2 => by omega, ?_⟩
      intro hle
      cases hv : lessAt less d j a with
      | true => rfl
      | false => exact absurd ⟨hle, hv⟩ hc

/-- The loop of the partition: with the pivot at `a`, elements less than it in
`(a, i)` and none less than it in `(j, b)`, it ends with the same for
`(a, j']` and `(j', b)` at the position `j'` it returns. -/
theorem partition_loop_spec {α : Type} (less : α → α → Bool) (a b : Nat) :
    ∀ (fuel : Nat) (d : List α) (i j : Nat), j + 1 - i ≤ fuel → a + 1 ≤ i → i ≤ j + 1 → j < b →
      b ≤ d.length →
      (∀ k, a < k → k < i → lessAt less d k a = true) →
      (∀ k, j < k → k < b → lessAt less d k a = false) →
      Within d (partition_loop less a fuel d i j).1 (a + 1) b ∧
        a ≤ (partition_loop less a fuel d i j).2 ∧ (partition_loop less a fuel d i j).2 < b ∧
        (∀ k, a < k → k ≤ (partition_loop less a fuel d i j).2 →
          lessAt less (partition_loop less a fuel d i j).1 k a = true) ∧
        (∀ k, (partition_loop less a fuel d i j).2 < k → k < b →
          lessAt less (partition_loop less a fuel d i j).1 k a = false)
  | 0, d, i, j, hf, hai, hij, hjb, hbl, hL, hR => by
    rw [partition_loop]
    refine ⟨Within.refl _ _ _, by omega, hjb, ?_, hR⟩
    intro k hak hkj
    exact hL k hak (by omega)
  | fuel + 1, d, i, j, hf, hai, hij, hjb, hbl, hL, hR => by
    rw [partition_loop]
    obtain ⟨u1, u2, u3, u4⟩ := scanUp_spec less d a j d.length i (by omega) hij
    generalize scanUp less d a j d.length i = i1 at u1 u2 u3 u4 ⊢
    obtain ⟨v1, v2, v3, v4⟩ := scanDown_spec less d a i1 (by omega) d.length j (by omega) u2
    generalize scanDown less d a i1 d.length j = j1 at v1 v2 v3 v4 ⊢
    have hL1 : ∀ k, a < k → k < i1 → lessAt less d k a = true := by
      intro k hak hk
      by_cases hki : k < i
      · exact hL k hak hki
      · exact u3 k (by omega) hk
    have hR1 : ∀ k, j1 < k → k < b → lessAt less d k a = false := by
      intro k hk hkb
      by_cases hkj : j < k
      · exact hR k hkj hkb
      · exact v3 k hk (by omega)
    by_cases hc : i1 > j1
    · rw [if_pos hc]
      refine ⟨Within.refl _ _ _, by omega, by omega, ?_, hR1⟩
      intro k hak hkj
      exact hL1 k hak (by omega)
    · rw [if_neg hc]
      have hlt : i1 < j1 := by
        by_contra hne
        have he : i1 = j1 := by omega
        have h1 := u4 (by omega)
        have h2 := v4 (by omega)
        rw [he] at h1
        rw [h1] at h2
        exact Bool.noConfusion h2
      have hi1l : i1 < d.length := by omega
      have hj1l : j1 < d.length := by omega
      have ih := partition_loop_spec less a b fuel (swapAt d i1 j1) (i1 + 1) (j1 - 1) (by omega)
        (by omega) (by omega) (by omega) (by rw [swapAt_length]; exact hbl)
        (by
          intro k hak hk
          rw [lessAt_swapAt less d i1 j1 k a hi1l hj1l]
          rw [if_neg (by omega : ¬ a = j1), if_neg (by omega : ¬ a = i1)]
          rw [if_neg (by omega : ¬ k = j1)]
          by_cases hki : k = i1
          · rw [if_pos hki]
            exact v4 (by omega)
          · rw [if_neg hki]
            exact hL1 k hak (by omega))
        (by
          intro k hk hkb
          rw [lessAt_swapAt less d i1 j1 k a hi1l hj1l]
          rw [if_neg (by omega : ¬ a = j1), if_neg (by omega : ¬ a = i1)]
          by_cases hkj : k = j1
          · rw [if_pos hkj]
            exact u4 (by omega)
          · rw [if_neg hkj, if_neg (by omega : ¬ k = i1)]
            exact hR1 k (by omega) hkb)
      exact ⟨(swapAt_within d i1 j1 (a + 1) b (by omega) (by omega) (by omega) (by omega)).trans
        ih.1, ih.2⟩

/-- The partition is its loop started after the pivot was moved to `a`, followed
by the swap that puts the pivot at its place. -/
theorem partition_func_eq {α : Type} (less : α → α → Bool) (d : List α) (a b pivot : Nat) :
    (partition_func less d a b pivot).1 =
        swapAt (partition_loop less a ((swapAt d a pivot).length + 1) (swapAt d a pivot) (a + 1)
          (b - 1)).1 (partition_loop less a ((swapAt d a pivot).length + 1) (swapAt d a pivot)
          (a + 1) (b - 1)).2 a ∧
      (partition_func less d a b pivot).2.1 =
        (partition_loop less a ((swapAt d a pivot).length + 1) (swapAt d a pivot) (a + 1)
          (b - 1)).2 := by
  unfold partition_func
  rw [partition_loop]
  simp only [swapAt_length]
  split <;> exact ⟨rfl, rfl⟩

/-- The partition of `[a, b)` around the element at `pivot`: the pivot ends at
the position returned, the elements before it are less than it and no element
after it is. -/
theorem partition_func_spec {α : Type} (less : α → α → Bool) (d : List α) (a b pivot : Nat)
    (hap : a ≤ pivot) (hpb : pivot < b) (hbl : b ≤ d.length) :
    Within d (partition_func less d a b pivot).1 a b ∧
      a ≤ (partition_func less d a b pivot).2.1 ∧ (partition_func less d a b pivot).2.1 < b ∧
      (∀ k, a ≤ k → k < (partition_func less d a b pivot).2.1 →
        lessAt less (partition_func less d a b pivot).1 k
          (partition_func less d a b pivot).2.1 = true) ∧
      (∀ k, (partition_func less d a b pivot).2.1 < k → k < b →
        lessAt less (partition_func less d a b pivot).1 k
          (partition_func less d a b pivot).2.1 = false) := by
  obtain ⟨e1, e2⟩ := partition_func_eq less d a b pivot
  rw [e1, e2]
  have hw0 : Within d (swapAt d a pivot) a b :=
    swapAt_within d a pivot a b (le_refl _) (by omega) hap hpb
  have hl0 : (swapAt d a pivot).length = d.length := swapAt_length d a pivot
  generalize swapAt d a pivot = d0 at hw0 hl0 ⊢
  obtain ⟨w, m1, m2, hL, hR⟩ := partition_loop_spec less a b (d0.length + 1) d0 (a + 1) (b - 1)
    (by omega) (le_refl _) (by omega) (by omega) (by omega) (fun k h1 h2 => by omega)
    (fun k h1 h2 => by omega)
  generalize partition_loop less a (d0.length + 1) d0 (a + 1) (b - 1) = r at w m1 m2 hL hR ⊢
  obtain ⟨d1, j⟩ := r
  simp only [] at w m1 m2 hL hR ⊢
  have hl1 : d1.length = d0.length := w.1
  have hjl : j < d1.length := by omega
  have hal : a < d1.length := by omega
  refine ⟨hw0.trans ((w.mono (by omega) (le_refl _)).trans
    (swapAt_within d1 j a a b m1 m2 (le_refl _) (by omega))), m1, m2, ?_, ?_⟩
  · intro k hak hkj
    rw [lessAt_swapAt less d1 j a k j hjl hal]
    have e : (if j = a then j else if j = j then a else j) = a := by
      by_cases h : j = a
      · rw [if_pos h]; exact h
      · rw [if_neg h, if_pos rfl]
    rw [e]
    by_cases hka : k = a
    · rw [if_pos hka]
      exact hL j (by omega) (le_refl _)
    · rw [if_neg hka, if_neg (by omega : ¬ k = j)]
      exact hL k (by omega) (by omega)
  · intro k hjk hkb
    rw [lessAt_swapAt less d1 j a k j hjl hal]
    have e : (if j = a then j else if j = j then a else j) = a := by
      by_cases h : j = a
      · rw [if_pos h]; exact h
      · rw [if_neg h, if_pos rfl]
    rw [e, if_neg (by omega : ¬ k = a), if_neg (by omega : ¬ k = j)]
    exact hR k hjk hkb

/-- The upward scan of the partition into equal and greater elements stops at
the first position from `i` that is beyond `j` or holds an element greater than the pivot at `a`. -/
theorem scanUpEqual_spec {α : Type} (less : α → α → Bool) (d : List α) (a j : Nat) :
    ∀ (fuel i : Nat), j + 1 - i ≤ fuel → i ≤ j + 1 →
      i ≤ scanUpEqual less d a j fuel i ∧ scanUpEqual less d a j fuel i ≤ j + 1 ∧
        (∀ k, i ≤ k → k < scanUpEqual less d a j fuel i → lessAt less d a k = false) ∧
        (scanUpEqual less d a j fuel i ≤ j →
          lessAt less d a (scanUpEqual less d a j fuel i) = true)
  | 0, i, hf, hij => by
    rw [scanUpEqual]
    exact ⟨le_refl _, hij, fun k h1 h2 => by omega, fun h => by omega⟩
  | fuel + 1, i, hf, hij => by
    rw [scanUpEqual]
    by_cases hc : i ≤ j ∧ lessAt less d a i = false
    · rw [if_pos hc]
      obtain ⟨h1, h2, h3, h4⟩ := scanUpEqual_spec less d a j fuel (i + 1) (by omega) (by omega)
      refine ⟨by omega, h2, ?_, h4⟩
      intro k hik hk
      by_cases hki : k = i
      · subst hki
        exact hc.2
      · exact h3 k (by omega) hk
    · rw [if_neg hc]
      refine ⟨le_refl _, hij, fun k h1 h2 => by omega, ?_⟩
      intro hle
      cases hv : lessAt less d a i with
      | true => rfl
      | false => exact absurd ⟨hle, hv⟩ hc

/-- The downward scan of the partition into equal and greater elements stops at
the first position from `j` down that is below `i` or holds an element not
greater than the pivot at `a`. -/
theorem scanDownEqual_spec {α : Type} (less : α → α → Bool) (d : List α) (a i : Nat)
    (hi : 1 ≤ i) :
    ∀ (fuel j : Nat), j + 1 - i ≤ fuel → i ≤ j + 1 →
      scanDownEqual less d a i fuel j ≤ j ∧ i ≤ scanDownEqual less d a i fuel j + 1 ∧
        (∀ k, scanDownEqual less d a i fuel j < k → k ≤ j → lessAt less d a k = true) ∧
        (i ≤ scanDownEqual less d a i fuel j →
          lessAt less d a (scanDownEqual less d a i fuel j) = false)
  | 0, j, hf, hij => by
    rw [scanDownEqual]
    exact ⟨le_refl _, hij, fun k h1 h2 => by omega, fun h => by omega⟩
  | fuel + 1, j, hf, hij => by
    rw [scanDownEqual]
    by_cases hc : i ≤ j ∧ lessAt less d a j = true
    · rw [if_pos hc]
      obtain ⟨h1, h2, h3, h4⟩ :=
        scanDownEqual_spec less d a i hi fuel (j - 1) (by omega) (by omega)
      refine ⟨by omega, h2, ?_, h4⟩
      intro k hk hkj
      by_cases hkj' : k = j
      · subst hkj'
        exact hc.2
      · exact h3 k hk (by omega)
    · rw [if_neg hc]
      refine ⟨le_refl _, hij, fun k h1 h2 => by omega, ?_⟩
      intro hle
      cases hv : lessAt less d a j with
      | false => rfl
      | true => exact absurd ⟨hle, hv⟩ hc

/-- The loop of the partition into equal and greater elements: with the pivot
at `a`, it ends with no element of `(a, i')` greater than the pivot and all of
`[i', b)` greater, at the position `i'` it returns. -/
theorem partitionEqual_loop_spec {α : Type} (less : α → α → Bool) (a b : Nat) :
    ∀ (fuel : Nat) (d : List α) (i j : Nat), j + 1 - i ≤ fuel → a + 1 ≤ i → i ≤ j + 1 → j < b →
      b ≤ d.length →
      (∀ k, a < k → k < i → lessAt less d a k = false) →
      (∀ k, j < k → k < b → lessAt less d a k = true) →
      Within d (partitionEqual_loop less a fuel d i j).1 (a + 1) b ∧
        a + 1 ≤ (partitionEqual_loop less a fuel d i j).2 ∧
        (partitionEqual_loop less a fuel d i j).2 ≤ b ∧
        (∀ k, a < k → k < (partitionEqual_loop less a fuel d i j).2 →
          lessAt less (partitionEqual_loop less a fuel d i j).1 a k = false) ∧
        (∀ k, (partitionEqual_loop less a fuel d i j).2 ≤ k → k < b →
          lessAt less (partitionEqual_loop less a fuel d i j).1 a k = true)
  | 0, d, i, j, hf, hai, hij, hjb, hbl, hL, hR => by
    rw [partitionEqual_loop]
    refine ⟨Within.refl _ _ _, hai, by omega, hL, ?_⟩
    intro k hik hkb
    exact hR k (by omega) hkb
  | fuel + 1, d, i, j, hf, hai, hij, hjb, hbl, hL, hR => by
    rw [partitionEqual_loop]
    obtain ⟨u1, u2, u3, u4⟩ := scanUpEqual_spec less d a j d.length i (by omega) hij
    generalize scanUpEqual less d a j d.length i = i1 at u1 u2 u3 u4 ⊢
    obtain ⟨v1, v2, v3, v4⟩ :=
      scanDownEqual_spec less d a i1 (by omega) d.length j (by omega) u2
    generalize scanDownEqual less d a i1 d.length j = j1 at v1 v2 v3 v4 ⊢
    have hL1 : ∀ k, a < k → k < i1 → lessAt less d a k = false := by
      intro k hak hk
      by_cases hki : k < i
      · exact hL k hak hki
      · exact u3 k (by omega) hk
    have hR1 : ∀ k, j1 < k → k < b → lessAt less d a k = true := by
      intro k hk hkb
      by_cases hkj : j < k
      · exact hR k hkj hkb
      · exact v3 k hk (by omega)
    by_cases hc : i1 > j1
    · rw [if_pos hc]
      refine ⟨Within.refl _ _ _, by omega, by omega, hL1, ?_⟩
      intro k hik hkb
      exact hR1 k (by omega) hkb
    · rw [if_neg hc]
      have hlt : i1 < j1 := by
        by_contra hne
        have he : i1 = j1 := by omega
        have h1 := u4 (by omega)
        have h2 := v4 (by omega)
        rw [he] at h1
        rw [h1] at h2
        exact Bool.noConfusion h2
      have hi1l : i1 < d.length := by omega
      have hj1l : j1 < d.length := by omega
      have ih := partitionEqual_loop_spec less a b fuel (swapAt d i1 j1) (i1 + 1) (j1 - 1)
        (by omega) (by omega) (by omega) (by omega) (by rw [swapAt_length]; exact hbl)
        (by
          intro k hak hk
          rw [lessAt_swapAt less d i1 j1 a k hi1l hj1l]
          rw [if_neg (by omega : ¬ a = j1), if_neg (by omega : ¬ a = i1)]
          rw [if_neg (by omega : ¬ k = j1)]
          by_cases hki : k = i1
          · rw [if_pos hki]
            exact v4 (by omega)
          · rw [if_neg hki]
            exact hL1 k hak (by omega))
        (by
          intro k hk hkb
          rw [lessAt_swapAt less d i1 j1 a k hi1l hj1l]
          rw [if_neg (by omega : ¬ a = j1), if_neg (by omega : ¬ a = i1)]
          by_cases hkj : k = j1
          · rw [if_pos hkj]
            exact u4 (by omega)
          · rw [if_neg hkj, if_neg (by omega : ¬ k = i1)]
            exact hR1 k (by omega) hkb)
      exact ⟨(swapAt_within d i1 j1 (a + 1) b (by omega) (by omega) (by omega) (by omega)).trans
        ih.1, ih.2⟩

/-- The partition of `[a, b)` into the elements equal to the pivot and the
greater ones: the pivot is at `a`, no element before the position returned is
greater than it, and every element from that position on is. -/
theorem partitionEqual_func_spec {α : Type} (less : α → α → Bool) (d : List α)
    (a b pivot : Nat) (hap : a ≤ pivot) (hpb : pivot < b) (hbl : b ≤ d.length) :
    Within d (partitionEqual_func less d a b pivot).1 a b ∧
      (partitionEqual_func less d a b pivot).1[a]? = d[pivot]? ∧
      a + 1 ≤ (partitionEqual_func less d a b pivot).2 ∧
      (partitionEqual_func less d a b pivot).2 ≤ b ∧
      (∀ k, a < k → k < (partitionEqual_func less d a b pivot).2 →
        lessAt less (partitionEqual_func less d a b pivot).1 a k = false) ∧
      (∀ k, (partitionEqual_func less d a b pivot).2 ≤ k → k < b →
        lessAt less (partitionEqual_func less d a b pivot).1 a k = true) := by
  unfold partitionEqual_func
  simp only []
  have hw0 : Within d (swapAt d a pivot) a b :=
    swapAt_within d a pivot a b (le_refl _) (by omega) hap hpb
  have hl0 : (swapAt d a pivot).length = d.length := swapAt_length d a pivot
  have hp0 : (swapAt d a pivot)[a]? = d[pivot]? := by
    rw [swapAt_getElem? d a pivot a (by omega) (by omega)]
    by_cases h : a = pivot
    · rw [if_pos h, h]
    · rw [if_neg h, if_pos rfl]
  generalize swapAt d a pivot = d0 at hw0 hl0 hp0 ⊢
  obtain ⟨w, m1, m2, hL, hR⟩ := partitionEqual_loop_spec less a b (d0.length + 1) d0 (a + 1)
    (b - 1) (by omega) (le_refl _) (by omega) (by omega) (by omega) (fun k h1 h2 => by omega)
    (fun k h1 h2 => by omega)
  refine ⟨hw0.trans (w.mono (by omega) (le_refl _)), ?_, m1, m2, hL, hR⟩
  rw [w.2.1 a (Or.inl (by omega))]
  exact hp0

theorem bitsLen_aux_le (fuel : Nat) : ∀ n, 1 ≤ n → 2 ^ bitsLen_aux fuel n ≤ 2 * n := by
  induction fuel with
  | zero =>
    intro n hn
    rw [bitsLen_aux]
    omega
  | succ fuel ih =>
    intro n hn
    rw [bitsLen_aux, if_neg (by omega : ¬ n = 0)]
    by_cases h2 : n / 2 = 0
    · have h0 : bitsLen_aux fuel (n / 2) = 0 := by
        rw [h2]
        cases fuel with
        | zero => rfl
        | succ f => rw [bitsLen_aux, if_pos rfl]
      rw [h0]
      norm_num
      omega
    · have := ih (n / 2) (by omega)
      rw [pow_add]
      omega

/-- The power of two taken for the modulus is at most twice the length. -/
theorem nextPowerOfTwo_le (n : Nat) (hn : 1 ≤ n) : nextPowerOfTwo n ≤ 2 * n :=
  bitsLen_aux_le 64 n hn

/-- The swaps of `breakPatterns_func` stay inside the range. -/
theorem breakPatterns_loop_within {α : Type} (a b length modulus idx : Nat)
    (hlen : length = b - a) (hm : 1 ≤ modulus) (hml : modulus ≤ 2 * length) (hpos : 1 ≤ length)
    (hidx : a + 1 ≤ idx) :
    ∀ (n i random : Nat) (d : List α), idx - 1 + i + n < b + 1 →
      Within d (breakPatterns_loop a length modulus idx n i random d) a b
  | 0, i, random, d, _ => by
    rw [breakPatterns_loop]
    exact Within.refl _ _ _
  | n + 1, i, random, d, hb => by
    rw [breakPatterns_loop]
    have hr : xorshift_Next random % modulus < modulus := Nat.mod_lt _ (by omega)
    generalize xorshift_Next random % modulus = other at hr
    have ho : (if other ≥ length then other - length else other) < length := by
      split <;> omega
    generalize (if other ≥ length then other - length else other) = o at ho
    exact (swapAt_within d (idx - 1 + i) (a + o) a b (by omega) (by omega) (by omega)
      (by omega)).trans
      (breakPatterns_loop_within a b length modulus idx hlen hm hml hpos hidx n (i + 1) _ _
        (by omega))

/-- Breaking the patterns changes the slice only inside the range. -/
theorem breakPatterns_func_within {α : Type} (d : List α) (a b : Nat) :
    Within d (breakPatterns_func d a b) a b := by
  unfold breakPatterns_func
  simp only []
  split
  · rename_i h
    have hq : b - a ≥ 4 * ((b - a) / 4) := by omega
    have hq2 : (b - a) / 4 ≥ 2 := by omega
    exact breakPatterns_loop_within a b (b - a) (nextPowerOfTwo (b - a))
      (a + (b - a) / 4 * 2 - 1) rfl (Nat.one_le_two_pow) (nextPowerOfTwo_le _ (by omega))
      (by omega) (by omega) 3 0 (b - a) d (by omega)
  · exact Within.refl _ _ _

theorem order2_func_fst {α : Type} (less : α → α → Bool) (d : List α) (a b swaps : Nat) :
    ((order2_func less d a b swaps).1 = a ∧ (order2_func less d a b swaps).2.1 = b) ∨
      ((order2_func less d a b swaps).1 = b ∧ (order2_func less d a b swaps).2.1 = a) := by
  unfold order2_func
  split
  · exact Or.inr ⟨rfl, rfl⟩
  · exact Or.inl ⟨rfl, rfl⟩

/-- The median of three positions is one of them. -/
theorem median_func_mem {α : Type} (less : α → α → Bool) (d : List α) (a b c swaps : Nat) :
    (median_func less d a b c swaps).1 = a ∨ (median_func less d a b c swaps).1 = b ∨
      (median_func less d a b c swaps).1 = c := by
  unfold median_func
  simp only []
  have h1 := order2_func_fst less d a b swaps
  generalize order2_func less d a b swaps = r1 at h1 ⊢
  have h2 := order2_func_fst less d r1.2.1 c r1.2.2
  generalize order2_func less d r1.2.1 c r1.2.2 = r2 at h2 ⊢
  have h3 := order2_func_fst less d r1.1 r2.1 r2.2.2
  generalize order2_func less d r1.1 r2.1 r2.2.2 = r3 at h3 ⊢
  rcases h1 with ⟨e1, e1'⟩ | ⟨e1, e1'⟩ <;> rcases h2 with ⟨e2, e2'⟩ | ⟨e2, e2'⟩ <;>
    rcases h3 with ⟨e3, e3'⟩ | ⟨e3, e3'⟩ <;> simp_all

theorem medianAdjacent_func_mem {α : Type} (less : α → α → Bool) (d : List α) (a swaps : Nat) :
    (medianAdjacent_func less d a swaps).1 = a - 1 ∨ (medianAdjacent_func less d a swaps).1 = a ∨
      (medianAdjacent_func less d a swaps).1 = a + 1 :=
  median_func_mem less d (a - 1) a (a + 1) swaps

/-- The pivot chosen is a position of the range. -/
theorem choosePivot_func_range {α : Type} (less : α → α → Bool) (d : List α) (a b : Nat)
    (hab : a < b) :
    a ≤ (choosePivot_func less d a b).1 ∧ (choosePivot_func less d a b).1 < b := by
  have key : ∀ r : Nat × Nat, (a ≤ r.1 ∧ r.1 < b) →
      a ≤ (if r.2 = 0 then (r.1, sortedHint.increasingHint)
        else if r.2 = 12 then (r.1, sortedHint.decreasingHint)
        else (r.1, sortedHint.unknownHint)).1 ∧
      (if r.2 = 0 then (r.1, sortedHint.increasingHint)
        else if r.2 = 12 then (r.1, sortedHint.decreasingHint)
        else (r.1, sortedHint.unknownHint)).1 < b := by
    intro r hr
    split
    · exact hr
    · split <;> exact hr
  unfold choosePivot_func
  simp only []
  apply key
  have hq : b - a ≥ 4 * ((b - a) / 4) ∧ b - a < 4 * ((b - a) / 4) + 4 := by omega
  generalize (b - a) / 4 = q at hq ⊢
  by_cases h8 : b - a ≥ 8
  · rw [if_pos h8]
    by_cases h50 : b - a ≥ 50
    · rw [if_pos h50]
      have hqq : q ≥ 12 := by omega
      have hi := medianAdjacent_func_mem less d (a + q * 1) 0
      generalize medianAdjacent_func less d (a + q * 1) 0 = ri at hi ⊢
      have hj := medianAdjacent_func_mem less d (a + q * 2) ri.2
      generalize medianAdjacent_func less d (a + q * 2) ri.2 = rj at hj ⊢
      have hk := medianAdjacent_func_mem less d (a + q * 3) rj.2
      generalize medianAdjacent_func less d (a + q * 3) rj.2 = rk at hk ⊢
      have hm := median_func_mem less d ri.1 rj.1 rk.1 rk.2
      generalize median_func less d ri.1 rj.1 rk.1 rk.2 = m at hm ⊢
      omega
    · rw [if_neg h50]
      have hm := median_func_mem less d (a + q * 1) (a + q * 2) (a + q * 3) 0
      generalize median_func less d (a + q * 1) (a + q * 2) (a + q * 3) 0 = m at hm ⊢
      have hqq : q ≥ 2 := by omega
      omega
  · rw [if_neg h8]
    simp only []
    omega

/-- Reversing the range changes the slice only inside the range. -/
theorem reverseRange_loop_within {α : Type} (a b : Nat) :
    ∀ (fuel : Nat) (d : List α) (i j : Nat), a ≤ i → j < b →
      Within d (reverseRange_loop fuel d i j) a b
  | 0, d, i, j, _, _ => by
    rw [reverseRange_loop]
    exact Within.refl _ _ _
  | fuel + 1, d, i, j, hai, hjb => by
    rw [reverseRange_loop]
    split
    · rename_i hij
      exact (swapAt_within d i j a b hai (by omega) (by omega) hjb).trans
        (reverseRange_loop_within a b fuel _ (i + 1) (j - 1) (by omega) (by omega))
    · exact Within.refl _ _ _

theorem reverseRange_func_within {α : Type} (d : List α) (a b : Nat) (hab : a < b) :
    Within d (reverseRange_func d a b) a b :=
  reverseRange_loop_within a b (b - a) d a (b - 1) (le_refl _) (by omega)

/-- The start of a round changes the slice only inside the range and gives a
pivot of the range. -/
theorem pdqsort_pivot_spec {α : Type} (less : α → α → Bool) (d : List α) (a b limit : Nat)
    (wasBalanced : Bool) (hab : a < b) :
    Within d (pdqsort_pivot less d a b limit wasBalanced).1 a b ∧
      a ≤ (pdqsort_pivot less d a b limit wasBalanced).2.2.1 ∧
      (pdqsort_pivot less d a b limit wasBalanced).2.2.1 < b := by
  unfold pdqsort_pivot
  simp only []
  have hw : Within d (if wasBalanced = true then d else breakPatterns_func d a b) a b := by
    split
    · exact Within.refl _ _ _
    · exact breakPatterns_func_within d a b
  generalize (if wasBalanced = true then d else breakPatterns_func d a b) = d1 at hw ⊢
  have hp := choosePivot_func_range less d1 a b hab
  generalize choosePivot_func less d1 a b = ph at hp ⊢
  split
  · refine ⟨hw.trans (reverseRange_func_within d1 a b hab), ?_, ?_⟩
    · simp only []
      omega
    · simp only []
      omega
  · exact ⟨hw, hp.1, hp.2⟩

theorem Within.bounded {α : Type} {less : α → α → Bool} {d d' : List α} {a b : Nat}
    (h : Within d d' a b) (hb : Bounded less d a b) : Bounded less d' a b := by
  refine ⟨hb.1, by rw [h.1]; exact hb.2.1, ?_⟩
  intro ha k hak hkb
  exact h.lessAt_left (a - 1) (Or.inl (by omega)) false (fun k h1 h2 _ => hb.2.2 ha k h1 h2)
    k hak hkb (by have := hb.2.1; omega)

theorem Bounded.sub {α : Type} {less : α → α → Bool} {d : List α} {a b b' : Nat}
    (hb : Bounded less d a b) (hab : a ≤ b') (hbb : b' ≤ b) : Bounded less d a b' :=
  ⟨hab, by have := hb.2.1; omega, fun ha k h1 h2 => hb.2.2 ha k h1 (by omega)⟩

/-- A range in order stays in order when the slice changes only from its end
on. -/
theorem Within.sortedOn_before {α : Type} {less : α → α → Bool} {d d' : List α} {a i b : Nat}
    (h : Within d d' i b) (hs : SortedOn less d a i) : SortedOn less d' a i := by
  intro p q hap hpq hqi
  rw [h.lessAt_outside q p (Or.inl hqi) (Or.inl (by omega))]
  exact hs p q hap hpq hqi

/-- A range in order stays in order when the slice changes only before its
start. -/
theorem Within.sortedOn_after {α : Type} {less : α → α → Bool} {d d' : List α} {a i b : Nat}
    (h : Within d d' a i) (hs : SortedOn less d i b) : SortedOn less d' i b := by
  intro p q hap hpq hqi
  rw [h.lessAt_outside q p (Or.inr (by omega)) (Or.inr hap)]
  exact hs p q hap hpq hqi

/-- A range in order grows by one position when the next element is not below
the last one. -/
theorem SortedOn.extend {α : Type} {less : α → α → Bool} (h : StrictWeakOrder less)
    {d : List α} {a i : Nat} (hs : SortedOn less d a i) (hil : i < d.length)
    (hn : lessAt less d i (i - 1) = false) : SortedOn less d a (i + 1) := by
  intro p q hap hpq hq
  by_cases hqi : q < i
  · exact hs p q hap hpq hqi
  · have hqe : q = i := by omega
    subst hqe
    by_cases hp : p = q - 1
    · subst hp
      exact hn
    · exact lessAt_le_trans h d p (q - 1) q (by omega) (hs p (q - 1) hap (by omega) (by omega)) hn

theorem skipOrdered_spec {α : Type} {less : α → α → Bool} (h : StrictWeakOrder less)
    (d : List α) (a b : Nat) (hbl : b ≤ d.length) :
    ∀ (fuel i : Nat), b - i ≤ fuel → i ≤ b → SortedOn less d a i →
      i ≤ skipOrdered less d b fuel i ∧ skipOrdered less d b fuel i ≤ b ∧
        SortedOn less d a (skipOrdered less d b fuel i)
  | 0, i, hf, hib, hs => by
    rw [skipOrdered]
    exact ⟨le_refl _, hib, hs⟩
  | fuel + 1, i, hf, hib, hs => by
    rw [skipOrdered]
    by_cases hc : i < b ∧ lessAt less d i (i - 1) = false
    · rw [if_pos hc]
      obtain ⟨h1, h2, h3⟩ := skipOrdered_spec h d a b hbl fuel (i + 1) (by omega) (by omega)
        (hs.extend h (by omega) hc.2)
      exact ⟨by omega, h2, h3⟩
    · rw [if_neg hc]
      exact ⟨le_refl _, hib, hs⟩

/-- In a bounded range the shift to the left, which stops at position 1, is the
inner loop of insertion sort, which stops at `a`. -/
theorem shiftLeft_eq {α : Type} (less : α → α → Bool) (a b : Nat) :
    ∀ (fuel : Nat) (d : List α) (j : Nat), a ≤ j → j < b → Bounded less d a b →
      shiftLeft less fuel d j = insertionSort_inner less fuel d a j
  | 0, d, j, _, _, _ => by
    rw [shiftLeft, insertionSort_inner]
  | fuel + 1, d, j, haj, hjb, hb => by
    rw [shiftLeft, insertionSort_inner]
    by_cases hja : j = a
    · subst hja
      rw [if_neg (by omega : ¬ (j < j ∧ lessAt less d j (j - 1) = true))]
      by_cases hj1 : j ≥ 1
      · rw [if_pos hj1, if_pos (hb.2.2 (by omega) j (le_refl _) hjb)]
      · rw [if_neg hj1]
    · rw [if_pos (by omega : j ≥ 1)]
      cases hv : lessAt less d j (j - 1) with
      | false =>
        rw [if_pos rfl, if_neg (by simp)]
      | true =>
        rw [if_neg (by simp), if_pos ⟨by omega, rfl⟩]
        exact shiftLeft_eq less a b fuel _ (j - 1) (by omega) (by omega)
          ((swapAt_within d j (j - 1) a b haj hjb (by omega) (by omega)).bounded hb)

theorem shiftRight_within {α : Type} (less : α → α → Bool) (i b : Nat) :
    ∀ (fuel : Nat) (d : List α) (j : Nat), i < j → Within d (shiftRight less b fuel d j) i b
  | 0, d, j, _ => by
    rw [shiftRight]
    exact Within.refl _ _ _
  | fuel + 1, d, j, hij => by
    rw [shiftRight]
    split
    · rename_i hjb
      split
      · exact Within.refl _ _ _
      · exact (swapAt_within d j (j - 1) i b (by omega) hjb (by omega) (by omega)).trans
          (shiftRight_within less i b fuel _ (j + 1) (by omega))
    · exact Within.refl _ _ _

/-- One round of shifting keeps the part before `i` in order. -/
theorem partialInsertionSort_shift_spec {α : Type} {less : α → α → Bool}
    (h : StrictWeakOrder less) (d : List α) (a b i : Nat) (hai : a + 1 ≤ i) (hib : i < b)
    (hb : Bounded less d a b) (hs : SortedOn less d a i) :
    Within d (partialInsertionSort_shift less d a b i) a b ∧
      SortedOn less (partialInsertionSort_shift less d a b i) a i := by
  unfold partialInsertionSort_shift
  simp only []
  have hbl := hb.2.1
  have hw1 : Within d (swapAt d i (i - 1)) (i - 1) (i + 1) :=
    swapAt_within d i (i - 1) (i - 1) (i + 1) (by omega) (by omega) (le_refl _) (by omega)
  have hs1 : SortedOn less (swapAt d i (i - 1)) a (i - 1) :=
    hw1.sortedOn_before (fun p q hp hpq hq => hs p q hp hpq (by omega))
  have hb1 : Bounded less (swapAt d i (i - 1)) a b :=
    (hw1.mono (by omega) (by omega)).bounded hb
  have hw1' : Within d (swapAt d i (i - 1)) a b := hw1.mono (by omega) (by omega)
  generalize swapAt d i (i - 1) = d1 at hw1 hs1 hb1 hw1' ⊢
  have h2 : Within d1 (if i - a ≥ 2 then shiftLeft less d1.length d1 (i - 1) else d1) a i ∧
      SortedOn less (if i - a ≥ 2 then shiftLeft less d1.length d1 (i - 1) else d1) a i := by
    split
    · rw [shiftLeft_eq less a b d1.length d1 (i - 1) (by omega) (by omega) hb1]
      have := insertionSort_inner_spec h a (i - 1) d1.length d1 (i - 1)
        (by have := hb1.2.1; omega) (by omega) (le_refl _) (by have := hb1.2.1; omega) hs1
        (fun p q hp hpq hq => by omega) (fun p q hp hpq hq hqi => by omega)
      rw [show i - 1 + 1 = i by omega] at this
      exact this
    · exact ⟨Within.refl _ _ _, fun p q hp hpq hq => by omega⟩
  generalize (if i - a ≥ 2 then shiftLeft less d1.length d1 (i - 1) else d1) = d2 at h2 ⊢
  have h3 : Within d2 (if b - i ≥ 2 then shiftRight less b d2.length d2 (i + 1) else d2) i b := by
    split
    · exact shiftRight_within less i b d2.length d2 (i + 1) (by omega)
    · exact Within.refl _ _ _
  generalize (if b - i ≥ 2 then shiftRight less b d2.length d2 (i + 1) else d2) = d3 at h3 ⊢
  exact ⟨hw1'.trans ((h2.1.mono (le_refl _) (by omega)).trans (h3.mono (by omega) (le_refl _))),
    h3.sortedOn_before h2.2⟩

theorem partialInsertionSort_loop_spec {α : Type} {less : α → α → Bool}
    (h : StrictWeakOrder less) (a b : Nat) :
    ∀ (steps : Nat) (d : List α) (i : Nat), a + 1 ≤ i → i ≤ b → Bounded less d a b →
      SortedOn less d a i →
      Within d (partialInsertionSort_loop less a b steps d i).1 a b ∧
        ((partialInsertionSort_loop less a b steps d i).2 = true →
          SortedOn less (partialInsertionSort_loop less a b steps d i).1 a b)
  | 0, d, i, _, _, _, _ => by
    rw [partialInsertionSort_loop]
    exact ⟨Within.refl _ _ _, fun hf => Bool.noConfusion hf⟩
  | steps + 1, d, i, hai, hib, hb, hs => by
    rw [partialInsertionSort_loop]
    obtain ⟨s1, s2, s3⟩ := skipOrdered_spec h d a b hb.2.1 d.length i (by have := hb.2.1; omega) hib hs
    generalize skipOrdered less d b d.length i = i1 at s1 s2 s3 ⊢
    by_cases he : i1 = b
    · rw [if_pos he]
      subst he
      exact ⟨Within.refl _ _ _, fun _ => s3⟩
    · rw [if_neg he]
      by_cases h50 : b - a < 50
      · rw [if_pos h50]
        exact ⟨Within.refl _ _ _, fun hf => Bool.noConfusion hf⟩
      · rw [if_neg h50]
        obtain ⟨w, s⟩ := partialInsertionSort_shift_spec h d a b i1 (by omega) (by omega) hb s3
        have ih := partialInsertionSort_loop_spec h a b steps _ i1 (by omega) s2 (w.bounded hb) s
        exact ⟨w.trans ih.1, ih.2⟩

/-- The partial insertion sort changes a bounded range only inside, and the
range is in order when it reports so. -/
theorem partialInsertionSort_func_spec {α : Type} {less : α → α → Bool}
    (h : StrictWeakOrder less) (d : List α) (a b : Nat) (hab : a < b)
    (hb : Bounded less d a b) :
    Within d (partialInsertionSort_func less d a b).1 a b ∧
      ((partialInsertionSort_func less d a b).2 = true →
        SortedOn less (partialInsertionSort_func less d a b).1 a b) :=
  partialInsertionSort_loop_spec h a b 5 d (a + 1) (le_refl _) hab hb
    (fun p q hp hpq hq => by omega)

theorem lessAt_asymm {α : Type} {less : α → α → Bool} (h : StrictWeakOrder less) (d : List α)
    (i j : Nat) (hi : i < d.length) (hj : j < d.length) (hij : lessAt less d i j = true) :
    lessAt less d j i = false := by
  rw [lessAt_eq less d _ _ hi hj] at hij
  rw [lessAt_eq less d _ _ hj hi]
  exact h.asymm hij

theorem lessAt_self {α : Type} {less : α → α → Bool} (h : StrictWeakOrder less) (d : List α)
    (i : Nat) : lessAt less d i i = false := by
  unfold lessAt
  cases d[i]? with
  | none => rfl
  | some x => exact h.1 x

/-- Sifting down the node `root` restores the heap from `lo` on, when only
`root` may be below its children and the parent of `root` is not below
them. -/
theorem siftDown_func_spec {α : Type} {less : α → α → Bool} (h : StrictWeakOrder less)
    (lo hi first : Nat) :
    ∀ (fuel : Nat) (d : List α) (root : Nat), hi - root ≤ fuel → lo ≤ root →
      first + hi ≤ d.length →
      (∀ r, lo ≤ r → r ≠ root → HeapAt less d first hi r) →
      (∀ p, lo ≤ p → (root = 2 * p + 1 ∨ root = 2 * p + 2) →
        ∀ c, (c = 2 * root + 1 ∨ c = 2 * root + 2) → c < hi →
          lessAt less d (first + p) (first + c) = false) →
      Within d (siftDown_func less fuel d root hi first) (first + lo) (first + hi) ∧
        ∀ r, lo ≤ r → HeapAt less (siftDown_func less fuel d root hi first) first hi r
  | 0, d, root, hf, hlo, hlen, h1, h2 => by
    rw [siftDown_func]
    refine ⟨Within.refl _ _ _, ?_⟩
    intro r hr
    by_cases hrr : r = root
    · intro c hc hchi
      omega
    · exact h1 r hr hrr
  | fuel + 1, d, root, hf, hlo, hlen, h1, h2 => by
    rw [siftDown_func]
    simp only []
    by_cases hch : 2 * root + 1 ≥ hi
    · rw [if_pos hch]
      refine ⟨Within.refl _ _ _, ?_⟩
      intro r hr
      by_cases hrr : r = root
      · intro c hc hchi
        omega
      · exact h1 r hr hrr
    · rw [if_neg hch]
      have hsel : ∃ c1, (c1 = 2 * root + 1 ∨ c1 = 2 * root + 2) ∧ c1 < hi ∧
          (if 2 * root + 1 + 1 < hi ∧
            lessAt less d (first + (2 * root + 1)) (first + (2 * root + 1) + 1) = true
          then 2 * root + 1 + 1 else 2 * root + 1) = c1 ∧
          ∀ c, (c = 2 * root + 1 ∨ c = 2 * root + 2) → c < hi → c ≠ c1 →
            lessAt less d (first + c1) (first + c) = false := by
        by_cases hsel : 2 * root + 1 + 1 < hi ∧
            lessAt less d (first + (2 * root + 1)) (first + (2 * root + 1) + 1) = true
        · refine ⟨2 * root + 2, Or.inr rfl, by omega, by rw [if_pos hsel], ?_⟩
          intro c hc hchi hne
          have hce : c = 2 * root + 1 := by omega
          subst hce
          exact lessAt_asymm h d _ _ (by omega) (by omega) hsel.2
        · refine ⟨2 * root + 1, Or.inl rfl, by omega, by rw [if_neg hsel], ?_⟩
          intro c hc hchi hne
          have hce : c = 2 * root + 2 := by omega
          subst hce
          cases hv : lessAt less d (first + (2 * root + 1)) (first + (2 * root + 2)) with
          | false => rfl
          | true => exact absurd ⟨by omega, hv⟩ hsel
      obtain ⟨c1, hc1, hc1hi, hc1eq, hmax⟩ := hsel
      rw [hc1eq]
      by_cases hle : lessAt less d (first + root) (first + c1) = false
      · rw [if_pos hle]
        refine ⟨Within.refl _ _ _, ?_⟩
        intro r hr
        by_cases hrr : r = root
        · subst hrr
          intro c hc hchi
          by_cases hcc : c = c1
          · subst hcc
            exact hle
          · exact lessAt_le_trans h d (first + c) (first + c1) (first + r) (by omega)
              (hmax c hc hchi hcc) hle
        · exact h1 r hr hrr
      · rw [if_neg hle]
        have hlt : lessAt less d (first + root) (first + c1) = true := by
          cases hv : lessAt less d (first + root) (first + c1) with
          | true => rfl
          | false => exact absurd hv hle
        have hrl : first + root < d.length := by omega
        have hcl : first + c1 < d.length := by omega
        have ih := siftDown_func_spec h lo hi first fuel
          (swapAt d (first + root) (first + c1)) c1 (by omega) (by omega)
          (by rw [swapAt_length]; exact hlen)
          (by
            intro r hr hne c hc hchi
            rw [lessAt_swapAt less d (first + root) (first + c1) (first + r) (first + c) hrl hcl]
            by_cases hrr : r = root
            · subst hrr
              rw [if_neg (by omega : ¬ first + r = first + c1), if_pos rfl]
              by_cases hcc : c = c1
              · subst hcc
                rw [if_pos rfl]
                exact lessAt_asymm h d _ _ hrl hcl hlt
              · rw [if_neg (by omega : ¬ first + c = first + c1),
                  if_neg (by omega : ¬ first + c = first + r)]
                exact hmax c hc hchi hcc
            · rw [if_neg (by omega : ¬ first + r = first + c1),
                if_neg (by omega : ¬ first + r = first + root),
                if_neg (by omega : ¬ first + c = first + c1)]
              by_cases hcr : c = root
              · subst hcr
                rw [if_pos rfl]
                exact h2 r hr hc c1 hc1 hc1hi
              · rw [if_neg (by omega : ¬ first + c = first + root)]
                exact h1 r hr hrr c hc hchi)
          (by
            intro p hp hpc c hc hchi
            have hpr : p = root := by omega
            subst hpr
            rw [lessAt_swapAt less d (first + p) (first + c1) (first + p) (first + c) hrl hcl]
            rw [if_neg (by omega : ¬ first + p = first + c1), if_pos rfl,
              if_neg (by omega : ¬ first + c = first + c1),
              if_neg (by omega : ¬ first + c = first + p)]
            exact h1 c1 (by omega) (by omega) c hc hchi)
        exact ⟨(swapAt_within d (first + root) (first + c1) (first + lo) (first + hi) (by omega)
          (by omega) (by omega) (by omega)).trans ih.1, ih.2⟩

/-- The first loop of heap sort builds a heap. -/
theorem heapSort_build_spec {α : Type} {less : α → α → Bool} (h : StrictWeakOrder less)
    (hi first : Nat) :
    ∀ (n : Nat) (d : List α), first + hi ≤ d.length →
      (∀ r, n ≤ r → HeapAt less d first hi r) →
      Within d (heapSort_build less hi first n d) first (first + hi) ∧
        ∀ r, HeapAt less (heapSort_build less hi first n d) first hi r
  | 0, d, _, h1 => by
    rw [heapSort_build]
    exact ⟨Within.refl _ _ _, fun r => h1 r (Nat.zero_le _)⟩
  | i + 1, d, hlen, h1 => by
    rw [heapSort_build]
    obtain ⟨w, hp⟩ := siftDown_func_spec h i hi first hi d i (by omega) (le_refl _) hlen
      (fun r hr hne => h1 r (by omega))
      (fun p hp hpc => by omega)
    obtain ⟨w2, hp2⟩ := heapSort_build_spec h hi first i _ (by rw [w.1]; exact hlen) hp
    exact ⟨(w.mono (by omega) (le_refl _)).trans w2, hp2⟩

/-- The root of a heap is not below any of its elements. -/
theorem heap_root_max {α : Type} {less : α → α → Bool} (h : StrictWeakOrder less)
    (d : List α) (first n : Nat) (hlen : first + n ≤ d.length)
    (hp : ∀ r, HeapAt less d first n r) :
    ∀ k, k < n → lessAt less d first (first + k) = false := by
  intro k
  induction k using Nat.strong_induction_on with
  | _ k ih =>
    intro hk
    by_cases hk0 : k = 0
    · subst hk0
      exact lessAt_self h d first
    · have h1 := hp ((k - 1) / 2) k (by omega) hk
      have h2 := ih ((k - 1) / 2) (by omega) (by omega)
      exact lessAt_le_trans h d (first + k) (first + (k - 1) / 2) first (by omega) h1 h2

/-- The second loop of heap sort: with a heap of `n` elements, followed by a
part in order that holds no element below one of the heap, the whole range ends
in order. -/
theorem heapSort_pop_spec {α : Type} {less : α → α → Bool} (h : StrictWeakOrder less)
    (hi first : Nat) :
    ∀ (n : Nat) (d : List α), n ≤ hi → first + hi ≤ d.length →
      (∀ r, HeapAt less d first n r) →
      SortedOn less d (first + n) (first + hi) →
      (∀ k m, k < n → n ≤ m → m < hi → lessAt less d (first + m) (first + k) = false) →
      Within d (heapSort_pop less first n d) first (first + hi) ∧
        SortedOn less (heapSort_pop less first n d) first (first + hi)
  | 0, d, _, _, _, h2, _ => by
    rw [heapSort_pop]
    exact ⟨Within.refl _ _ _, h2⟩
  | i + 1, d, hn, hlen, h1, h2, h3 => by
    rw [heapSort_pop]
    have hfl : first < d.length := by omega
    have hil : first + i < d.length := by omega
    have hroot := heap_root_max h d first (i + 1) (by omega) h1
    have hw1 : Within d (swapAt d first (first + i)) first (first + hi) :=
      swapAt_within d first (first + i) first (first + hi) (le_refl _) (by omega) (by omega)
        (by omega)
    obtain ⟨w, hp⟩ := siftDown_func_spec h 0 i first i (swapAt d first (first + i)) 0
      (by omega) (le_refl _) (by rw [swapAt_length]; omega)
      (by
        intro r _ hne c hc hci
        rw [lessAt_swapAt less d first (first + i) (first + r) (first + c) hfl hil]
        rw [if_neg (by omega : ¬ first + r = first + i), if_neg (by omega : ¬ first + r = first),
          if_neg (by omega : ¬ first + c = first + i), if_neg (by omega : ¬ first + c = first)]
        exact h1 r c hc (by omega))
      (fun p _ hpc => by omega)
    have hmid : ∀ k, first ≤ k → k < first + i → k < (swapAt d first (first + i)).length →
        ∀ m, i ≤ m → m < hi →
          lessAt less (swapAt d first (first + i)) (first + m) k = false := by
      intro k hk1 hk2 _ m hm1 hm2
      rw [lessAt_swapAt less d first (first + i) (first + m) k hfl hil]
      rw [if_neg (by omega : ¬ k = first + i)]
      obtain ⟨k0, rfl⟩ : ∃ k0, k = first + k0 := ⟨k - first, by omega⟩
      by_cases hmi : m = i
      · subst hmi
        rw [if_pos rfl]
        by_cases hk0 : k0 = 0
        · subst hk0
          rw [if_pos (by omega : first + 0 = first)]
          exact hroot m (by omega)
        · rw [if_neg (by omega : ¬ first + k0 = first)]
          exact hroot k0 (by omega)
      · rw [if_neg (by omega : ¬ first + m = first + i),
          if_neg (by omega : ¬ first + m = first)]
        by_cases hk0 : k0 = 0
        · subst hk0
          rw [if_pos (by omega : first + 0 = first)]
          exact h3 i m (by omega) (by omega) hm2
        · rw [if_neg (by omega : ¬ first + k0 = first)]
          exact h3 k0 m (by omega) (by omega) hm2
    have w0 : Within (swapAt d first (first + i))
        (siftDown_func less i (swapAt d first (first + i)) 0 i first) first (first + i) := by
      have := w
      rw [Nat.add_zero] at this
      exact this
    have ih := heapSort_pop_spec h hi first i
      (siftDown_func less i (swapAt d first (first + i)) 0 i first) (by omega)
      (by rw [w.1, swapAt_length]; exact hlen) (fun r => hp r (Nat.zero_le _))
      (by
        intro p q hp1 hpq hq
        rw [w0.lessAt_outside q p (Or.inr (by omega)) (Or.inr (by omega))]
        rw [lessAt_swapAt less d first (first + i) q p hfl hil]
        rw [if_neg (by omega : ¬ q = first + i), if_neg (by omega : ¬ q = first)]
        by_cases hpi : p = first + i
        · rw [if_pos hpi]
          obtain ⟨m, rfl⟩ : ∃ m, q = first + m := ⟨q - first, by omega⟩
          have := h3 0 m (by omega) (by omega) (by omega)
          rw [Nat.add_zero] at this
          exact this
        · rw [if_neg hpi, if_neg (by omega : ¬ p = first)]
          exact h2 p q (by omega) hpq hq)
      (by
        intro k m hk hm1 hm2
        exact w0.lessAt_right (first + m) (Or.inr (by omega)) false
          (fun k hk1 hk2 hk3 => hmid k hk1 hk2 hk3 m hm1 hm2) (first + k) (by omega) (by omega)
          (by rw [swapAt_length]; omega))
    exact ⟨hw1.trans ((w0.mono (le_refl _) (by omega)).trans ih.1), ih.2⟩

/-- Heap sort puts the range `[a, b)` in order and rearranges nothing else. -/
theorem heapSort_func_spec {α : Type} {less : α → α → Bool} (h : StrictWeakOrder less)
    (d : List α) (a b : Nat) (hab : a ≤ b) (hbl : b ≤ d.length) :
    Within d (heapSort_func less d a b) a b ∧ SortedOn less (heapSort_func less d a b) a b := by
  unfold heapSort_func
  simp only []
  have hb : a + (b - a) = b := by omega
  obtain ⟨w1, hp⟩ := heapSort_build_spec h (b - a) a ((b - a - 1) / 2 + 1) d (by omega)
    (by
      intro r hr c hc hchi
      omega)
  obtain ⟨w2, hs⟩ := heapSort_pop_spec h (b - a) a (b - a) _ (le_refl _)
    (by rw [w1.1]; omega) hp (fun p q hp hpq hq => by omega) (fun k m hk hm1 hm2 => by omega)
  rw [hb] at w1 w2 hs
  exact ⟨w1.trans w2, hs⟩

theorem lessAt_trans {α : Type} {less : α → α → Bool} (h : StrictWeakOrder less) (d : List α)
    (i j k : Nat) (hij : lessAt less d i j = true) (hjk : lessAt less d j k = true) :
    lessAt less d i k = true := by
  unfold lessAt at hij hjk ⊢
  cases hi : d[i]? with
  | none => simp [hi] at hij
  | some x =>
    cases hj : d[j]? with
    | none => simp [hi, hj] at hij
    | some y =>
      cases hk : d[k]? with
      | none => simp [hj, hk] at hjk
      | some z =>
        simp only [hi, hj, hk] at hij hjk ⊢
        exact h.2.1 x y z hij hjk

/-- A range in order stays in order when the slice changes only in a range
apart from it. -/
theorem Within.sortedOn_of_disjoint {α : Type} {less : α → α → Bool} {d d' : List α}
    {a b a' b' : Nat} (h : Within d d' a' b') (hs : SortedOn less d a b)
    (hd : b ≤ a' ∨ b' ≤ a) : SortedOn less d' a b := by
  intro p q hap hpq hqb
  rw [h.lessAt_outside q p (by omega) (by omega)]
  exact hs p q hap hpq hqb

/-- A bounded range stays bounded when the slice changes only after it. -/
theorem Within.bounded_of_disjoint {α : Type} {less : α → α → Bool} {d d' : List α}
    {a b a' b' : Nat} (h : Within d d' a' b') (hb : Bounded less d a b) (hd : b ≤ a') :
    Bounded less d' a b := by
  refine ⟨hb.1, by rw [h.1]; exact hb.2.1, ?_⟩
  intro ha k hak hkb
  rw [h.lessAt_outside k (a - 1) (Or.inl (by omega)) (Or.inl (by omega))]
  exact hb.2.2 ha k hak hkb

/-- A range is in order when it is partitioned around the position `mid` and
both sides of `mid` are in order. -/
theorem SortedOn.join {α : Type} {less : α → α → Bool} (h : StrictWeakOrder less)
    (d : List α) (a mid b : Nat) (hmb : mid < b) (hbl : b ≤ d.length)
    (hL : ∀ k, a ≤ k → k < mid → lessAt less d k mid = true)
    (hR : ∀ k, mid < k → k < b → lessAt less d k mid = false)
    (hsa : SortedOn less d a mid) (hsb : SortedOn less d (mid + 1) b) : SortedOn less d a b := by
  intro i j hai hij hjb
  by_cases hjm : j < mid
  · exact hsa i j hai hij hjm
  · by_cases him : mid < i
    · exact hsb i j (by omega) hij hjb
    · by_cases hie : i = mid
      · subst hie
        exact hR j (by omega) hjb
      · have hi := hL i hai (by omega)
        by_cases hje : j = mid
        · subst hje
          exact lessAt_asymm h d i j (by omega) (by omega) hi
        · cases hv : lessAt less d j i with
          | false => rfl
          | true =>
            have := lessAt_trans h d j i mid hv hi
            rw [hR j (by omega) hjb] at this
            exact Bool.noConfusion this

/-- Pattern-defeating quicksort puts a bounded range `[a, b)` in order and
rearranges nothing else, given one unit of the first argument more than the
range is long. -/
theorem pdqsort_func_spec {α : Type} {less : α → α → Bool} (h : StrictWeakOrder less) :
    ∀ (fuel : Nat) (d : List α) (a b limit : Nat) (wasBalanced wasPartitioned : Bool),
      b - a < fuel → Bounded less d a b →
      Within d (pdqsort_func less fuel d a b limit wasBalanced wasPartitioned) a b ∧
        SortedOn less (pdqsort_func less fuel d a b limit wasBalanced wasPartitioned) a b
  | 0, _, _, _, _, _, _, hf, _ => absurd hf (Nat.not_lt_zero _)
  | fuel + 1, d, a, b, limit, wasBalanced, wasPartitioned, hf, hb => by
    rw [pdqsort_func]
    by_cases h12 : b - a ≤ 12
    · rw [if_pos h12]
      exact insertionSort_func_spec h d a b hb.1 hb.2.1
    rw [if_neg h12]
    by_cases hl : limit = 0
    · rw [if_pos hl]
      exact heapSort_func_spec h d a b hb.1 hb.2.1
    rw [if_neg hl]
    obtain ⟨pw, pa, pb⟩ := pdqsort_pivot_spec less d a b limit wasBalanced (by omega)
    generalize pdqsort_pivot less d a b limit wasBalanced = p at pw pa pb ⊢
    obtain ⟨d1, limit1, pivot, hint⟩ := p
    simp only [] at pw pa pb ⊢
    have hb1 := pw.bounded hb
    have hpis : Within d1 (if wasBalanced = true ∧ wasPartitioned = true ∧
          hint = sortedHint.increasingHint
        then partialInsertionSort_func less d1 a b else (d1, false)).1 a b ∧
        ((if wasBalanced = true ∧ wasPartitioned = true ∧ hint = sortedHint.increasingHint
          then partialInsertionSort_func less d1 a b else (d1, false)).2 = true →
          SortedOn less (if wasBalanced = true ∧ wasPartitioned = true ∧
            hint = sortedHint.increasingHint
          then partialInsertionSort_func less d1 a b else (d1, false)).1 a b) := by
      split
      · exact partialInsertionSort_func_spec h d1 a b (by omega) hb1
      · exact ⟨Within.refl _ _ _, fun hf => Bool.noConfusion hf⟩
    generalize (if wasBalanced = true ∧ wasPartitioned = true ∧
          hint = sortedHint.increasingHint
        then partialInsertionSort_func less d1 a b else (d1, false)) = pis at hpis ⊢
    obtain ⟨d2, flag⟩ := pis
    simp only [] at hpis ⊢
    obtain ⟨w2, s2⟩ := hpis
    have hb2 := w2.bounded hb1
    have wd2 : Within d d2 a b := pw.trans w2
    have hbl2 : b ≤ d2.length := hb2.2.1
    cases flag with
    | true =>
      rw [if_pos rfl]
      exact ⟨wd2, s2 rfl⟩
    | false =>
      rw [if_neg Bool.false_ne_true]
      by_cases hpe : a > 0 ∧ lessAt less d2 (a - 1) pivot = false
      · rw [if_pos hpe]
        obtain ⟨ew, ep, em1, em2, eL, eR⟩ :=
          partitionEqual_func_spec less d2 a b pivot pa pb hbl2
        generalize partitionEqual_func less d2 a b pivot = r at ew ep em1 em2 eL eR ⊢
        obtain ⟨d3, mid⟩ := r
        simp only [] at ew ep em1 em2 eL eR ⊢
        have hb3 := ew.bounded hb2
        have hbl3 : b ≤ d3.length := hb3.2.1
        have hE : lessAt less d3 (a - 1) a = false := by
          have := hpe.2
          unfold lessAt at this ⊢
          rw [ep, ew.2.1 (a - 1) (Or.inl (by omega))]
          exact this
        have hG : ∀ k, a ≤ k → k < b → lessAt less d3 k a = false := fun k hk1 hk2 =>
          lessAt_le_trans h d3 a (a - 1) k (by omega) hE (hb3.2.2 hpe.1 k hk1 hk2)
        have hL : ∀ k, a ≤ k → k < mid → lessAt less d3 a k = false := by
          intro k hk1 hk2
          by_cases hka : k = a
          · subst hka
            exact lessAt_self h d3 k
          · exact eL k (by omega) hk2
        have hbm : Bounded less d3 mid b := by
          refine ⟨em2, hbl3, ?_⟩
          intro _ k hk1 hk2
          cases hv : lessAt less d3 k (mid - 1) with
          | false => rfl
          | true =>
            have := lessAt_trans h d3 a k (mid - 1) (eR k hk1 hk2) hv
            rw [hL (mid - 1) (by omega) (by omega)] at this
            exact Bool.noConfusion this
        obtain ⟨w4, s4⟩ := pdqsort_func_spec h fuel d3 mid b limit1 wasBalanced wasPartitioned
          (by omega) hbm
        refine ⟨wd2.trans (ew.trans (w4.mono (by omega) (le_refl _))), ?_⟩
        intro i j hai hij hjb
        by_cases hjm : j < mid
        · rw [w4.lessAt_outside j i (Or.inl hjm) (Or.inl (by omega))]
          exact lessAt_le_trans h d3 i a j (by omega) (hL i hai (by omega)) (hG j (by omega) hjb)
        · by_cases him : i < mid
          · refine w4.lessAt_left i (Or.inl him) false ?_ j (by omega) hjb (by omega)
            intro k hk1 hk2 _
            cases hv : lessAt less d3 k i with
            | false => rfl
            | true =>
              have := lessAt_trans h d3 a k i (eR k hk1 hk2) hv
              rw [hL i hai him] at this
              exact Bool.noConfusion this
          · exact s4 i j (by omega) hij hjb
      · rw [if_neg hpe]
        obtain ⟨qw, qm1, qm2, qL, qR⟩ := partition_func_spec less d2 a b pivot pa pb hbl2
        generalize partition_func less d2 a b pivot = r at qw qm1 qm2 qL qR ⊢
        obtain ⟨d3, mid, ap⟩ := r
        simp only [] at qw qm1 qm2 qL qR ⊢
        have hb3 := qw.bounded hb2
        have hbl3 : b ≤ d3.length := hb3.2.1
        have wd3 : Within d d3 a b := wd2.trans qw
        by_cases hlr : mid - a < b - mid
        · rw [if_pos hlr]
          obtain ⟨w4, s4⟩ := pdqsort_func_spec h fuel d3 a mid limit1 true true (by omega)
            (hb3.sub qm1 (by omega))
          generalize pdqsort_func less fuel d3 a mid limit1 true true = d4 at w4 s4 ⊢
          have hbl4 : b ≤ d4.length := by rw [w4.1]; exact hbl3
          have hb5 : Bounded less d4 (mid + 1) b := by
            refine ⟨by omega, hbl4, ?_⟩
            intro _ k hk1 hk2
            rw [Nat.add_sub_cancel, w4.lessAt_outside k mid (Or.inr (by omega))
              (Or.inr (le_refl _))]
            exact qR k (by omega) hk2
          obtain ⟨w5, s5⟩ := pdqsort_func_spec h fuel d4 (mid + 1) b limit1
            (decide (mid - a ≥ (b - a) / 8)) ap (by omega) hb5
          generalize pdqsort_func less fuel d4 (mid + 1) b limit1
            (decide (mid - a ≥ (b - a) / 8)) ap = d5 at w5 s5 ⊢
          refine ⟨wd3.trans ((w4.mono (le_refl _) (by omega)).trans
            (w5.mono (by omega) (le_refl _))), ?_⟩
          refine SortedOn.join h d5 a mid b qm2 (by rw [w5.1]; exact hbl4) ?_ ?_
            (w5.sortedOn_of_disjoint s4 (Or.inl (by omega))) s5
          · intro k hk1 hk2
            rw [w5.lessAt_outside k mid (Or.inl (by omega)) (Or.inl (by omega))]
            exact w4.lessAt_left mid (Or.inr (le_refl _)) true (fun k h1 h2 _ => qL k h1 h2)
              k hk1 hk2 (by omega)
          · intro k hk1 hk2
            refine w5.lessAt_left mid (Or.inl (by omega)) false ?_ k (by omega) hk2 (by omega)
            intro k h1 h2 _
            rw [w4.lessAt_outside k mid (Or.inr (by omega)) (Or.inr (le_refl _))]
            exact qR k (by omega) h2
        · rw [if_neg hlr]
          have hb4 : Bounded less d3 (mid + 1) b := by
            refine ⟨by omega, hbl3, ?_⟩
            intro _ k hk1 hk2
            rw [Nat.add_sub_cancel]
            exact qR k (by omega) hk2
          obtain ⟨w4, s4⟩ := pdqsort_func_spec h fuel d3 (mid + 1) b limit1 true true (by omega)
            hb4
          generalize pdqsort_func less fuel d3 (mid + 1) b limit1 true true = d4 at w4 s4 ⊢
          have hbl4 : b ≤ d4.length := by rw [w4.1]; exact hbl3
          obtain ⟨w5, s5⟩ := pdqsort_func_spec h fuel d4 a mid limit1
            (decide (b - mid ≥ (b - a) / 8)) ap (by omega)
            (w4.bounded_of_disjoint (hb3.sub qm1 (by omega)) (by omega))
          generalize pdqsort_func less fuel d4 a mid limit1
            (decide (b - mid ≥ (b - a) / 8)) ap = d5 at w5 s5 ⊢
          refine ⟨wd3.trans ((w4.mono (by omega) (le_refl _)).trans
            (w5.mono (le_refl _) (by omega))), ?_⟩
          refine SortedOn.join h d5 a mid b qm2 (by rw [w5.1]; exact hbl4) ?_ ?_ s5
            (w5.sortedOn_of_disjoint s4 (Or.inr (by omega)))
          · intro k hk1 hk2
            refine w5.lessAt_left mid (Or.inr (le_refl _)) true ?_ k hk1 hk2 (by omega)
            intro k h1 h2 _
            rw [w4.lessAt_outside k mid (Or.inl (by omega)) (Or.inl (by omega))]
            exact qL k h1 h2
          · intro k hk1 hk2
            rw [w5.lessAt_outside k mid (Or.inr (by omega)) (Or.inr (le_refl _))]
            exact w4.lessAt_left mid (Or.inl (by omega)) false
              (fun k h1 h2 _ => qR k (by omega) h2) k (by omega) hk2 (by omega)

/-- No position of a slice whose whole range is in order holds an element less
than that of an earlier position. -/
theorem pairwise_of_sortedOn {α : Type} {less : α → α → Bool} (d : List α)
    (hs : SortedOn less d 0 d.length) : d.Pairwise (fun x y => less y x = false) := by
  rw [List.pairwise_iff_getElem]
  intro i j hi hj hij
  have := hs i j (Nat.zero_le _) hij hj
  rw [lessAt_eq less d j i hj hi] at this
  exact this

/-- The model of `sort.Slice` puts the slice in order under any strict weak
order. -/
theorem Slice_sorted {α : Type} {less : α → α → Bool} (h : StrictWeakOrder less) (x : List α) :
    (Slice less x).Pairwise (fun a b => less b a = false) := by
  obtain ⟨w, s⟩ := pdqsort_func_spec h (x.length + 1) x 0 x.length (bitsLen x.length) true true
    (by omega) ⟨Nat.zero_le _, le_refl _, fun h0 => absurd h0 (Nat.lt_irrefl 0)⟩
  apply pairwise_of_sortedOn
  unfold Slice
  rw [w.1]
  exact s

end GoSort

namespace Check

/-! ## Theorems: `check` -/

theorem lessEndTime_eq_true {a b : BackupItem} :
    lessEndTime a b = true ↔ a.EndTime.ns < b.EndTime.ns := by
  simp [lessEndTime, Time.Before]

theorem lessEndTime_eq_false {a b : BackupItem} :
    lessEndTime a b = false ↔ b.EndTime.ns ≤ a.EndTime.ns := by
  simp [lessEndTime, Time.Before]

/-- The comparison by end time is one `sort.Slice` can sort by. -/
theorem lessEndTime_strictWeak : GoSort.StrictWeakOrder lessEndTime := by
  refine ⟨?_, ?_, ?_⟩
  · intro a
    simp [lessEndTime_eq_false]
  · intro a b c h1 h2
    have h1 := lessEndTime_eq_true.1 h1
    have h2 := lessEndTime_eq_true.1 h2
    exact lessEndTime_eq_true.2 (lt_trans h1 h2)
  · intro a b c h1 h2 h3 h4
    have h1 := lessEndTime_eq_false.1 h1
    have h2 := lessEndTime_eq_false.1 h2
    have h3 := lessEndTime_eq_false.1 h3
    have h4 := lessEndTime_eq_false.1 h4
    exact ⟨lessEndTime_eq_false.2 (le_trans h3 h1), lessEndTime_eq_false.2 (le_trans h2 h4)⟩

/-- Under the contract of `sort.Slice` the result has the runs of the response
and is in non-decreasing order of end time. -/
theorem sorted_of_contract (sortSlice : SliceSorter) (hsort : SortSliceContract sortSlice)
    (items : List BackupItem) :
    (sortSlice lessEndTime items).Perm items ∧
      (sortSlice lessEndTime items).Pairwise (fun a b => a.EndTime.ns ≤ b.EndTime.ns) := by
  exact ⟨hsort.1 lessEndTime items,
    (hsort.2 lessEndTime items lessEndTime_strictWeak).imp
      (fun hab => lessEndTime_eq_false.1 hab)⟩

/-- Sorting by insertion after any rearrangement meets the contract of
`sort.Slice`. -/
theorem insertionSort_contract (f : List BackupItem → List BackupItem)
    (hf : ∀ xs, (f xs).Perm xs) :
    SortSliceContract (fun less xs => (f xs).insertionSort (fun a b => less b a = false)) := by
  refine ⟨fun less xs => (List.perm_insertionSort _ _).trans (hf xs), ?_⟩
  rintro less xs ⟨hirr, htr, hinc⟩
  have hasym : ∀ a b, less a b = true → less b a = false := by
    intro a b hab
    cases hba : less b a with
    | false => rfl
    | true =>
      have := htr a b a hab hba
      rw [hirr a] at this
      exact absurd this (by simp)
  haveI : IsTotal BackupItem (fun a b => less b a = false) := ⟨by
    intro a b
    cases hba : less b a with
    | false => exact Or.inl rfl
    | true => exact Or.inr (hasym b a hba)⟩
  haveI : IsTrans BackupItem (fun a b => less b a = false) := ⟨by
    intro a b c hab hbc
    show less c a = false
    cases hca : less c a with
    | false => rfl
    | true =>
      exfalso
      have hbc' : less b c = false := by
        cases h : less b c with
        | false => rfl
        | true =>
          have := htr b c a h hca
          rw [hab] at this
          exact absurd this (by simp)
      have hab' : less a b = false := by
        cases h : less a b with
        | false => rfl
        | true =>
          have := htr c a b hca h
          rw [hbc] at this
          exact absurd this (by simp)
      have := (hinc a b c hab' hab hbc' hbc).2
      rw [hca] at this
      exact absurd this (by simp)⟩
  exact List.sorted_insertionSort _ _

/-- The sort of the Go library keeps the elements, for every comparison. -/
theorem goSortSlice_keepsElements : KeepsElements goSortSlice :=
  fun less xs => GoSort.Slice_perm less xs

/-- The sort of the Go library meets the contract of `sort.Slice`. -/
theorem goSortSlice_contract : SortSliceContract goSortSlice :=
  ⟨goSortSlice_keepsElements, fun _ xs h => GoSort.Slice_sorted h xs⟩

theorem reversingSorter_contract : SortSliceContract reversingSorter :=
  insertionSort_contract (fun xs => xs.reverse) (fun xs => List.reverse_perm xs)

/-- Two arrangements of the same runs in non-decreasing order of end time are
equal when no two of the runs have the same end time. -/
theorem eq_of_sorted_of_distinct (l1 l2 : List BackupItem) (hp : l1.Perm l2)
    (h1 : l1.Pairwise (fun a b => a.EndTime.ns ≤ b.EndTime.ns))
    (h2 : l2.Pairwise (fun a b => a.EndTime.ns ≤ b.EndTime.ns))
    (hd : (l1.map (fun r => r.EndTime.ns)).Nodup) : l1 = l2 := by
  have hd2 : (l2.map (fun r => r.EndTime.ns)).Nodup := (hp.map _).nodup_iff.1 hd
  have hne1 : l1.Pairwise (fun a b => a.EndTime.ns ≠ b.EndTime.ns) := by
    have := hd
    rw [List.Nodup, List.pairwise_map] at this
    exact this
  have hne2 : l2.Pairwise (fun a b => a.EndTime.ns ≠ b.EndTime.ns) := by
    have := hd2
    rw [List.Nodup, List.pairwise_map] at this
    exact this
  have hs1 : l1.Pairwise (fun a b => a.EndTime.ns < b.EndTime.ns) :=
    (h1.and hne1).imp (fun h => lt_of_le_of_ne h.1 h.2)
  have hs2 : l2.Pairwise (fun a b => a.EndTime.ns < b.EndTime.ns) :=
    (h2.and hne2).imp (fun h => lt_of_le_of_ne h.1 h.2)
  haveI : IsAntisymm BackupItem (fun a b => a.EndTime.ns < b.EndTime.ns) :=
    ⟨fun a b hab hba => absurd hab (not_lt.2 (le_of_lt hba))⟩
  exact List.eq_of_perm_of_sorted hp hs1 hs2

/-- The result of `ListBackupRuns` when the listing is answered. -/
theorem listBackupRuns_ok (sortSlice : SliceSorter) (backend : Backend) (input : JSONSource)
    (items : List BackupItem) (hitems : backend.backupRuns input.Source = .ok items) :
    ListBackupRuns sortSlice backend input = .ok (sortSlice lessEndTime items) := by
  simp [ListBackupRuns, hitems]

/-- Whatever `check` prints is the id list of the reordered runs. -/
theorem main_printed (sortSlice : SliceSorter) (env : Env) (backend : Backend)
    (input : JSONSource) (items : List BackupItem)
    (hitems : backend.backupRuns input.Source = .ok items) :
    ∀ ids ∈ (main sortSlice env backend (.ok input)).printed,
      ids = (sortSlice lessEndTime items).map (fun b => (⟨b.BackupID⟩ : BackupID)) := by
  have hl := listBackupRuns_ok sortSlice backend input items hitems
  have hq := (In.credentials_quiet (π := List BackupID) env input.Source.PrivateKey).2.1
  intro ids hids
  rcases hw : WriteCredentialToFile (π := List BackupID) env input.Source.PrivateKey with ⟨evs, c⟩
  rw [hw] at hq
  simp only [Outcome.printed] at hq
  cases c with
  | some e =>
    have hm : main sortSlice env backend (.ok input) = ⟨evs, .fatal e⟩ := by simp [main, hw]
    rw [hm] at hids
    simp [Outcome.printed, hq] at hids
  | none =>
    by_cases hv : input.Version.BackupID = ""
    · have hm : main sortSlice env backend (.ok input) =
          emit (evs ++ [.call .ListBackupRuns (backupRunsURL input.Source)])
            (sortSlice lessEndTime items) := by
        simp [main, hw, hv, hl]
      rw [hm] at hids
      simp [emit, Outcome.printed, List.filterMap_append, hq] at hids
      exact hids
    · cases hg : GetBackupItem backend input with
      | error e =>
        have hm : main sortSlice env backend (.ok input) =
            ⟨evs ++ [.call .GetBackupItem (backupRunURL input)], .fatal e⟩ := by
          simp [main, hw, hv, hg]
        rw [hm] at hids
        simp [Outcome.printed, List.filterMap_append, hq] at hids
      | ok one =>
        have hm : main sortSlice env backend (.ok input) =
            emit (evs ++ [.call .GetBackupItem (backupRunURL input),
              .call .ListBackupRuns (backupRunsURL input.Source)])
              (sortSlice lessEndTime items) := by
          simp [main, hw, hv, hg, hl]
        rw [hm] at hids
        simp [emit, Outcome.printed, List.filterMap_append, hq] at hids
        exact hids

/-- The run of `check` when the credentials are written, the listing is
answered and, if a version is given, the request for it is answered: one id
list is printed and the exit status is 0. -/
theorem main_emits (sortSlice : SliceSorter) (env : Env) (backend : Backend)
    (input : JSONSource) (items : List BackupItem)
    (hitems : backend.backupRuns input.Source = .ok items)
    (hc : env.Create "/service-account.json" = none)
    (hw : env.Write "/service-account.json" input.Source.PrivateKey = none)
    (hv : input.Version.BackupID = "" ∨ ∃ rec, backend.backupRun input = .ok rec) :
    (main sortSlice env backend (.ok input)).printed =
        [(sortSlice lessEndTime items).map (fun b => (⟨b.BackupID⟩ : BackupID))] ∧
      (main sortSlice env backend (.ok input)).exit = Exit.ok := by
  have hl := listBackupRuns_ok sortSlice backend input items hitems
  have hcred := Out.credentials_ok (π := List BackupID) env input.Source.PrivateKey hc hw
  unfold main
  simp only [hcred]
  by_cases hver : input.Version.BackupID = ""
  · simp [hver, hl, emit, Outcome.printed]
  · rcases hv with hv | ⟨rec, hrec⟩
    · exact absurd hv hver
    · simp [hver, hl, emit, Outcome.printed, GetBackupItem, hrec]

/-- In a list in non-decreasing order of end time no run ends after the last
one. -/
theorem le_getLast_of_sorted (l : List BackupItem)
    (hs : l.Pairwise (fun a b => a.EndTime.ns ≤ b.EndTime.ns)) (x y : BackupItem)
    (hx : x ∈ l) (hy : l.getLast? = some y) : x.EndTime.ns ≤ y.EndTime.ns := by
  obtain ⟨k, hk, rfl⟩ := List.mem_iff_getElem.1 hx
  rw [List.getLast?_eq_getElem?] at hy
  have hlen : l.length - 1 < l.length := by omega
  rw [List.getElem?_eq_getElem hlen] at hy
  have hy' : l[l.length - 1] = y := Option.some.inj hy
  rw [← hy']
  by_cases hkl : k = l.length - 1
  · subst hkl
    exact le_refl _
  · exact (List.pairwise_iff_getElem.1 hs) k (l.length - 1) hk hlen (by omega)

/-- C3, as amended: when the service answers the listing with `items` and
`sort.Slice` keeps its contract, the list `ListBackupRuns` returns, which is
the list whose ids `check` emits in the same order, is in non-decreasing order
of end time, an absent end time being the zero instant
0001-01-01T00:00:00Z.  So every run with no end time comes before every run
whose end time is later than the zero instant, and when some run has such an
end time the last run has one too. -/
theorem listBackupRuns_ordered (sortSlice : SliceSorter) (hsort : SortSliceContract sortSlice)
    (backend : Backend) (input : JSONSource) (items : List BackupItem)
    (hitems : backend.backupRuns input.Source = .ok items) :
    ∃ sorted : List BackupItem, ListBackupRuns sortSlice backend input = .ok sorted ∧
      sorted.Pairwise (fun a b => a.EndTime.ns ≤ b.EndTime.ns) ∧
      (∀ (i j : Nat) (hi : i < sorted.length) (hj : j < sorted.length),
        sorted[i].EndTime.IsZero = true → 0 < sorted[j].EndTime.ns → i < j) ∧
      ((∃ r ∈ items, 0 < r.EndTime.ns) →
        ∃ l, sorted.getLast? = some l ∧ 0 < l.EndTime.ns) ∧
      (∀ env : Env, ∀ ids ∈ (main sortSlice env backend (.ok input)).printed,
        ids = sorted.map (fun b => (⟨b.BackupID⟩ : BackupID))) := by
  obtain ⟨hperm, hs⟩ := sorted_of_contract sortSlice hsort items
  refine ⟨sortSlice lessEndTime items, listBackupRuns_ok sortSlice backend input items hitems,
    hs, ?_, ?_, fun env => main_printed sortSlice env backend input items hitems⟩
  · intro i j hi hj hz hpos
    by_contra hij
    have hz' : (sortSlice lessEndTime items)[i].EndTime.ns = 0 := by
      simpa [Time.IsZero] using hz
    by_cases hji : j = i
    · subst hji
      omega
    · have := (List.pairwise_iff_getElem.1 hs) j i hj hi (by omega)
      omega
  · rintro ⟨r, hr, hpos⟩
    have hr' : r ∈ sortSlice lessEndTime items := hperm.mem_iff.2 hr
    have hne : sortSlice lessEndTime items ≠ [] := List.ne_nil_of_mem hr'
    refine ⟨(sortSlice lessEndTime items).getLast hne, List.getLast?_eq_getLast _ hne, ?_⟩
    have := le_getLast_of_sorted _ hs r _ hr' (List.getLast?_eq_getLast _ hne)
    omega

/-- C3, an instance: three runs, the one without end time listed second; the
sort of the Go library, which keeps the contract, returns it first. -/
theorem listBackupRuns_ordered_witness :
    SortSliceContract goSortSlice ∧
      (ListBackupRuns goSortSlice (backendOf threeRuns) inputNoVersion).toOption.map
        (fun l => l.map (fun b => b.BackupID)) = some ["u", "a", "b"] ∧
      ∃ sorted : List BackupItem,
        ListBackupRuns goSortSlice (backendOf threeRuns) inputNoVersion = .ok sorted ∧
        sorted.Pairwise (fun a b => a.EndTime.ns ≤ b.EndTime.ns) := by
  refine ⟨goSortSlice_contract, by decide, ?_⟩
  obtain ⟨sorted, h1, h2, -⟩ := listBackupRuns_ordered goSortSlice goSortSlice_contract
    (backendOf threeRuns) inputNoVersion threeRuns rfl
  exact ⟨sorted, h1, h2⟩

/-- C3 as stated fails: the service lists a run without end time and then a
run whose end time is `0001-01-01T00:00:00+08:00`, eight hours before the zero
instant.  Under every sort that keeps the contract of `sort.Slice` the run
that has an end time comes first and the run without one comes last, and this
is the order of the ids `check` emits. -/
theorem listBackupRuns_end_before_zero :
    (∀ sortSlice : SliceSorter, SortSliceContract sortSlice →
        ListBackupRuns sortSlice (backendOf earlyRuns) inputNoVersion =
          .ok [mkRun "early" "SUCCESSFUL" beforeZero, mkRun "unfinished" "RUNNING" Time.zero]) ∧
      (mkRun "early" "SUCCESSFUL" beforeZero).EndTime.IsZero = false ∧
      (mkRun "unfinished" "RUNNING" Time.zero).EndTime.IsZero = true ∧
      (main goSortSlice envOK (backendOf earlyRuns) (.ok inputNoVersion)).printed =
        [[⟨"early"⟩, ⟨"unfinished"⟩]] := by
  refine ⟨?_, by decide, by decide, by decide⟩
  intro sortSlice hsort
  obtain ⟨hperm, hs⟩ := sorted_of_contract sortSlice hsort earlyRuns
  rw [listBackupRuns_ok sortSlice (backendOf earlyRuns) inputNoVersion earlyRuns rfl]
  congr 1
  apply eq_of_sorted_of_distinct _ _ (hperm.trans (List.Perm.swap _ _ _)) hs
  · decide
  · exact (hperm.map _).nodup_iff.2 (by decide)

/-- C4, as amended: when no two runs of the response have the same end time,
the list `ListBackupRuns` returns is determined by the end times alone: it is
the same for every order in which the service lists the runs and for every
sort that keeps the contract of `sort.Slice`.  (For runs with the same end
time the contract leaves the order open.) -/
theorem order_determined_when_distinct (sort1 sort2 : SliceSorter)
    (h1 : SortSliceContract sort1) (h2 : SortSliceContract sort2)
    (backend1 backend2 : Backend) (input : JSONSource) (items1 items2 : List BackupItem)
    (hb1 : backend1.backupRuns input.Source = .ok items1)
    (hb2 : backend2.backupRuns input.Source = .ok items2)
    (hperm : items1.Perm items2)
    (hdistinct : (items1.map (fun r => r.EndTime.ns)).Nodup) :
    ListBackupRuns sort1 backend1 input = ListBackupRuns sort2 backend2 input := by
  obtain ⟨hp1, hs1⟩ := sorted_of_contract sort1 h1 items1
  obtain ⟨hp2, hs2⟩ := sorted_of_contract sort2 h2 items2
  rw [listBackupRuns_ok sort1 backend1 input items1 hb1,
    listBackupRuns_ok sort2 backend2 input items2 hb2]
  congr 1
  exact eq_of_sorted_of_distinct _ _ (hp1.trans (hperm.trans hp2.symm)) hs1 hs2
    ((hp1.map _).nodup_iff.2 hdistinct)

/-- C4, an instance: three runs with three end times, listed in two orders, and
sorted by the sort of the Go library and by another sort that keeps the
contract. -/
theorem order_determined_when_distinct_witness :
    ListBackupRuns goSortSlice (backendOf threeRuns) inputNoVersion =
      ListBackupRuns reversingSorter (backendOf threeRuns.reverse) inputNoVersion :=
  order_determined_when_distinct goSortSlice reversingSorter goSortSlice_contract
    reversingSorter_contract (backendOf threeRuns) (backendOf threeRuns.reverse) inputNoVersion
    threeRuns threeRuns.reverse rfl rfl (List.reverse_perm _).symm (by decide)

/-- C4 as stated fails.  The service lists thirteen runs, newest first: `n13`
and `n12`, which have no end time, then eleven finished runs.  The sort of the
Go library returns `n12` before `n13`, and `check` emits the ids in that
order.  Also below the 13 elements at which the library leaves insertion
sort, the contract of `sort.Slice` allows it: a sort that keeps the contract
returns two runs with the same end time in reverse order. -/
theorem listBackupRuns_reorders_ties :
    thirteenRuns.map (fun b => b.BackupID) =
        ["n13", "n12", "d11", "d10", "d09", "d08", "d07", "d06", "d05", "d04", "d03", "d02",
         "d01"] ∧
      (mkRun "n13" "RUNNING" Time.zero).EndTime = (mkRun "n12" "ENQUEUED" Time.zero).EndTime ∧
      (ListBackupRuns goSortSlice (backendOf thirteenRuns) inputNoVersion).toOption.map
          (fun l => l.map (fun b => b.BackupID)) =
        some ["n12", "n13", "d01", "d02", "d03", "d04", "d05", "d06", "d07", "d08", "d09",
          "d10", "d11"] ∧
      (main goSortSlice envOK (backendOf thirteenRuns) (.ok inputNoVersion)).printed =
        [[⟨"n12"⟩, ⟨"n13"⟩, ⟨"d01"⟩, ⟨"d02"⟩, ⟨"d03"⟩, ⟨"d04"⟩, ⟨"d05"⟩, ⟨"d06"⟩, ⟨"d07"⟩,
          ⟨"d08"⟩, ⟨"d09"⟩, ⟨"d10"⟩, ⟨"d11"⟩]] ∧
      SortSliceContract reversingSorter ∧
      ListBackupRuns reversingSorter (backendOf tiedRuns) inputNoVersion =
        .ok [mkRun "second" "SUCCESSFUL" (daysBack 0), mkRun "first" "SUCCESSFUL" (daysBack 0)] := by
  refine ⟨by decide, by decide, by decide, by decide, reversingSorter_contract, by decide⟩

/-- C5, as amended: for every source, every machine and every state of the
service, `check` given a non-empty version whose run the service returns
(whatever the run) prints the same and ends the same as `check` given no
version, and what either prints is the id list of all runs as reordered by
`ListBackupRuns`.  When the request for the run of the version fails, `check`
prints nothing and ends fatally. -/
theorem check_version_ignored (sortSlice : SliceSorter) (env : Env) (backend : Backend)
    (source : SourceConfig) (id : String) (hid : id ≠ "") :
    (∀ rec, backend.backupRun ⟨source, ⟨id⟩⟩ = .ok rec →
        (main sortSlice env backend (.ok ⟨source, ⟨id⟩⟩)).printed =
          (main sortSlice env backend (.ok ⟨source, ⟨""⟩⟩)).printed ∧
        (main sortSlice env backend (.ok ⟨source, ⟨id⟩⟩)).exit =
          (main sortSlice env backend (.ok ⟨source, ⟨""⟩⟩)).exit) ∧
      (∀ items, backend.backupRuns source = .ok items →
        ∀ ids ∈ (main sortSlice env backend (.ok ⟨source, ⟨id⟩⟩)).printed ++
            (main sortSlice env backend (.ok ⟨source, ⟨""⟩⟩)).printed,
          ids = (sortSlice lessEndTime items).map (fun b => (⟨b.BackupID⟩ : BackupID))) ∧
      (∀ err, backend.backupRun ⟨source, ⟨id⟩⟩ = .error err →
        (main sortSlice env backend (.ok ⟨source, ⟨id⟩⟩)).printed = [] ∧
        ∃ e, (main sortSlice env backend (.ok ⟨source, ⟨id⟩⟩)).exit = Exit.fatal e) := by
  have hq := (In.credentials_quiet (π := List BackupID) env source.PrivateKey).2.1
  rcases hw : WriteCredentialToFile (π := List BackupID) env source.PrivateKey with ⟨evs, c⟩
  rw [hw] at hq
  simp only [Outcome.printed] at hq
  refine ⟨?_, ?_, ?_⟩
  · intro rec hrec
    cases c with
    | some e => simp [main, hw]
    | none =>
      cases hl : backend.backupRuns source with
      | error e =>
        simp [main, hw, hid, GetBackupItem, hrec, ListBackupRuns, hl, Outcome.printed,
          List.filterMap_append, hq]
      | ok items =>
        simp [main, hw, hid, GetBackupItem, hrec, ListBackupRuns, hl, emit, Outcome.printed,
          List.filterMap_append, hq]
  · intro items hitems ids hids
    rcases List.mem_append.1 hids with h | h
    · exact main_printed sortSlice env backend ⟨source, ⟨id⟩⟩ items hitems ids h
    · exact main_printed sortSlice env backend ⟨source, ⟨""⟩⟩ items hitems ids h
  · intro err herr
    cases c with
    | some e => simp [main, hw, Outcome.printed, hq]
    | none =>
      simp [main, hw, hid, GetBackupItem, herr, Outcome.printed, List.filterMap_append, hq]

/-- C5, an instance: the version `u` against a service that holds three
runs. -/
theorem check_version_ignored_witness :
    (main goSortSlice envOK (backendOf threeRuns) (.ok ⟨⟨"p", "i", "k"⟩, ⟨"u"⟩⟩)).printed =
        [[⟨"u"⟩, ⟨"a"⟩, ⟨"b"⟩]] ∧
      (main goSortSlice envOK (backendOf threeRuns) (.ok ⟨⟨"p", "i", "k"⟩, ⟨"u"⟩⟩)).printed =
        (main goSortSlice envOK (backendOf threeRuns) (.ok ⟨⟨"p", "i", "k"⟩, ⟨""⟩⟩)).printed := by
  obtain ⟨h1, -, -⟩ := check_version_ignored goSortSlice envOK (backendOf threeRuns)
    ⟨"p", "i", "k"⟩ "u" (by decide)
  exact ⟨by decide, (h1 (mkRun "u" "RUNNING" Time.zero) (by decide)).1⟩

/-- C5 as stated fails: for the version `%zz` no request for the run can be
built, and `check` ends fatally without printing, while `check` with no
version against the same service prints the three ids. -/
theorem check_unfetchable_version :
    (main goSortSlice envOK (backendOf threeRuns) (.ok inputBadEscape)).printed = [] ∧
      (main goSortSlice envOK (backendOf threeRuns) (.ok inputBadEscape)).exit =
        Exit.fatal "invalid URL escape" ∧
      (main goSortSlice envOK (backendOf threeRuns) (.ok inputNoVersion)).printed =
        [[⟨"u"⟩, ⟨"a"⟩, ⟨"b"⟩]] ∧
      (main goSortSlice envOK (backendOf threeRuns) (.ok inputNoVersion)).exit = Exit.ok := by
  refine ⟨?_, ?_, ?_, ?_⟩ <;> decide

/-- C10: when the service answers the listing with `items` and `sort.Slice`
keeps the elements of the slice (as the sort of the Go library does), every id
list `check` prints has as many entries as
`items`, its ids are those of `items` with the same multiplicities, and its
`i`-th id is the id of the `i`-th run of the list `ListBackupRuns` returns,
whatever the status of the runs.  Such a list is printed, and the exit status
is 0, when the credentials file is written and either no version is given or
the request for the run of the version is answered. -/
theorem check_emits_every_run_once (sortSlice : SliceSorter)
    (hsort : KeepsElements sortSlice) (env : Env) (backend : Backend) (input : JSONSource)
    (items : List BackupItem) (hitems : backend.backupRuns input.Source = .ok items) :
    ∃ sorted : List BackupItem, ListBackupRuns sortSlice backend input = .ok sorted ∧
      sorted.Perm items ∧
      (∀ ids ∈ (main sortSlice env backend (.ok input)).printed,
        ids.length = items.length ∧
        (ids.map (fun v => v.BackupID)).Perm (items.map (fun b => b.BackupID)) ∧
        ∀ (i : Nat) (hi : i < ids.length) (hs : i < sorted.length),
          ids[i].BackupID = sorted[i].BackupID) ∧
      (env.Create "/service-account.json" = none →
        env.Write "/service-account.json" input.Source.PrivateKey = none →
        (input.Version.BackupID = "" ∨ ∃ rec, backend.backupRun input = .ok rec) →
        (main sortSlice env backend (.ok input)).printed =
          [sorted.map (fun b => (⟨b.BackupID⟩ : BackupID))] ∧
        (main sortSlice env backend (.ok input)).exit = Exit.ok) := by
  have hperm := hsort lessEndTime items
  refine ⟨sortSlice lessEndTime items, listBackupRuns_ok sortSlice backend input items hitems,
    hperm, ?_, fun hc hw hv => main_emits sortSlice env backend input items hitems hc hw hv⟩
  intro ids hids
  have hids' := main_printed sortSlice env backend input items hitems ids hids
  subst hids'
  refine ⟨?_, ?_, ?_⟩
  · rw [List.length_map]
    exact hperm.length_eq
  · rw [List.map_map]
    exact hperm.map _
  · intro i hi hs
    simp

/-- C10, an instance: the thirteen runs, two of them unfinished, sorted by the
sort of the Go library; thirteen ids are emitted. -/
theorem check_emits_every_run_once_witness :
    (main goSortSlice envOK (backendOf thirteenRuns) (.ok inputNoVersion)).printed.map
      (fun ids => ids.length) = [13] := by
  obtain ⟨sorted, h1, h2, -, h4⟩ := check_emits_every_run_once goSortSlice
    goSortSlice_keepsElements envOK (backendOf thirteenRuns) inputNoVersion thirteenRuns rfl
  rw [(h4 rfl rfl (Or.inl rfl)).1]
  simp only [List.map_cons, List.map_nil, List.length_map]
  rw [h2.length_eq]
  rfl

end Check

end CloudSqlBackup
